import Mathlib

/-!
Verification of the gcache in-process cache library (Go) against its
natural-language specification.

Shallow embedding conventions:
* Keys, values and time instants are natural numbers (`Key`, `Value`, `Time`);
  Go durations are also `Time`.
* Go maps are association lists `List (Key × _)`; a fixed representative
  iteration order (insertion order: new keys appended at the tail) stands in
  for Go's unspecified map iteration order.
* `container/list` doubly-linked lists of keys are `List Key`, head = front.
* The clock (`clock.go`) is passed as an explicit `now : Time` argument.
* Callbacks (`addedFunc`, `evictedFunc`, `purgeVisitorFunc`) are modelled as an
  append-only event log inside the state; firing a callback appends an event.
* The hit/miss statistics counters live in the state (`hitCount`, `missCount`).
* Serialize/deserialize hooks are optional functions in a `Config` record;
  an erroring hook yields `GErr.custom`.
* Fallible operations return `Except GErr _` or pair their result with the
  next state.
-/

set_option autoImplicit false

namespace GCache

/-- Keys of the cache (Go `interface{}` keys). -/
abbrev Key := Nat

/-- Values stored in the cache (Go `interface{}` values). -/
abbrev Value := Nat

/-- Instants and durations (Go `time.Time` / `time.Duration`). -/
abbrev Time := Nat

/-- Errors surfaced by cache operations.  `keyNotFound` is the sentinel
`ErrKeyNotFound` of cache.go; `custom` stands for any other error value,
e.g. one returned by a serialize/deserialize hook or a loader. -/
inductive GErr where
  | keyNotFound
  | custom (msg : String)
deriving DecidableEq, Repr

deriving instance DecidableEq for Except

/-- Callback invocations, logged in order.  `added k v` is a call of
`addedFunc`, `evicted k v` of `evictedFunc`, `purged k v` of
`purgeVisitorFunc` (all invoked with (key, value) in the source). -/
inductive Event where
  | added (k : Key) (v : Value)
  | evicted (k : Key) (v : Value)
  | purged (k : Key) (v : Value)
deriving DecidableEq, Repr

/-- The cache-wide configuration relevant to the engines: the capacity
(`CacheBuilder.size`), the default TTL (`CacheBuilder.expiration`) and the
serialization hooks.  Hooks model `SerializeFunc`/`DeserializeFunc`; `none`
means the hook is not configured. -/
structure Config where
  size : Nat
  expiration : Option Time
  serializeF : Option (Key → Value → Except String Value)
  deserializeF : Option (Key → Value → Except String Value)

/-- Apply the serialize hook as `set` does in each engine: no hook means the
value passes through, an erroring hook aborts the operation. -/
def serVal (cfg : Config) (k : Key) (v : Value) : Except GErr Value :=
  match cfg.serializeF with
  | none => .ok v
  | some f =>
    match f k v with
    | .ok v' => .ok v'
    | .error m => .error (.custom m)

/-- Apply the deserialize hook as `get` does in each engine. -/
def deserVal (cfg : Config) (k : Key) (v : Value) : Except GErr Value :=
  match cfg.deserializeF with
  | none => .ok v
  | some f =>
    match f k v with
    | .ok v' => .ok v'
    | .error m => .error (.custom m)

/-- `cacheItem.IsExpired` (cache.go): an item is expired iff it carries an
expiration instant and that instant is strictly before `now`
(`item.expiration.Before(*now)`). -/
def isExpired (exp : Option Time) (now : Time) : Bool :=
  match exp with
  | none => false
  | some e => decide (e < now)

/-- Association-list lookup, modelling Go map indexing `m[key]`. -/
def alookup {α : Type} (k : Key) : List (Key × α) → Option α
  | [] => none
  | p :: t => if p.1 = k then some p.2 else alookup k t

/-- Association-list deletion, modelling Go `delete(m, key)` (keys are unique
in a Go map, so removing every binding of `k` is the same operation). -/
def eraseKey {α : Type} (k : Key) (l : List (Key × α)) : List (Key × α) :=
  l.filter (fun p => p.1 ≠ k)

/-- In-place mutation of the entry stored under `k`, modelling
`item := m[key]; item.field = ...` through the map's pointer. -/
def updateV {α : Type} (k : Key) (f : α → α) (l : List (Key × α)) :
    List (Key × α) :=
  l.map (fun p => if p.1 = k then (p.1, f p.2) else p)

/-- Modelled from the spec: the statistics counters (`stats` is referenced by
cache.go via `IncrHitCount` but its definition is not under src/).  Per §3 of
the spec they are monotonic counters incremented only on user-initiated
reads.  `recordHit` is `if !onLoad { c.stats.IncrHitCount() }`. -/
def recordHit (onLoad : Bool) (hit : Nat) : Nat :=
  if onLoad then hit else hit + 1

/-- Modelled from the spec: `if !onLoad { c.stats.IncrMissCount() }`, see
`recordHit`. -/
def recordMiss (onLoad : Bool) (miss : Nat) : Nat :=
  if onLoad then miss else miss + 1

/-! ## Simple engine (simple.go) -/

/-- A `cacheItem` as stored by `SimpleCache` (key is the association-list
key; the clock back-reference is the implicit `now` argument). -/
structure SItem where
  value : Value
  expiration : Option Time
deriving DecidableEq, Repr

/-- `SimpleCache`: the primary index plus statistics and the callback log. -/
structure SimpleS where
  items : List (Key × SItem)
  hitCount : Nat
  missCount : Nat
  events : List Event
deriving DecidableEq, Repr

/-- `SimpleCache.init`. -/
def simpleInit : SimpleS :=
  { items := [], hitCount := 0, missCount := 0, events := [] }

/-- `SimpleCache.remove`: delete the binding and fire `evictedFunc` if a
value was present; returns whether something was removed. -/
def simpleRemove (k : Key) (s : SimpleS) : Bool × SimpleS :=
  match alookup k s.items with
  | some item =>
    (true, { s with items := eraseKey k s.items
                    events := s.events ++ [.evicted k item.value] })
  | none => (false, s)

/-- `SimpleCache.evict`: scan `items` in iteration order and remove (via
deferred `c.remove`) up to `count` entries whose expiration is nil or already
passed (`item.expiration == nil || now.After(*item.expiration)`).  The
deferred removals run last-marked-first, hence the `reverse`. -/
def simpleEvict (now : Time) (count : Nat) (s : SimpleS) : SimpleS :=
  let victims :=
    ((s.items.filter
        (fun p => p.2.expiration = none ∨ isExpired p.2.expiration now)).map
      Prod.fst).take count
  victims.reverse.foldl (fun s k => (simpleRemove k s).2) s

/-- `SimpleCache.set`: serialize, overwrite in place if present, otherwise
evict one entry when at capacity (`len(items) >= size && size > 0`) and
insert; refresh the expiration from the cache-wide default; fire
`addedFunc`. -/
def simpleSet (cfg : Config) (now : Time) (k : Key) (v : Value) (s : SimpleS) :
    Except GErr SimpleS :=
  match serVal cfg k v with
  | .error e => .error e
  | .ok v' =>
    let s1 :=
      match alookup k s.items with
      | some _ => { s with items := updateV k (fun it => { it with value := v' }) s.items }
      | none =>
        let s' := if s.items.length ≥ cfg.size ∧ 0 < cfg.size then
                    simpleEvict now 1 s
                  else s
        { s' with items := s'.items ++ [(k, ({ value := v', expiration := none } : SItem))] }
    let s2 :=
      match cfg.expiration with
      | some d =>
        { s1 with items := updateV k (fun it => { it with expiration := some (now + d) }) s1.items }
      | none => s1
    .ok { s2 with events := s2.events ++ [.added k v'] }

/-- `baseCache.SetWithExpire` over the Simple engine: run `set`, then
overwrite the stored item's expiration with `now + d`. -/
def simpleSetWithExpire (cfg : Config) (now : Time) (k : Key) (v : Value)
    (d : Time) (s : SimpleS) : Except GErr SimpleS :=
  match simpleSet cfg now k v s with
  | .error e => .error e
  | .ok s' =>
    .ok { s' with items := updateV k (fun it => { it with expiration := some (now + d) }) s'.items }

/-- `SimpleCache.getValue`: on an unexpired hit return the value and bump the
hit counter (unless `onLoad`); on an expired hit remove the entry first; on a
miss bump the miss counter (unless `onLoad`) and return `ErrKeyNotFound`. -/
def simpleGetValue (now : Time) (k : Key) (onLoad : Bool) (s : SimpleS) :
    Except GErr Value × SimpleS :=
  match alookup k s.items with
  | some item =>
    if !(isExpired item.expiration now) then
      (.ok item.value, { s with hitCount := recordHit onLoad s.hitCount })
    else
      let s' := (simpleRemove k s).2
      (.error .keyNotFound, { s' with missCount := recordMiss onLoad s'.missCount })
  | none =>
    (.error .keyNotFound, { s with missCount := recordMiss onLoad s.missCount })

/-- `SimpleCache.get`: `getValue` followed by the deserialize hook. -/
def simpleGet (cfg : Config) (now : Time) (k : Key) (onLoad : Bool)
    (s : SimpleS) : Except GErr Value × SimpleS :=
  match simpleGetValue now k onLoad s with
  | (.error e, s') => (.error e, s')
  | (.ok v, s') =>
    match deserVal cfg k v with
    | .ok v' => (.ok v', s')
    | .error e => (.error e, s')

/-- `SimpleCache.has`: present and not expired. -/
def simpleHas (k : Key) (now : Time) (s : SimpleS) : Bool :=
  match alookup k s.items with
  | some item => !(isExpired item.expiration now)
  | none => false

/-- `SimpleCache.Len`. -/
def simpleLen (checkExpired : Bool) (now : Time) (s : SimpleS) : Nat :=
  if !checkExpired then s.items.length
  else (s.items.filter (fun p => simpleHas p.1 now s)).length

/-- `SimpleCache.Keys`. -/
def simpleKeysOp (checkExpired : Bool) (now : Time) (s : SimpleS) : List Key :=
  ((s.items.filter (fun p => !checkExpired || simpleHas p.1 now s)).map Prod.fst)

/-- `SimpleCache.GetALL`. -/
def simpleGetALL (checkExpired : Bool) (now : Time) (s : SimpleS) :
    List (Key × Value) :=
  (s.items.filter (fun p => !checkExpired || simpleHas p.1 now s)).map
    (fun p => (p.1, p.2.value))

/-- `SimpleCache.Purge`: fire the purge visitor for every entry, then reset
the index (`c.init()`); statistics are untouched. -/
def simplePurge (s : SimpleS) : SimpleS :=
  { s with items := []
           events := s.events ++ s.items.map (fun p => .purged p.1 p.2.value) }

/-- `baseCache.Get` over the Simple engine, with no loader configured
(`getWithLoader` then returns `ErrKeyNotFound`).  The result is the Go pair
(value-or-nil, error-or-nil). -/
def simpleBaseGet (cfg : Config) (now : Time) (k : Key) (s : SimpleS) :
    (Option Value × Option GErr) × SimpleS :=
  match simpleGet cfg now k false s with
  | (.ok v, s') => ((some v, none), s')
  | (.error .keyNotFound, s') => ((none, some .keyNotFound), s')
  | (.error e, s') => ((none, some e), s')

/-- `baseCache.GetIFPresent` over the Simple engine, no loader configured.
Note the source: `if err == ErrKeyNotFound { ... } ; return v, nil` — an
error other than the not-found sentinel is dropped and `(nil, nil)` is
returned. -/
def simpleBaseGetIFPresent (cfg : Config) (now : Time) (k : Key) (s : SimpleS) :
    (Option Value × Option GErr) × SimpleS :=
  match simpleGet cfg now k false s with
  | (.ok v, s') => ((some v, none), s')
  | (.error .keyNotFound, s') => ((none, some .keyNotFound), s')
  | (.error _, s') => ((none, none), s')

/-- The state-changing operations of the Simple engine, for reachability. -/
inductive SOp where
  | set (now : Time) (k : Key) (v : Value)
  | setWithExpire (now : Time) (k : Key) (v : Value) (d : Time)
  | get (now : Time) (k : Key) (onLoad : Bool)
  | remove (k : Key)
  | purge
deriving DecidableEq, Repr

/-- Whether an operation is `SetWithExpire` (used to state expiration-free
traces). -/
def SOp.usesExpire : SOp → Bool
  | .setWithExpire _ _ _ _ => true
  | _ => false

/-- Apply one operation (an erroring `set` leaves the state unchanged, as the
source returns before mutating anything). -/
def applySOp (cfg : Config) (s : SimpleS) (op : SOp) : SimpleS :=
  match op with
  | .set now k v =>
    match simpleSet cfg now k v s with
    | .ok s' => s'
    | .error _ => s
  | .setWithExpire now k v d =>
    match simpleSetWithExpire cfg now k v d s with
    | .ok s' => s'
    | .error _ => s
  | .get now k onLoad => (simpleGet cfg now k onLoad s).2
  | .remove k => (simpleRemove k s).2
  | .purge => simplePurge s

/-- Run a sequence of operations from a state. -/
def applySOps (cfg : Config) (ops : List SOp) (s : SimpleS) : SimpleS :=
  ops.foldl (applySOp cfg) s

/-! ## ARC engine (arc.go) -/

/-- A `cacheItem` as stored by `arcCache.items`. -/
structure AItem where
  value : Value
  expiration : Option Time
deriving DecidableEq, Repr

/-- `arcCache`: primary index, the four `arcList`s (head = front of the
`container/list`), the partition parameter `part`, statistics, callback log.
`part` is a Go `int` that the code only ever sets to values in `[0, size]`
(`maxInt(0, ...)` / `minInt(size, ...)`), so `Nat` with truncated subtraction
is faithful. -/
structure ArcS where
  items : List (Key × AItem)
  t1 : List Key
  t2 : List Key
  b1 : List Key
  b2 : List Key
  part : Nat
  hitCount : Nat
  missCount : Nat
  events : List Event
deriving DecidableEq, Repr

/-- `newARC` / `arcCache.init` (a fresh cache; `part` starts at the zero
value 0). -/
def arcInit : ArcS :=
  { items := [], t1 := [], t2 := [], b1 := [], b2 := [], part := 0,
    hitCount := 0, missCount := 0, events := [] }

/-- `arcList.PushFront`: move to front when present, else insert at front. -/
def pushFront (k : Key) (l : List Key) : List Key :=
  if k ∈ l then k :: l.erase k else k :: l

/-- `arcList.RemoveTail`: detach the back element.  On an empty list the Go
code would dereference nil (`l.Back()` is nil); callers only invoke it on
non-empty lists, and the model returns `none` there. -/
def removeTail : List Key → Option (Key × List Key)
  | [] => none
  | a :: t => some ((a :: t).getLast (by simp), (a :: t).dropLast)

/-- `arcCache.isCacheFull`: `t1.Len() + t2.Len() == size`. -/
def arcIsCacheFull (cfg : Config) (s : ArcS) : Bool :=
  decide (s.t1.length + s.t2.length = cfg.size)

/-- `arcCache.setPart`: the assignment is applied only when the cache is
full. -/
def arcSetPart (cfg : Config) (p : Nat) (s : ArcS) : ArcS :=
  if arcIsCacheFull cfg s then { s with part := p } else s

/-- `delete(c.items, old)` plus the `evictedFunc` callback, guarded by the
`item, ok := c.items[old]` check (shared by `replace` and `set`). -/
def arcDropFromItems (k : Key) (s : ArcS) : ArcS :=
  match alookup k s.items with
  | some it =>
    { s with items := eraseKey k s.items
             events := s.events ++ [.evicted k it.value] }
  | none => s

/-- `arcCache.replace`: when full, demote the tail of `t1` into `b1` if
`t1` is non-empty and (`key ∈ b2` with `|t1| = part`, or `|t1| > part`);
otherwise the tail of `t2` into `b2` when `t2` is non-empty; otherwise the
tail of `t1`.  The demoted key's value is evicted from `items`.  The
`removeTail ... none` branches correspond to a nil dereference in Go and are
unreachable for a full cache of positive capacity. -/
def arcReplace (cfg : Config) (k : Key) (s : ArcS) : ArcS :=
  if !(arcIsCacheFull cfg s) then s
  else if 0 < s.t1.length ∧
          ((k ∈ s.b2 ∧ s.t1.length = s.part) ∨ s.part < s.t1.length) then
    match removeTail s.t1 with
    | some (old, t1') =>
      arcDropFromItems old { s with t1 := t1', b1 := pushFront old s.b1 }
    | none => s
  else if 0 < s.t2.length then
    match removeTail s.t2 with
    | some (old, t2') =>
      arcDropFromItems old { s with t2 := t2', b2 := pushFront old s.b2 }
    | none => s
  else
    match removeTail s.t1 with
    | some (old, t1') =>
      arcDropFromItems old { s with t1 := t1', b1 := pushFront old s.b1 }
    | none => s

/-- The fresh-key tail of `arcCache.set` (everything after the two ghost-list
checks): capacity maintenance followed by `c.t1.PushFront(key)`. -/
def arcSetFresh (cfg : Config) (k : Key) (s : ArcS) : ArcS :=
  let s :=
    if arcIsCacheFull cfg s ∧ s.t1.length + s.b1.length = cfg.size then
      if s.t1.length < cfg.size then
        let s' := match removeTail s.b1 with
                  | some (_, b1') => { s with b1 := b1' }
                  | none => s
        arcReplace cfg k s'
      else
        match removeTail s.t1 with
        | some (pop, t1') => arcDropFromItems pop { s with t1 := t1' }
        | none => s
    else
      let total := s.t1.length + s.b1.length + s.t2.length + s.b2.length
      if cfg.size ≤ total then
        let s' :=
          if total = 2 * cfg.size then
            if 0 < s.b2.length then
              match removeTail s.b2 with
              | some (_, b2') => { s with b2 := b2' }
              | none => s
            else
              match removeTail s.b1 with
              | some (_, b1') => { s with b1 := b1' }
              | none => s
          else s
        arcReplace cfg k s'
      else s
  { s with t1 := pushFront k s.t1 }

/-- `arcCache.set`: serialize; insert or overwrite in `items`; refresh the
default expiration; then, unless the key is already in `t1 ∪ t2`, handle
ghost hits on `b1`/`b2` (adapting `part` and calling `replace`) or the
fresh-key path.  `addedFunc` is deferred, so the event is logged last.
`maxInt(0, part - x)` is the truncated subtraction `part - x`. -/
def arcSet (cfg : Config) (now : Time) (k : Key) (v : Value) (s : ArcS) :
    Except GErr ArcS :=
  match serVal cfg k v with
  | .error e => .error e
  | .ok v' =>
    let s1 :=
      match alookup k s.items with
      | some _ => { s with items := updateV k (fun it => { it with value := v' }) s.items }
      | none => { s with items := s.items ++ [(k, ({ value := v', expiration := none } : AItem))] }
    let s2 :=
      match cfg.expiration with
      | some d =>
        { s1 with items := updateV k (fun it => { it with expiration := some (now + d) }) s1.items }
      | none => s1
    let s3 :=
      if k ∈ s2.t1 ∨ k ∈ s2.t2 then s2
      else if k ∈ s2.b1 then
        let sa := arcSetPart cfg
          (min cfg.size (s2.part + max (s2.b2.length / s2.b1.length) 1)) s2
        let sb := arcReplace cfg k sa
        { sb with b1 := sb.b1.erase k, t2 := pushFront k sb.t2 }
      else if k ∈ s2.b2 then
        let sa := arcSetPart cfg
          (s2.part - max (s2.b1.length / s2.b2.length) 1) s2
        let sb := arcReplace cfg k sa
        { sb with b2 := sb.b2.erase k, t2 := pushFront k sb.t2 }
      else arcSetFresh cfg k s2
    .ok { s3 with events := s3.events ++ [.added k v'] }

/-- `baseCache.SetWithExpire` over the ARC engine. -/
def arcSetWithExpire (cfg : Config) (now : Time) (k : Key) (v : Value)
    (d : Time) (s : ArcS) : Except GErr ArcS :=
  match arcSet cfg now k v s with
  | .error e => .error e
  | .ok s' =>
    .ok { s' with items := updateV k (fun it => { it with expiration := some (now + d) }) s'.items }

/-- The `t2` half of `arcCache.getValue` (the code falls through to it after
the `t1` block).  On an unexpired hit the element is moved to the front of
`t2`.  The `alookup ... none` branch is a nil dereference in Go, unreachable
while `items` covers `t1 ∪ t2`. -/
def arcGetT2 (now : Time) (k : Key) (onLoad : Bool) (s : ArcS) :
    Except GErr Value × ArcS :=
  if k ∈ s.t2 then
    match alookup k s.items with
    | some item =>
      if !(isExpired item.expiration now) then
        (.ok item.value,
         { s with t2 := pushFront k s.t2, hitCount := recordHit onLoad s.hitCount })
      else
        (.error .keyNotFound,
         { s with items := eraseKey k s.items
                  t2 := s.t2.erase k
                  b2 := pushFront k s.b2
                  events := s.events ++ [.evicted k item.value]
                  missCount := recordMiss onLoad s.missCount })
    | none =>
      (.error .keyNotFound, { s with missCount := recordMiss onLoad s.missCount })
  else (.error .keyNotFound, { s with missCount := recordMiss onLoad s.missCount })

/-- `arcCache.getValue`: the `t1` block (remove from `t1`; on an unexpired
hit promote to the front of `t2`; on an expired hit evict and push the key
onto `b1`), then the `t2` block, then a miss. -/
def arcGetValue (now : Time) (k : Key) (onLoad : Bool) (s : ArcS) :
    Except GErr Value × ArcS :=
  if k ∈ s.t1 then
    let s1 := { s with t1 := s.t1.erase k }
    match alookup k s1.items with
    | some item =>
      if !(isExpired item.expiration now) then
        (.ok item.value,
         { s1 with t2 := pushFront k s1.t2, hitCount := recordHit onLoad s1.hitCount })
      else
        arcGetT2 now k onLoad
          { s1 with items := eraseKey k s1.items
                    b1 := pushFront k s1.b1
                    events := s1.events ++ [.evicted k item.value] }
    | none => arcGetT2 now k onLoad s1
  else arcGetT2 now k onLoad s

/-- `arcCache.get`: `getValue` followed by the deserialize hook. -/
def arcGet (cfg : Config) (now : Time) (k : Key) (onLoad : Bool) (s : ArcS) :
    Except GErr Value × ArcS :=
  match arcGetValue now k onLoad s with
  | (.error e, s') => (.error e, s')
  | (.ok v, s') =>
    match deserVal cfg k v with
    | .ok v' => (.ok v', s')
    | .error e => (.error e, s')

/-- `arcCache.remove`: a live key is unlinked from `t1` (resp. `t2`), its
value deleted and `evictedFunc` fired, and the key pushed onto the matching
ghost list; returns whether something was removed.  The `alookup ... none`
branches are nil dereferences in Go, unreachable while `items` covers
`t1 ∪ t2`. -/
def arcRemove (k : Key) (s : ArcS) : Bool × ArcS :=
  if k ∈ s.t1 then
    match alookup k s.items with
    | some item =>
      (true, { s with t1 := s.t1.erase k
                      items := eraseKey k s.items
                      b1 := pushFront k s.b1
                      events := s.events ++ [.evicted k item.value] })
    | none =>
      (true, { s with t1 := s.t1.erase k, b1 := pushFront k s.b1 })
  else if k ∈ s.t2 then
    match alookup k s.items with
    | some item =>
      (true, { s with t2 := s.t2.erase k
                      items := eraseKey k s.items
                      b2 := pushFront k s.b2
                      events := s.events ++ [.evicted k item.value] })
    | none =>
      (true, { s with t2 := s.t2.erase k, b2 := pushFront k s.b2 })
  else (false, s)

/-- `arcCache.has`. -/
def arcHas (k : Key) (now : Time) (s : ArcS) : Bool :=
  match alookup k s.items with
  | some item => !(isExpired item.expiration now)
  | none => false

/-- `arcCache.Len` with `checkExpired = false` is `len(c.items)`. -/
def arcLenAll (s : ArcS) : Nat := s.items.length

/-- `arcCache.Purge`: fire the purge visitor per entry, then `init()` —
which resets the index and the four lists but leaves `part` (and the
statistics) untouched. -/
def arcPurge (s : ArcS) : ArcS :=
  { s with items := [], t1 := [], t2 := [], b1 := [], b2 := []
           events := s.events ++ s.items.map (fun p => .purged p.1 p.2.value) }

/-- The state-changing operations of the ARC engine. -/
inductive AOp where
  | set (now : Time) (k : Key) (v : Value)
  | setWithExpire (now : Time) (k : Key) (v : Value) (d : Time)
  | get (now : Time) (k : Key) (onLoad : Bool)
  | remove (k : Key)
  | purge
deriving DecidableEq, Repr

/-- Apply one ARC operation (an erroring `set` leaves the state unchanged). -/
def applyAOp (cfg : Config) (s : ArcS) (op : AOp) : ArcS :=
  match op with
  | .set now k v =>
    match arcSet cfg now k v s with
    | .ok s' => s'
    | .error _ => s
  | .setWithExpire now k v d =>
    match arcSetWithExpire cfg now k v d s with
    | .ok s' => s'
    | .error _ => s
  | .get now k onLoad => (arcGet cfg now k onLoad s).2
  | .remove k => (arcRemove k s).2
  | .purge => arcPurge s

/-- Run a sequence of ARC operations from a state. -/
def applyAOps (cfg : Config) (ops : List AOp) (s : ArcS) : ArcS :=
  ops.foldl (applyAOp cfg) s

/-! ## LFU engine (lfu.go) -/

/-- An `lfuItem`: the embedded `cacheItem` plus `freqElement`, the pointer to
its frequency bucket, modelled as the bucket's index in `freqList`. -/
structure LItem where
  value : Value
  expiration : Option Time
  freqIdx : Nat
deriving DecidableEq, Repr

/-- A `freqEntry`: a frequency count and the set of items at that exact
frequency (a Go `map[*lfuItem]struct{}`, modelled as the list of their keys
in insertion order). -/
structure FreqEntry where
  freq : Nat
  keys : List Key
deriving DecidableEq, Repr

/-- `lfuCache`: primary index, the bucket list (head = front), statistics,
callback log. -/
structure LfuS where
  items : List (Key × LItem)
  freqList : List FreqEntry
  hitCount : Nat
  missCount : Nat
  events : List Event
deriving DecidableEq, Repr

/-- `lfuCache.init`: an empty index and a single frequency-0 bucket pushed to
the front of a fresh list. -/
def lfuInit : LfuS :=
  { items := [], freqList := [{ freq := 0, keys := [] }],
    hitCount := 0, missCount := 0, events := [] }

/-- Modify the element at index `i` of a list in place (a pointer update on a
`container/list` element's value). -/
def modifyAt {α : Type} (i : Nat) (f : α → α) : List α → List α
  | [] => []
  | a :: t =>
    match i with
    | 0 => f a :: t
    | i + 1 => a :: modifyAt i f t

/-- `lfuCache.removeItem`: delete from the index, delete from the item's
frequency bucket, fire `evictedFunc`. -/
def lfuRemoveItem (k : Key) (it : LItem) (s : LfuS) : LfuS :=
  { s with items := eraseKey k s.items
           freqList := modifyAt it.freqIdx (fun e => { e with keys := e.keys.erase k }) s.freqList
           events := s.events ++ [.evicted k it.value] }

/-- `lfuCache.remove`: look the key up and call `removeItem`. -/
def lfuRemove (k : Key) (s : LfuS) : Bool × LfuS :=
  match alookup k s.items with
  | some it => (true, lfuRemoveItem k it s)
  | none => (false, s)

/-- `lfuCache.evict`: walk the buckets from the front (lowest frequency) and
remove items until `count` are gone.  The victims are the first `count` keys
in bucket order (the in-bucket order of a Go map iteration is modelled by the
list order); each is removed via `removeItem`. -/
def lfuEvict (count : Nat) (s : LfuS) : LfuS :=
  let victims := ((s.freqList.map FreqEntry.keys).flatten).take count
  victims.foldl (fun s k => (lfuRemove k s).2) s

/-- `lfuCache.set`: serialize; overwrite in place if present; otherwise evict
one entry when `len(items) >= size`, then place the new item into the front
(frequency-0) bucket; refresh the default expiration; fire `addedFunc`. -/
def lfuSet (cfg : Config) (now : Time) (k : Key) (v : Value) (s : LfuS) :
    Except GErr LfuS :=
  match serVal cfg k v with
  | .error e => .error e
  | .ok v' =>
    let s1 :=
      match alookup k s.items with
      | some _ => { s with items := updateV k (fun it => { it with value := v' }) s.items }
      | none =>
        let s' := if s.items.length ≥ cfg.size then lfuEvict 1 s else s
        { s' with
          items := s'.items ++ [(k, ({ value := v', expiration := none, freqIdx := 0 } : LItem))]
          freqList := modifyAt 0 (fun e => { e with keys := e.keys ++ [k] }) s'.freqList }
    let s2 :=
      match cfg.expiration with
      | some d =>
        { s1 with items := updateV k (fun it => { it with expiration := some (now + d) }) s1.items }
      | none => s1
    .ok { s2 with events := s2.events ++ [.added k v'] }

/-- `lfuCache.SetWithExpire` (lfu.go overrides the base version): run `set`,
then overwrite the stored item's expiration with `now + d`. -/
def lfuSetWithExpire (cfg : Config) (now : Time) (k : Key) (v : Value)
    (d : Time) (s : LfuS) : Except GErr LfuS :=
  match lfuSet cfg now k v s with
  | .error e => .error e
  | .ok s' =>
    .ok { s' with items := updateV k (fun it => { it with expiration := some (now + d) }) s'.items }

/-- `lfuCache.increment`: detach the item from its current bucket; if the
bucket has no successor, splice a fresh bucket with frequency `freq + 1`
after it (i.e. at the tail) and move the item there, otherwise move the item
into the successor bucket — without inspecting the successor's frequency.
The `get? ... none` branch is a nil dereference in Go, unreachable while
every item's bucket pointer is valid. -/
def lfuIncrement (k : Key) (it : LItem) (s : LfuS) : LfuS :=
  match s.freqList.get? it.freqIdx with
  | none => s
  | some entry =>
    let fl := modifyAt it.freqIdx (fun e => { e with keys := e.keys.erase k }) s.freqList
    if it.freqIdx + 1 = fl.length then
      { s with freqList := fl ++ [{ freq := entry.freq + 1, keys := [k] }]
               items := updateV k (fun i => { i with freqIdx := it.freqIdx + 1 }) s.items }
    else
      { s with freqList := modifyAt (it.freqIdx + 1) (fun e => { e with keys := e.keys ++ [k] }) fl
               items := updateV k (fun i => { i with freqIdx := it.freqIdx + 1 }) s.items }

/-- `lfuCache.getValue`: on an unexpired hit increment the item's frequency,
bump the hit counter (unless `onLoad`) and return the value; on an expired
hit remove the item; on a miss bump the miss counter (unless `onLoad`). -/
def lfuGetValue (now : Time) (k : Key) (onLoad : Bool) (s : LfuS) :
    Except GErr Value × LfuS :=
  match alookup k s.items with
  | some item =>
    if !(isExpired item.expiration now) then
      let s' := lfuIncrement k item s
      (.ok item.value, { s' with hitCount := recordHit onLoad s'.hitCount })
    else
      let s' := lfuRemoveItem k item s
      (.error .keyNotFound, { s' with missCount := recordMiss onLoad s'.missCount })
  | none =>
    (.error .keyNotFound, { s with missCount := recordMiss onLoad s.missCount })

/-- `lfuCache.get`: `getValue` followed by the deserialize hook. -/
def lfuGet (cfg : Config) (now : Time) (k : Key) (onLoad : Bool) (s : LfuS) :
    Except GErr Value × LfuS :=
  match lfuGetValue now k onLoad s with
  | (.error e, s') => (.error e, s')
  | (.ok v, s') =>
    match deserVal cfg k v with
    | .ok v' => (.ok v', s')
    | .error e => (.error e, s')

/-- `lfuCache.GetIFPresent` (the same body as `baseCache.GetIFPresent`, no
loader configured here): a non-not-found error from `get` is dropped and
`(nil, nil)` returned. -/
def lfuGetIFPresent (cfg : Config) (now : Time) (k : Key) (s : LfuS) :
    (Option Value × Option GErr) × LfuS :=
  match lfuGet cfg now k false s with
  | (.ok v, s') => ((some v, none), s')
  | (.error .keyNotFound, s') => ((none, some .keyNotFound), s')
  | (.error _, s') => ((none, none), s')

/-- `lfuCache.Purge`: fire the purge visitor per entry, then `init()`;
statistics are untouched. -/
def lfuPurge (s : LfuS) : LfuS :=
  { s with items := [], freqList := [{ freq := 0, keys := [] }]
           events := s.events ++ s.items.map (fun p => .purged p.1 p.2.value) }

/-- The state-changing operations of the LFU engine. -/
inductive LOp where
  | set (now : Time) (k : Key) (v : Value)
  | setWithExpire (now : Time) (k : Key) (v : Value) (d : Time)
  | get (now : Time) (k : Key) (onLoad : Bool)
  | remove (k : Key)
  | purge
deriving DecidableEq, Repr

/-- Apply one LFU operation (an erroring `set` leaves the state unchanged). -/
def applyLOp (cfg : Config) (s : LfuS) (op : LOp) : LfuS :=
  match op with
  | .set now k v =>
    match lfuSet cfg now k v s with
    | .ok s' => s'
    | .error _ => s
  | .setWithExpire now k v d =>
    match lfuSetWithExpire cfg now k v d s with
    | .ok s' => s'
    | .error _ => s
  | .get now k onLoad => (lfuGet cfg now k onLoad s).2
  | .remove k => (lfuRemove k s).2
  | .purge => lfuPurge s

/-- Run a sequence of LFU operations from a state. -/
def applyLOps (cfg : Config) (ops : List LOp) (s : LfuS) : LfuS :=
  ops.foldl (applyLOp cfg) s

/-! ## Loading coordinator (single-flight `Group`)

The `Group` type used by `baseCache.load` is part of this repository but its
file is not under src/; the model below follows §4.6 of the spec. -/

/-- The result a loader invocation produces: a value or an error. -/
inductive LoadResult where
  | ok (v : Value)
  | err (msg : String)
deriving DecidableEq, Repr

/-- Modelled from the spec: a `CallSlot` of the loading coordinator (§4.6) —
the in-flight call for a key, holding the caller that invoked the loader and
the callers registered as waiters (`waiter_count`, kept as the list of caller
ids so the broadcast can be expressed). -/
structure Slot where
  leader : Nat
  waiters : List Nat
deriving DecidableEq, Repr

/-- Modelled from the spec: the coordinator state, the mapping
`K → CallSlot` guarded by the coordinator lock. -/
abbrev GroupS := List (Key × Slot)

/-- Modelled from the spec: the atomic transitions of `Group.do(k, fn, wait)`
(each occurs under the coordinator lock, so an interleaved execution is a
sequence of these actions).
* `start c k` — caller `c` misses, finds no slot for `k`, registers a fresh
  slot and invokes the loader `fn` (this is the loader invocation);
* `join c k` — caller `c` finds an existing slot for `k` and is added as a
  waiter (with `wait = true` it blocks on the completion signal; with
  `wait = false` it returns the in-flight sentinel immediately);
* `finish k r` — the loader invocation for `k` completes with result `r`
  (errors and captured panics included): the result is stored, the slot is
  removed from the mapping and the completion is broadcast to the leader and
  every waiter. -/
inductive GAction where
  | start (c : Nat) (k : Key)
  | join (c : Nat) (k : Key)
  | finish (k : Key) (r : LoadResult)
deriving DecidableEq, Repr

/-- An observation: caller `c` received result `r` for key `k`. -/
abbrev Obs := Nat × Key × LoadResult

/-- Modelled from the spec: one coordinator transition.  `none` means the
action is not enabled in this state (a `start` while a slot exists — the
caller would have joined instead — or a completion/join with no slot). -/
def gstep (g : GroupS) (a : GAction) : Option (GroupS × List Obs) :=
  match a with
  | .start c k =>
    match alookup k g with
    | some _ => none
    | none => some (g ++ [(k, { leader := c, waiters := [] })], [])
  | .join c k =>
    match alookup k g with
    | some _ =>
      some (updateV k (fun sl => { sl with waiters := sl.waiters ++ [c] }) g, [])
    | none => none
  | .finish k r =>
    match alookup k g with
    | some sl =>
      some (eraseKey k g, (sl.leader :: sl.waiters).map (fun c => (c, k, r)))
    | none => none

/-- Run a sequence of coordinator actions, accumulating observations. -/
def grun (g : GroupS) (obs : List Obs) : List GAction → Option (GroupS × List Obs)
  | [] => some (g, obs)
  | a :: rest =>
    match gstep g a with
    | some (g', o) => grun g' (obs ++ o) rest
    | none => none

/-! ## Well-formedness invariants -/

/-- Well-formedness of an ARC state.  `ex` is an "extra" key allowed to sit
in `items` without being on `t1`/`t2` yet: during `arcCache.set` the key is
inserted into `items` before the list bookkeeping runs, so the intermediate
states satisfy `ArcWf cfg (some k)` while the reachable states satisfy
`ArcWf cfg none` (the `items`-covers-`t1 ∪ t2` invariant of the spec). -/
structure ArcWf (cfg : Config) (ex : Option Key) (s : ArcS) : Prop where
  nd1 : s.t1.Nodup
  nd2 : s.t2.Nodup
  ndb1 : s.b1.Nodup
  ndb2 : s.b2.Nodup
  d12 : ∀ a ∈ s.t1, a ∉ s.t2
  d13 : ∀ a ∈ s.t1, a ∉ s.b1
  d14 : ∀ a ∈ s.t1, a ∉ s.b2
  d23 : ∀ a ∈ s.t2, a ∉ s.b1
  d24 : ∀ a ∈ s.t2, a ∉ s.b2
  d34 : ∀ a ∈ s.b1, a ∉ s.b2
  live : s.t1.length + s.t2.length ≤ cfg.size
  total : s.t1.length + s.b1.length + s.t2.length + s.b2.length ≤ 2 * cfg.size
  part_le : s.part ≤ cfg.size
  ndItems : (s.items.map Prod.fst).Nodup
  exm : ∀ k, ex = some k → k ∉ s.t1 ∧ k ∉ s.t2
  cover : ∀ a, (alookup a s.items).isSome ↔ (a ∈ s.t1 ∨ a ∈ s.t2 ∨ ex = some a)

/-- The ARC invariant of reachable states. -/
abbrev ArcInv (cfg : Config) (s : ArcS) : Prop := ArcWf cfg none s

/-- Well-formedness of an LFU state: the bucket list is never empty, bucket
`i` carries frequency `i` (so frequencies are the consecutive integers
`0, 1, 2, ...` from the front), every item points at a valid bucket that
contains its key, every bucket key belongs to an item pointing back at that
bucket, keys are unique, and the entry count respects the capacity. -/
structure LfuWf (cfg : Config) (s : LfuS) : Prop where
  ne : s.freqList ≠ []
  freqs : ∀ i e, s.freqList.get? i = some e → e.freq = i
  ndItems : (s.items.map Prod.fst).Nodup
  ndBuckets : ∀ i e, s.freqList.get? i = some e → e.keys.Nodup
  inBucket : ∀ k it, alookup k s.items = some it →
    ∃ e, s.freqList.get? it.freqIdx = some e ∧ k ∈ e.keys
  bucketOwner : ∀ i e, s.freqList.get? i = some e → ∀ k ∈ e.keys,
    ∃ it, alookup k s.items = some it ∧ it.freqIdx = i
  lenLe : s.items.length ≤ cfg.size

/-- The effect of `arcCache.replace` on a full cache: the result is
well-formed again, `part` is untouched, exactly one live entry was demoted,
the sums `|t1| + |b1|` and `|t2| + |b2|` are preserved, and keys only move
from `t1` to `b1` or from `t2` to `b2`. -/
structure ArcRepSpec (cfg : Config) (ex : Option Key) (s r : ArcS) : Prop where
  wf : ArcWf cfg ex r
  part_eq : r.part = s.part
  live_eq : r.t1.length + r.t2.length + 1 = cfg.size
  t1b1 : r.t1.length + r.b1.length = s.t1.length + s.b1.length
  t2b2 : r.t2.length + r.b2.length = s.t2.length + s.b2.length
  t1_sub : ∀ a ∈ r.t1, a ∈ s.t1
  t2_sub : ∀ a ∈ r.t2, a ∈ s.t2
  b1_sup : ∀ a ∈ s.b1, a ∈ r.b1
  b2_sup : ∀ a ∈ s.b2, a ∈ r.b2
  b1_sub : ∀ a ∈ r.b1, a ∈ s.b1 ∨ a ∈ s.t1
  b2_sub : ∀ a ∈ r.b2, a ∈ s.b2 ∨ a ∈ s.t2

/-! ## Helper lemmas -/

theorem alookup_eq_none {α : Type} (k : Key) (l : List (Key × α)) :
    alookup k l = none ↔ k ∉ l.map Prod.fst := by
  induction l with
  | nil => simp [alookup]
  | cons p t ih =>
    simp only [alookup, List.map_cons, List.mem_cons]
    by_cases h : p.1 = k
    · simp [h]
    · have h' : ¬ k = p.1 := fun hc => h hc.symm
      simp [h, h', ih]

theorem alookup_isSome {α : Type} (k : Key) (l : List (Key × α)) :
    (alookup k l).isSome ↔ k ∈ l.map Prod.fst := by
  rw [Option.isSome_iff_ne_none, ne_eq, alookup_eq_none, not_not]

theorem alookup_append_of_none {α : Type} {k : Key} {l₁ : List (Key × α)}
    (l₂ : List (Key × α)) (h : alookup k l₁ = none) :
    alookup k (l₁ ++ l₂) = alookup k l₂ := by
  induction l₁ with
  | nil => simp
  | cons p t ih =>
    by_cases hp : p.1 = k
    · simp [alookup, hp] at h
    · simp only [alookup, hp, if_false, List.cons_append] at h ⊢
      exact ih h

theorem alookup_append_of_some {α : Type} {k : Key} {l₁ : List (Key × α)}
    {v : α} (l₂ : List (Key × α)) (h : alookup k l₁ = some v) :
    alookup k (l₁ ++ l₂) = some v := by
  induction l₁ with
  | nil => simp [alookup] at h
  | cons p t ih =>
    by_cases hp : p.1 = k
    · simp only [alookup, hp, if_true] at h ⊢
      exact h
    · simp only [alookup, hp, if_false, List.cons_append] at h ⊢
      exact ih h

theorem mem_map_fst_eraseKey {α : Type} (k k' : Key) (l : List (Key × α)) :
    k' ∈ (eraseKey k l).map Prod.fst ↔ k' ≠ k ∧ k' ∈ l.map Prod.fst := by
  simp only [eraseKey, List.mem_map, List.mem_filter, decide_not,
    Bool.not_eq_eq_eq_not, Bool.not_true, decide_eq_false_iff_not]
  constructor
  · rintro ⟨p, ⟨hp, hne⟩, rfl⟩
    exact ⟨hne, p, hp, rfl⟩
  · rintro ⟨hne, p, hp, rfl⟩
    exact ⟨p, ⟨hp, hne⟩, rfl⟩

theorem alookup_eraseKey_self {α : Type} (k : Key) (l : List (Key × α)) :
    alookup k (eraseKey k l) = none := by
  rw [alookup_eq_none, mem_map_fst_eraseKey]
  simp

theorem eraseKey_cons_self {α : Type} {k : Key} {p : Key × α}
    (t : List (Key × α)) (h : p.1 = k) : eraseKey k (p :: t) = eraseKey k t := by
  simp [eraseKey, List.filter_cons, h]

theorem eraseKey_cons_ne {α : Type} {k : Key} {p : Key × α}
    (t : List (Key × α)) (h : p.1 ≠ k) :
    eraseKey k (p :: t) = p :: eraseKey k t := by
  simp [eraseKey, List.filter_cons, h]

theorem alookup_eraseKey_ne {α : Type} {k k' : Key} (l : List (Key × α))
    (h : k' ≠ k) : alookup k' (eraseKey k l) = alookup k' l := by
  induction l with
  | nil => rfl
  | cons p t ih =>
    by_cases hp : p.1 = k
    · have hp' : ¬ p.1 = k' := by rw [hp]; exact fun hc => h hc.symm
      rw [eraseKey_cons_self t hp, ih]
      simp [alookup, hp']
    · rw [eraseKey_cons_ne t hp]
      by_cases hp' : p.1 = k'
      · simp [alookup, hp']
      · simp [alookup, hp', ih]

theorem updateV_cons {α : Type} (k : Key) (f : α → α) (p : Key × α)
    (t : List (Key × α)) :
    updateV k f (p :: t) =
      (if p.1 = k then (p.1, f p.2) else p) :: updateV k f t := by
  simp [updateV]

theorem alookup_updateV_self {α : Type} (k : Key) (f : α → α)
    (l : List (Key × α)) :
    alookup k (updateV k f l) = (alookup k l).map f := by
  induction l with
  | nil => rfl
  | cons p t ih =>
    rw [updateV_cons]
    by_cases h : p.1 = k
    · simp [alookup, h]
    · simp [alookup, h, ih]

theorem alookup_updateV_ne {α : Type} {k k' : Key} (f : α → α)
    (l : List (Key × α)) (h : k' ≠ k) :
    alookup k' (updateV k f l) = alookup k' l := by
  induction l with
  | nil => rfl
  | cons p t ih =>
    rw [updateV_cons]
    have hkk' : ¬ k = k' := fun hc => h hc.symm
    by_cases hp : p.1 = k
    · simp [alookup, hp, hkk', ih]
    · by_cases hp' : p.1 = k'
      · simp [alookup, hp, hp', h]
      · simp [alookup, hp, hp', ih]

theorem map_fst_updateV {α : Type} (k : Key) (f : α → α) (l : List (Key × α)) :
    (updateV k f l).map Prod.fst = l.map Prod.fst := by
  induction l with
  | nil => rfl
  | cons p t ih =>
    rw [updateV_cons]
    by_cases h : p.1 = k <;> simp [h, ih]

theorem length_updateV {α : Type} (k : Key) (f : α → α) (l : List (Key × α)) :
    (updateV k f l).length = l.length := by
  simp [updateV]

theorem length_eraseKey_le {α : Type} (k : Key) (l : List (Key × α)) :
    (eraseKey k l).length ≤ l.length :=
  List.length_filter_le _ _

theorem length_eraseKey_lt {α : Type} {k : Key} {l : List (Key × α)}
    (h : k ∈ l.map Prod.fst) : (eraseKey k l).length < l.length := by
  induction l with
  | nil => simp at h
  | cons p t ih =>
    by_cases hp : p.1 = k
    · rw [eraseKey_cons_self t hp, List.length_cons]
      exact Nat.lt_succ_of_le (length_eraseKey_le k t)
    · simp only [List.map_cons, List.mem_cons] at h
      rcases h with h | h
      · exact absurd h.symm hp
      · rw [eraseKey_cons_ne t hp, List.length_cons, List.length_cons]
        exact Nat.succ_lt_succ (ih h)

theorem eraseKey_of_not_mem {α : Type} {k : Key} {l : List (Key × α)}
    (h : k ∉ l.map Prod.fst) : eraseKey k l = l := by
  apply List.filter_eq_self.2
  intro p hp
  have : p.1 ≠ k := fun hc => h (hc ▸ List.mem_map_of_mem Prod.fst hp)
  simpa using this

theorem length_eraseKey_nodup {α : Type} {k : Key} {l : List (Key × α)}
    (hnd : (l.map Prod.fst).Nodup) (h : k ∈ l.map Prod.fst) :
    (eraseKey k l).length + 1 = l.length := by
  induction l with
  | nil => simp at h
  | cons p t ih =>
    simp only [List.map_cons, List.nodup_cons] at hnd
    by_cases hp : p.1 = k
    · rw [eraseKey_cons_self t hp,
        eraseKey_of_not_mem (by rw [← hp]; exact hnd.1), List.length_cons]
    · simp only [List.map_cons, List.mem_cons] at h
      rcases h with h | h
      · exact absurd h.symm hp
      · rw [eraseKey_cons_ne t hp, List.length_cons, List.length_cons,
          ← ih hnd.2 h]

theorem nodup_map_fst_eraseKey {α : Type} (k : Key) {l : List (Key × α)}
    (h : (l.map Prod.fst).Nodup) : ((eraseKey k l).map Prod.fst).Nodup :=
  h.sublist ((List.filter_sublist l).map Prod.fst)

theorem mem_pushFront {a k : Key} {l : List Key} :
    a ∈ pushFront k l ↔ a = k ∨ a ∈ l := by
  unfold pushFront
  by_cases h : k ∈ l
  · simp only [h, if_true, List.mem_cons]
    constructor
    · rintro (rfl | ha)
      · exact Or.inl rfl
      · exact Or.inr (List.mem_of_mem_erase ha)
    · rintro (rfl | ha)
      · exact Or.inl rfl
      · by_cases hak : a = k
        · exact Or.inl hak
        · exact Or.inr (List.mem_erase_of_ne hak |>.2 ha)
  · simp [h]

theorem nodup_pushFront (k : Key) {l : List Key} (h : l.Nodup) :
    (pushFront k l).Nodup := by
  unfold pushFront
  by_cases hm : k ∈ l
  · simp only [hm, if_true, List.nodup_cons]
    exact ⟨h.not_mem_erase, h.erase k⟩
  · simp [hm, h]

theorem length_pushFront_of_mem {k : Key} {l : List Key} (h : k ∈ l) :
    (pushFront k l).length = l.length := by
  unfold pushFront
  simp only [h, if_true, List.length_cons]
  rw [List.length_erase_of_mem h]
  have hpos := List.length_pos.2 (List.ne_nil_of_mem h)
  omega

theorem length_pushFront_of_not_mem {k : Key} {l : List Key} (h : k ∉ l) :
    (pushFront k l).length = l.length + 1 := by
  unfold pushFront
  simp [h, List.erase_of_not_mem]

theorem length_le_pushFront (k : Key) (l : List Key) :
    l.length ≤ (pushFront k l).length := by
  by_cases h : k ∈ l
  · rw [length_pushFront_of_mem h]
  · rw [length_pushFront_of_not_mem h]; omega

theorem pushFront_length_le (k : Key) (l : List Key) :
    (pushFront k l).length ≤ l.length + 1 := by
  by_cases h : k ∈ l
  · rw [length_pushFront_of_mem h]; omega
  · rw [length_pushFront_of_not_mem h]

theorem removeTail_eq_none {l : List Key} : removeTail l = none ↔ l = [] := by
  cases l <;> simp [removeTail]

theorem removeTail_concat {l l' : List Key} {x : Key}
    (h : removeTail l = some (x, l')) : l = l' ++ [x] := by
  cases l with
  | nil => simp [removeTail] at h
  | cons a t =>
    simp only [removeTail, Option.some_inj, Prod.mk.injEq] at h
    obtain ⟨hx, hl'⟩ := h
    rw [← hx, ← hl']
    exact (List.dropLast_append_getLast (by simp)).symm

theorem length_modifyAt {α : Type} (i : Nat) (f : α → α) (l : List α) :
    (modifyAt i f l).length = l.length := by
  induction l generalizing i with
  | nil => simp [modifyAt]
  | cons a t ih =>
    cases i with
    | zero => simp [modifyAt]
    | succ j => simp [modifyAt, ih]

theorem get?_modifyAt_self {α : Type} (i : Nat) (f : α → α) (l : List α) :
    (modifyAt i f l).get? i = (l.get? i).map f := by
  induction l generalizing i with
  | nil => simp [modifyAt]
  | cons a t ih =>
    cases i with
    | zero => simp [modifyAt]
    | succ j => simpa [modifyAt] using ih j

theorem get?_modifyAt_ne {α : Type} (i j : Nat) (f : α → α) (l : List α)
    (h : j ≠ i) : (modifyAt i f l).get? j = l.get? j := by
  induction l generalizing i j with
  | nil => simp [modifyAt]
  | cons a t ih =>
    cases i with
    | zero =>
      cases j with
      | zero => omega
      | succ j' => simp [modifyAt]
    | succ i' =>
      cases j with
      | zero => simp [modifyAt]
      | succ j' =>
        simp only [modifyAt, List.get?_cons_succ]
        exact ih i' j' (by omega)

/-! ## Statistics lemmas for the three engines -/

theorem simpleGetValue_ok {now : Time} {k : Key} {onLoad : Bool} {s s' : SimpleS}
    {v : Value} (h : simpleGetValue now k onLoad s = (.ok v, s')) :
    s' = { s with hitCount := recordHit onLoad s.hitCount } := by
  unfold simpleGetValue at h
  cases hl : alookup k s.items with
  | none => rw [hl] at h; simp at h
  | some item =>
    rw [hl] at h
    by_cases he : isExpired item.expiration now
    · simp [he] at h
    · simp only [he, Bool.not_false, if_true] at h
      exact (Prod.mk.injEq _ _ _ _ ▸ h).2.symm ▸ rfl

theorem simpleGetValue_err {now : Time} {k : Key} {onLoad : Bool} {s s' : SimpleS}
    {e : GErr} (h : simpleGetValue now k onLoad s = (.error e, s')) :
    s'.hitCount = s.hitCount ∧ s'.missCount = recordMiss onLoad s.missCount := by
  unfold simpleGetValue at h
  cases hl : alookup k s.items with
  | none =>
    rw [hl] at h
    simp only [Prod.mk.injEq] at h
    rw [← h.2]
    exact ⟨rfl, rfl⟩
  | some item =>
    rw [hl] at h
    by_cases he : isExpired item.expiration now
    · simp only [he] at h
      simp only [Bool.not_true, Bool.false_eq_true, if_false, Prod.mk.injEq] at h
      rw [← h.2]
      simp [simpleRemove, hl]
    · simp [he] at h

theorem lfuIncrement_hitCount (k : Key) (it : LItem) (s : LfuS) :
    (lfuIncrement k it s).hitCount = s.hitCount ∧
      (lfuIncrement k it s).missCount = s.missCount := by
  unfold lfuIncrement
  cases s.freqList.get? it.freqIdx with
  | none => exact ⟨rfl, rfl⟩
  | some entry =>
    by_cases hc : it.freqIdx + 1 =
        (modifyAt it.freqIdx (fun e => { e with keys := e.keys.erase k }) s.freqList).length <;>
      simp [hc]

theorem lfuGetValue_ok {now : Time} {k : Key} {onLoad : Bool} {s s' : LfuS}
    {v : Value} (h : lfuGetValue now k onLoad s = (.ok v, s')) :
    s'.hitCount = recordHit onLoad s.hitCount ∧ s'.missCount = s.missCount := by
  unfold lfuGetValue at h
  cases hl : alookup k s.items with
  | none => rw [hl] at h; simp at h
  | some item =>
    rw [hl] at h
    by_cases he : isExpired item.expiration now
    · simp [he] at h
    · simp only [he] at h
      simp only [Bool.not_false, if_true, Prod.mk.injEq] at h
      rw [← h.2]
      have hi := lfuIncrement_hitCount k item s
      simp [hi.1, hi.2]

theorem lfuGetValue_err {now : Time} {k : Key} {onLoad : Bool} {s s' : LfuS}
    {e : GErr} (h : lfuGetValue now k onLoad s = (.error e, s')) :
    s'.hitCount = s.hitCount ∧ s'.missCount = recordMiss onLoad s.missCount := by
  unfold lfuGetValue at h
  cases hl : alookup k s.items with
  | none =>
    rw [hl] at h
    simp only [Prod.mk.injEq] at h
    rw [← h.2]
    exact ⟨rfl, rfl⟩
  | some item =>
    rw [hl] at h
    by_cases he : isExpired item.expiration now
    · simp only [he] at h
      simp only [Bool.not_true, Bool.false_eq_true, if_false, Prod.mk.injEq] at h
      rw [← h.2]
      simp [lfuRemoveItem]
    · simp [he] at h

theorem arcGetT2_ok {now : Time} {k : Key} {onLoad : Bool} {s s' : ArcS}
    {v : Value} (h : arcGetT2 now k onLoad s = (.ok v, s')) :
    s'.hitCount = recordHit onLoad s.hitCount ∧ s'.missCount = s.missCount := by
  unfold arcGetT2 at h
  by_cases hm : k ∈ s.t2
  · rw [if_pos hm] at h
    cases hl : alookup k s.items with
    | none => rw [hl] at h; simp at h
    | some item =>
      rw [hl] at h
      by_cases he : isExpired item.expiration now
      · simp [he] at h
      · simp only [he] at h
        simp only [Bool.not_false, if_true, Prod.mk.injEq] at h
        rw [← h.2]
        exact ⟨rfl, rfl⟩
  · rw [if_neg hm] at h; simp at h

theorem arcGetT2_err {now : Time} {k : Key} {onLoad : Bool} {s s' : ArcS}
    {e : GErr} (h : arcGetT2 now k onLoad s = (.error e, s')) :
    s'.hitCount = s.hitCount ∧ s'.missCount = recordMiss onLoad s.missCount := by
  unfold arcGetT2 at h
  by_cases hm : k ∈ s.t2
  · rw [if_pos hm] at h
    cases hl : alookup k s.items with
    | none =>
      rw [hl] at h
      simp only [Prod.mk.injEq] at h
      rw [← h.2]
      exact ⟨rfl, rfl⟩
    | some item =>
      rw [hl] at h
      by_cases he : isExpired item.expiration now
      · simp only [he] at h
        simp only [Bool.not_true, Bool.false_eq_true, if_false, Prod.mk.injEq] at h
        rw [← h.2]
        exact ⟨rfl, rfl⟩
      · simp [he] at h
  · rw [if_neg hm] at h
    simp only [Prod.mk.injEq] at h
    rw [← h.2]
    exact ⟨rfl, rfl⟩

theorem arcGetValue_ok {now : Time} {k : Key} {onLoad : Bool} {s s' : ArcS}
    {v : Value} (h : arcGetValue now k onLoad s = (.ok v, s')) :
    s'.hitCount = recordHit onLoad s.hitCount ∧ s'.missCount = s.missCount := by
  unfold arcGetValue at h
  by_cases hm : k ∈ s.t1
  · rw [if_pos hm] at h
    dsimp only at h
    cases hl : alookup k s.items with
    | none =>
      rw [hl] at h
      dsimp only at h
      have hh := arcGetT2_ok h
      exact hh
    | some item =>
      rw [hl] at h
      by_cases he : isExpired item.expiration now
      · simp only [he] at h
        simp only [Bool.not_true, Bool.false_eq_true, if_false] at h
        have hh := arcGetT2_ok h
        exact hh
      · simp only [he] at h
        simp only [Bool.not_false, if_true, Prod.mk.injEq] at h
        rw [← h.2]
        exact ⟨rfl, rfl⟩
  · rw [if_neg hm] at h
    have hh := arcGetT2_ok h
    exact hh

theorem arcGetValue_err {now : Time} {k : Key} {onLoad : Bool} {s s' : ArcS}
    {e : GErr} (h : arcGetValue now k onLoad s = (.error e, s')) :
    s'.hitCount = s.hitCount ∧ s'.missCount = recordMiss onLoad s.missCount := by
  unfold arcGetValue at h
  by_cases hm : k ∈ s.t1
  · rw [if_pos hm] at h
    dsimp only at h
    cases hl : alookup k s.items with
    | none =>
      rw [hl] at h
      dsimp only at h
      have hh := arcGetT2_err h
      exact hh
    | some item =>
      rw [hl] at h
      by_cases he : isExpired item.expiration now
      · simp only [he] at h
        simp only [Bool.not_true, Bool.false_eq_true, if_false] at h
        have hh := arcGetT2_err h
        exact hh
      · simp [he] at h
  · rw [if_neg hm] at h
    have hh := arcGetT2_err h
    exact hh

/-! ## Wrapper lemmas: `get` versus `getValue` -/

theorem deserVal_error {cfg : Config} {k : Key} {v : Value} {e : GErr}
    (h : deserVal cfg k v = .error e) : ∃ m, e = .custom m := by
  unfold deserVal at h
  cases hdf : cfg.deserializeF with
  | none => rw [hdf] at h; simp at h
  | some f =>
    rw [hdf] at h
    dsimp only at h
    cases hf : f k v with
    | ok v' => rw [hf] at h; simp at h
    | error m => rw [hf] at h; simp at h; exact ⟨m, h.symm⟩

theorem simpleGet_snd (cfg : Config) (now : Time) (k : Key) (onLoad : Bool)
    (s : SimpleS) :
    (simpleGet cfg now k onLoad s).2 = (simpleGetValue now k onLoad s).2 := by
  unfold simpleGet
  rcases hgv : simpleGetValue now k onLoad s with ⟨r, st⟩
  cases r with
  | error e => rfl
  | ok v => cases hd : deserVal cfg k v <;> simp [hd]

theorem simpleGet_ok {cfg : Config} {now : Time} {k : Key} {onLoad : Bool}
    {s s' : SimpleS} {v : Value}
    (h : simpleGet cfg now k onLoad s = (.ok v, s')) :
    ∃ v₀, simpleGetValue now k onLoad s = (.ok v₀, s') := by
  unfold simpleGet at h
  rcases hgv : simpleGetValue now k onLoad s with ⟨r, st⟩
  rw [hgv] at h
  cases r with
  | error e => simp at h
  | ok v₀ =>
    dsimp only at h
    cases hd : deserVal cfg k v₀ with
    | ok v₁ => rw [hd] at h; simp at h; exact ⟨v₀, by rw [h.2]⟩
    | error e => rw [hd] at h; simp at h

theorem simpleGet_notFound {cfg : Config} {now : Time} {k : Key}
    {onLoad : Bool} {s s' : SimpleS}
    (h : simpleGet cfg now k onLoad s = (.error .keyNotFound, s')) :
    simpleGetValue now k onLoad s = (.error .keyNotFound, s') := by
  unfold simpleGet at h
  rcases hgv : simpleGetValue now k onLoad s with ⟨r, st⟩
  rw [hgv] at h
  cases r with
  | error e => simp at h; rw [h.1, h.2]
  | ok v₀ =>
    dsimp only at h
    cases hd : deserVal cfg k v₀ with
    | ok v₁ => rw [hd] at h; simp at h
    | error e =>
      rw [hd] at h
      simp at h
      obtain ⟨m, hm⟩ := deserVal_error hd
      rw [hm] at h
      exact absurd h.1 (by simp)

theorem lfuGet_snd (cfg : Config) (now : Time) (k : Key) (onLoad : Bool)
    (s : LfuS) :
    (lfuGet cfg now k onLoad s).2 = (lfuGetValue now k onLoad s).2 := by
  unfold lfuGet
  rcases hgv : lfuGetValue now k onLoad s with ⟨r, st⟩
  cases r with
  | error e => rfl
  | ok v => cases hd : deserVal cfg k v <;> simp [hd]

theorem lfuGet_ok {cfg : Config} {now : Time} {k : Key} {onLoad : Bool}
    {s s' : LfuS} {v : Value}
    (h : lfuGet cfg now k onLoad s = (.ok v, s')) :
    ∃ v₀, lfuGetValue now k onLoad s = (.ok v₀, s') := by
  unfold lfuGet at h
  rcases hgv : lfuGetValue now k onLoad s with ⟨r, st⟩
  rw [hgv] at h
  cases r with
  | error e => simp at h
  | ok v₀ =>
    dsimp only at h
    cases hd : deserVal cfg k v₀ with
    | ok v₁ => rw [hd] at h; simp at h; exact ⟨v₀, by rw [h.2]⟩
    | error e => rw [hd] at h; simp at h

theorem lfuGet_notFound {cfg : Config} {now : Time} {k : Key}
    {onLoad : Bool} {s s' : LfuS}
    (h : lfuGet cfg now k onLoad s = (.error .keyNotFound, s')) :
    lfuGetValue now k onLoad s = (.error .keyNotFound, s') := by
  unfold lfuGet at h
  rcases hgv : lfuGetValue now k onLoad s with ⟨r, st⟩
  rw [hgv] at h
  cases r with
  | error e => simp at h; rw [h.1, h.2]
  | ok v₀ =>
    dsimp only at h
    cases hd : deserVal cfg k v₀ with
    | ok v₁ => rw [hd] at h; simp at h
    | error e =>
      rw [hd] at h
      simp at h
      obtain ⟨m, hm⟩ := deserVal_error hd
      rw [hm] at h
      exact absurd h.1 (by simp)

theorem arcGet_snd (cfg : Config) (now : Time) (k : Key) (onLoad : Bool)
    (s : ArcS) :
    (arcGet cfg now k onLoad s).2 = (arcGetValue now k onLoad s).2 := by
  unfold arcGet
  rcases hgv : arcGetValue now k onLoad s with ⟨r, st⟩
  cases r with
  | error e => rfl
  | ok v => cases hd : deserVal cfg k v <;> simp [hd]

theorem arcGet_ok {cfg : Config} {now : Time} {k : Key} {onLoad : Bool}
    {s s' : ArcS} {v : Value}
    (h : arcGet cfg now k onLoad s = (.ok v, s')) :
    ∃ v₀, arcGetValue now k onLoad s = (.ok v₀, s') := by
  unfold arcGet at h
  rcases hgv : arcGetValue now k onLoad s with ⟨r, st⟩
  rw [hgv] at h
  cases r with
  | error e => simp at h
  | ok v₀ =>
    dsimp only at h
    cases hd : deserVal cfg k v₀ with
    | ok v₁ => rw [hd] at h; simp at h; exact ⟨v₀, by rw [h.2]⟩
    | error e => rw [hd] at h; simp at h

theorem arcGet_notFound {cfg : Config} {now : Time} {k : Key}
    {onLoad : Bool} {s s' : ArcS}
    (h : arcGet cfg now k onLoad s = (.error .keyNotFound, s')) :
    arcGetValue now k onLoad s = (.error .keyNotFound, s') := by
  unfold arcGet at h
  rcases hgv : arcGetValue now k onLoad s with ⟨r, st⟩
  rw [hgv] at h
  cases r with
  | error e => simp at h; rw [h.1, h.2]
  | ok v₀ =>
    dsimp only at h
    cases hd : deserVal cfg k v₀ with
    | ok v₁ => rw [hd] at h; simp at h
    | error e =>
      rw [hd] at h
      simp at h
      obtain ⟨m, hm⟩ := deserVal_error hd
      rw [hm] at h
      exact absurd h.1 (by simp)

/-! ## Claim theorems: statistics, purge, errors, expiry, remove -/

/-- C6: for each engine present in the source (Simple, LFU, ARC), an engine
read `get(k, onLoad=false)` that returns a value increments the hit counter
by 1 and leaves the miss counter unchanged; one that returns the
`ErrKeyNotFound` sentinel increments the miss counter by 1 and leaves the hit
counter unchanged; and a loader-triggered internal read (`onLoad = true`)
leaves both counters unchanged. -/
theorem C6_get_moves_counters :
    (∀ (cfg : Config) (now : Time) (k : Key) (s s' : SimpleS),
      (∀ v, simpleGet cfg now k false s = (.ok v, s') →
        s'.hitCount = s.hitCount + 1 ∧ s'.missCount = s.missCount) ∧
      (simpleGet cfg now k false s = (.error .keyNotFound, s') →
        s'.missCount = s.missCount + 1 ∧ s'.hitCount = s.hitCount) ∧
      (∀ r, simpleGet cfg now k true s = (r, s') →
        s'.hitCount = s.hitCount ∧ s'.missCount = s.missCount)) ∧
    (∀ (cfg : Config) (now : Time) (k : Key) (s s' : LfuS),
      (∀ v, lfuGet cfg now k false s = (.ok v, s') →
        s'.hitCount = s.hitCount + 1 ∧ s'.missCount = s.missCount) ∧
      (lfuGet cfg now k false s = (.error .keyNotFound, s') →
        s'.missCount = s.missCount + 1 ∧ s'.hitCount = s.hitCount) ∧
      (∀ r, lfuGet cfg now k true s = (r, s') →
        s'.hitCount = s.hitCount ∧ s'.missCount = s.missCount)) ∧
    (∀ (cfg : Config) (now : Time) (k : Key) (s s' : ArcS),
      (∀ v, arcGet cfg now k false s = (.ok v, s') →
        s'.hitCount = s.hitCount + 1 ∧ s'.missCount = s.missCount) ∧
      (arcGet cfg now k false s = (.error .keyNotFound, s') →
        s'.missCount = s.missCount + 1 ∧ s'.hitCount = s.hitCount) ∧
      (∀ r, arcGet cfg now k true s = (r, s') →
        s'.hitCount = s.hitCount ∧ s'.missCount = s.missCount)) := by
  refine ⟨?_, ?_, ?_⟩
  · intro cfg now k s s'
    refine ⟨?_, ?_, ?_⟩
    · intro v h
      obtain ⟨v₀, hgv⟩ := simpleGet_ok h
      have := simpleGetValue_ok hgv
      rw [this]
      simp [recordHit]
    · intro h
      have hgv := simpleGet_notFound h
      have := simpleGetValue_err hgv
      simp [recordMiss] at this
      exact ⟨this.2, this.1⟩
    · intro r h
      have hsnd : s' = (simpleGetValue now k true s).2 := by
        rw [← simpleGet_snd cfg now k true s, h]
      rcases hgv : simpleGetValue now k true s with ⟨r₀, st⟩
      rw [hgv] at hsnd
      cases r₀ with
      | ok v₀ =>
        have := simpleGetValue_ok hgv
        rw [hsnd, this]
        simp [recordHit]
      | error e =>
        have := simpleGetValue_err hgv
        rw [hsnd]
        simpa [recordMiss] using this
  · intro cfg now k s s'
    refine ⟨?_, ?_, ?_⟩
    · intro v h
      obtain ⟨v₀, hgv⟩ := lfuGet_ok h
      have := lfuGetValue_ok hgv
      simpa [recordHit] using this
    · intro h
      have hgv := lfuGet_notFound h
      have := lfuGetValue_err hgv
      simp [recordMiss] at this
      exact ⟨this.2, this.1⟩
    · intro r h
      have hsnd : s' = (lfuGetValue now k true s).2 := by
        rw [← lfuGet_snd cfg now k true s, h]
      rcases hgv : lfuGetValue now k true s with ⟨r₀, st⟩
      rw [hgv] at hsnd
      cases r₀ with
      | ok v₀ =>
        have := lfuGetValue_ok hgv
        rw [hsnd]
        simpa [recordHit] using this
      | error e =>
        have := lfuGetValue_err hgv
        rw [hsnd]
        simpa [recordMiss] using this
  · intro cfg now k s s'
    refine ⟨?_, ?_, ?_⟩
    · intro v h
      obtain ⟨v₀, hgv⟩ := arcGet_ok h
      have := arcGetValue_ok hgv
      simpa [recordHit] using this
    · intro h
      have hgv := arcGet_notFound h
      have := arcGetValue_err hgv
      simp [recordMiss] at this
      exact ⟨this.2, this.1⟩
    · intro r h
      have hsnd : s' = (arcGetValue now k true s).2 := by
        rw [← arcGet_snd cfg now k true s, h]
      rcases hgv : arcGetValue now k true s with ⟨r₀, st⟩
      rw [hgv] at hsnd
      cases r₀ with
      | ok v₀ =>
        have := arcGetValue_ok hgv
        rw [hsnd]
        simpa [recordHit] using this
      | error e =>
        have := arcGetValue_err hgv
        rw [hsnd]
        simpa [recordMiss] using this

/-- C6 witness: a concrete hit on the Simple engine, applying
`C6_get_moves_counters` at it. -/
theorem C6_witness :
    (simpleGet ⟨10, none, none, none⟩ 0 1 false ⟨[(1, ⟨7, none⟩)], 4, 2, []⟩).2.hitCount = 5 ∧
    (simpleGet ⟨10, none, none, none⟩ 0 1 false ⟨[(1, ⟨7, none⟩)], 4, 2, []⟩).2.missCount = 2 := by
  have h := (C6_get_moves_counters.1 ⟨10, none, none, none⟩ 0 1
      ⟨[(1, ⟨7, none⟩)], 4, 2, []⟩
      (simpleGet ⟨10, none, none, none⟩ 0 1 false ⟨[(1, ⟨7, none⟩)], 4, 2, []⟩).2).1
      7 (by decide)
  exact h

/-- C7: for each engine, `Purge` fires the purge visitor exactly once per
entry of the primary index (in iteration order), leaves the cache empty
(`Len(false) = 0`), and does not touch the hit/miss counters. -/
theorem C7_purge_visits_all_then_empty :
    (∀ s : SimpleS,
      (simplePurge s).events =
        s.events ++ s.items.map (fun p => Event.purged p.1 p.2.value) ∧
      (simplePurge s).items = [] ∧
      (simplePurge s).hitCount = s.hitCount ∧
      (simplePurge s).missCount = s.missCount) ∧
    (∀ s : LfuS,
      (lfuPurge s).events =
        s.events ++ s.items.map (fun p => Event.purged p.1 p.2.value) ∧
      (lfuPurge s).items = [] ∧
      (lfuPurge s).freqList = [{ freq := 0, keys := [] }] ∧
      (lfuPurge s).hitCount = s.hitCount ∧
      (lfuPurge s).missCount = s.missCount) ∧
    (∀ s : ArcS,
      (arcPurge s).events =
        s.events ++ s.items.map (fun p => Event.purged p.1 p.2.value) ∧
      arcLenAll (arcPurge s) = 0 ∧
      (arcPurge s).t1 = [] ∧ (arcPurge s).t2 = [] ∧
      (arcPurge s).b1 = [] ∧ (arcPurge s).b2 = [] ∧
      (arcPurge s).hitCount = s.hitCount ∧
      (arcPurge s).missCount = s.missCount) := by
  refine ⟨fun s => ?_, fun s => ?_, fun s => ?_⟩
  · exact ⟨rfl, rfl, rfl, rfl⟩
  · exact ⟨rfl, rfl, rfl, rfl, rfl⟩
  · exact ⟨rfl, rfl, rfl, rfl, rfl, rfl, rfl, rfl⟩

/-- C3 counterexample: on an ARC cache of capacity 2 with `p = 0`, after
`Set(A,1); Set(B,2); Set(C,3)` (A = 1, B = 2, C = 3) the key A is NOT on the
ghost list `B1` — the full-`t1` branch of `set` drops the tail of `t1`
without ghosting it — and after the further `Set(A,9)` the partition
parameter is still 0 (no ghost hit happened) and A sits in `T1`, not `T2`. -/
theorem C3_counterexample :
    1 ∉ (applyAOps ⟨2, none, none, none⟩
          [.set 0 1 1, .set 0 2 2, .set 0 3 3] arcInit).b1 ∧
    (applyAOps ⟨2, none, none, none⟩
          [.set 0 1 1, .set 0 2 2, .set 0 3 3, .set 0 1 9] arcInit).part ≠ 1 ∧
    1 ∉ (applyAOps ⟨2, none, none, none⟩
          [.set 0 1 1, .set 0 2 2, .set 0 3 3, .set 0 1 9] arcInit).t2 := by
  decide

/-- C3 amended: on an ARC cache of capacity 2 with initial `p = 0`, after
`Set(A,1); Set(B,2); Set(C,3)` the key A is evicted outright (both ghost
lists stay empty); `Set(A,9)` is then a fresh insert that leaves `p = 0` and
places A at the front of `T1` with value 9; `Get(A)` returns 9 and promotes
A to `T2`. -/
theorem C3_amended :
    (applyAOps ⟨2, none, none, none⟩
        [.set 0 1 1, .set 0 2 2, .set 0 3 3] arcInit).b1 = [] ∧
    (applyAOps ⟨2, none, none, none⟩
        [.set 0 1 1, .set 0 2 2, .set 0 3 3] arcInit).b2 = [] ∧
    (applyAOps ⟨2, none, none, none⟩
        [.set 0 1 1, .set 0 2 2, .set 0 3 3, .set 0 1 9] arcInit).part = 0 ∧
    alookup 1 (applyAOps ⟨2, none, none, none⟩
        [.set 0 1 1, .set 0 2 2, .set 0 3 3, .set 0 1 9] arcInit).items =
      some { value := 9, expiration := none } ∧
    (applyAOps ⟨2, none, none, none⟩
        [.set 0 1 1, .set 0 2 2, .set 0 3 3, .set 0 1 9] arcInit).t1 = [1, 3] ∧
    (arcGet ⟨2, none, none, none⟩ 0 1 false
        (applyAOps ⟨2, none, none, none⟩
          [.set 0 1 1, .set 0 2 2, .set 0 3 3, .set 0 1 9] arcInit)).1 =
      .ok 9 ∧
    1 ∈ (arcGet ⟨2, none, none, none⟩ 0 1 false
        (applyAOps ⟨2, none, none, none⟩
          [.set 0 1 1, .set 0 2 2, .set 0 3 3, .set 0 1 9] arcInit)).2.t2 := by
  decide

/-- C4: the deserialize hook fails on a read of a present key.  `Get`
(`baseCache.Get`) propagates the error, but `GetIFPresent`
(`baseCache.GetIFPresent`, duplicated verbatim in `lfuCache.GetIFPresent`)
checks only for the not-found sentinel and ends with `return v, nil`,
swallowing the error: the caller receives `(nil, nil)`.  This contradicts
the propagation policy ("all errors surface to the caller; none are
swallowed"). -/
theorem C4_getIFPresent_swallows_deserialize_error :
    (simpleBaseGet ⟨10, none, none, some (fun _ _ => .error "boom")⟩ 0 1
        ⟨[(1, ⟨7, none⟩)], 0, 0, []⟩).1 = (none, some (.custom "boom")) ∧
    (simpleBaseGetIFPresent ⟨10, none, none, some (fun _ _ => .error "boom")⟩ 0 1
        ⟨[(1, ⟨7, none⟩)], 0, 0, []⟩).1 = (none, none) ∧
    (lfuGetIFPresent ⟨10, none, none, some (fun _ _ => .error "boom")⟩ 0 1
        ⟨[(1, ⟨7, none, 0⟩)], [⟨0, [1]⟩], 0, 0, []⟩).1 = (none, none) :=
  ⟨rfl, rfl, rfl⟩

/-- C5 counterexample: `IsExpired` uses the strict `expiration.Before(now)`,
so at `now = expiration` the claim's "now ≥ expiration ⇒ treated as absent"
fails: the entry is still served and still counted as present. -/
theorem C5_counterexample :
    (simpleGetValue 5 1 false ⟨[(1, ⟨7, some 5⟩)], 0, 0, []⟩).1 = .ok 7 ∧
    simpleHas 1 5 ⟨[(1, ⟨7, some 5⟩)], 0, 0, []⟩ = true := by
  decide

/-- C5 amended: an entry whose expiration instant is strictly before `now`
is treated as absent by reads — `has` (hence `Existed`, `Len(true)`,
`Keys(true)`, `GetALL(true)`) reports it missing — and the value-returning
read `get` removes it synchronously and fires the `evicted` callback.
Shown for the Simple engine and for the ARC `t1` path. -/
theorem C5_amended :
    (∀ (s : SimpleS) (k : Key) (it : SItem) (e : Time) (now : Time) (onLoad : Bool),
      alookup k s.items = some it → it.expiration = some e → e < now →
      (simpleGetValue now k onLoad s).1 = .error .keyNotFound ∧
      alookup k (simpleGetValue now k onLoad s).2.items = none ∧
      (simpleGetValue now k onLoad s).2.events =
        s.events ++ [.evicted k it.value]) ∧
    (∀ (s : SimpleS) (k : Key) (it : SItem) (e : Time) (now : Time),
      alookup k s.items = some it → it.expiration = some e → e < now →
      simpleHas k now s = false) ∧
    (∀ (s : ArcS) (k : Key) (it : AItem) (e : Time) (now : Time) (onLoad : Bool),
      k ∈ s.t1 → k ∉ s.t2 →
      alookup k s.items = some it → it.expiration = some e → e < now →
      (arcGetValue now k onLoad s).1 = .error .keyNotFound ∧
      alookup k (arcGetValue now k onLoad s).2.items = none ∧
      k ∈ (arcGetValue now k onLoad s).2.b1 ∧
      (arcGetValue now k onLoad s).2.events =
        s.events ++ [.evicted k it.value]) := by
  refine ⟨?_, ?_, ?_⟩
  · intro s k it e now onLoad hl hex hlt
    have hexp : isExpired it.expiration now = true := by
      rw [hex]; simp [isExpired, hlt]
    unfold simpleGetValue
    rw [hl]
    dsimp only
    simp only [hexp, Bool.not_true, Bool.false_eq_true, if_false]
    refine ⟨by simp, ?_, ?_⟩
    · simp [simpleRemove, hl, alookup_eraseKey_self]
    · simp [simpleRemove, hl]
  · intro s k it e now hl hex hlt
    have hexp : isExpired it.expiration now = true := by
      rw [hex]; simp [isExpired, hlt]
    unfold simpleHas
    rw [hl]
    dsimp only
    simp [hexp]
  · intro s k it e now onLoad hm1 hm2 hl hex hlt
    have hexp : isExpired it.expiration now = true := by
      rw [hex]; simp [isExpired, hlt]
    unfold arcGetValue
    rw [if_pos hm1]
    dsimp only
    rw [hl]
    dsimp only
    simp only [hexp, Bool.not_true, Bool.false_eq_true, if_false]
    unfold arcGetT2
    rw [if_neg (by simpa using hm2)]
    refine ⟨by simp, ?_, ?_, by simp⟩
    · simp [alookup_eraseKey_self]
    · simp [mem_pushFront]

/-- C5 witness: the amended statement applied at a concrete expired entry. -/
theorem C5_witness :
    (simpleGetValue 6 1 false ⟨[(1, ⟨7, some 5⟩)], 0, 0, []⟩).1 =
        .error .keyNotFound ∧
    alookup 1 (simpleGetValue 6 1 false ⟨[(1, ⟨7, some 5⟩)], 0, 0, []⟩).2.items =
        none ∧
    (simpleGetValue 6 1 false ⟨[(1, ⟨7, some 5⟩)], 0, 0, []⟩).2.events =
        [] ++ [.evicted 1 7] :=
  C5_amended.1 ⟨[(1, ⟨7, some 5⟩)], 0, 0, []⟩ 1 ⟨7, some 5⟩ 5 6 false rfl rfl
    (by decide)

/-- C9: for each engine, removing a live key twice returns `true` then
`false`.  For ARC the key moves to the corresponding ghost list on the first
`Remove`, and the second `Remove` still returns `false` because `remove`
consults only `t1`/`t2`. -/
theorem C9_remove_idempotent :
    (∀ (s : SimpleS) (k : Key) (it : SItem),
      alookup k s.items = some it →
      (simpleRemove k s).1 = true ∧
      (simpleRemove k (simpleRemove k s).2).1 = false) ∧
    (∀ (s : LfuS) (k : Key) (it : LItem),
      alookup k s.items = some it →
      (lfuRemove k s).1 = true ∧
      (lfuRemove k (lfuRemove k s).2).1 = false) ∧
    (∀ (s : ArcS) (k : Key),
      (k ∈ s.t1 ∨ k ∈ s.t2) → s.t1.Nodup → s.t2.Nodup →
      (∀ a, a ∈ s.t1 → a ∉ s.t2) →
      (arcRemove k s).1 = true ∧
      (k ∈ (arcRemove k s).2.b1 ∨ k ∈ (arcRemove k s).2.b2) ∧
      (arcRemove k (arcRemove k s).2).1 = false) := by
  refine ⟨?_, ?_, ?_⟩
  · intro s k it hl
    constructor
    · simp [simpleRemove, hl]
    · simp [simpleRemove, hl, alookup_eraseKey_self]
  · intro s k it hl
    constructor
    · simp [lfuRemove, hl]
    · simp [lfuRemove, hl, lfuRemoveItem, alookup_eraseKey_self]
  · intro s k hm hnd1 hnd2 hdisj
    rcases hm with hm | hm
    · have hm2 : k ∉ s.t2 := hdisj k hm
      cases hl : alookup k s.items with
      | some item =>
        have h1 : arcRemove k s =
            (true, { s with t1 := s.t1.erase k
                            items := eraseKey k s.items
                            b1 := pushFront k s.b1
                            events := s.events ++ [.evicted k item.value] }) := by
          unfold arcRemove
          rw [if_pos hm, hl]
        rw [h1]
        refine ⟨rfl, Or.inl (by simp [mem_pushFront]), ?_⟩
        unfold arcRemove
        rw [if_neg (by simpa using hnd1.not_mem_erase),
          if_neg (by simpa using hm2)]
      | none =>
        have h1 : arcRemove k s =
            (true, { s with t1 := s.t1.erase k, b1 := pushFront k s.b1 }) := by
          unfold arcRemove
          rw [if_pos hm, hl]
        rw [h1]
        refine ⟨rfl, Or.inl (by simp [mem_pushFront]), ?_⟩
        unfold arcRemove
        rw [if_neg (by simpa using hnd1.not_mem_erase),
          if_neg (by simpa using hm2)]
    · have hm1 : k ∉ s.t1 := fun hc => hdisj k hc hm
      cases hl : alookup k s.items with
      | some item =>
        have h1 : arcRemove k s =
            (true, { s with t2 := s.t2.erase k
                            items := eraseKey k s.items
                            b2 := pushFront k s.b2
                            events := s.events ++ [.evicted k item.value] }) := by
          unfold arcRemove
          rw [if_neg hm1, if_pos hm, hl]
        rw [h1]
        refine ⟨rfl, Or.inr (by simp [mem_pushFront]), ?_⟩
        unfold arcRemove
        rw [if_neg (by simpa using hm1),
          if_neg (by simpa using hnd2.not_mem_erase)]
      | none =>
        have h1 : arcRemove k s =
            (true, { s with t2 := s.t2.erase k, b2 := pushFront k s.b2 }) := by
          unfold arcRemove
          rw [if_neg hm1, if_pos hm, hl]
        rw [h1]
        refine ⟨rfl, Or.inr (by simp [mem_pushFront]), ?_⟩
        unfold arcRemove
        rw [if_neg (by simpa using hm1),
          if_neg (by simpa using hnd2.not_mem_erase)]

/-- C9 witness: the idempotence statement applied at concrete one-entry
caches of each engine. -/
theorem C9_witness :
    ((simpleRemove 1 ⟨[(1, ⟨7, none⟩)], 0, 0, []⟩).1 = true ∧
      (simpleRemove 1 (simpleRemove 1 ⟨[(1, ⟨7, none⟩)], 0, 0, []⟩).2).1 = false) ∧
    ((lfuRemove 1 ⟨[(1, ⟨7, none, 0⟩)], [⟨0, [1]⟩], 0, 0, []⟩).1 = true ∧
      (lfuRemove 1
        (lfuRemove 1 ⟨[(1, ⟨7, none, 0⟩)], [⟨0, [1]⟩], 0, 0, []⟩).2).1 = false) ∧
    ((arcRemove 1 ⟨[(1, ⟨7, none⟩)], [1], [], [], [], 0, 0, 0, []⟩).1 = true ∧
      (1 ∈ (arcRemove 1 ⟨[(1, ⟨7, none⟩)], [1], [], [], [], 0, 0, 0, []⟩).2.b1 ∨
        1 ∈ (arcRemove 1 ⟨[(1, ⟨7, none⟩)], [1], [], [], [], 0, 0, 0, []⟩).2.b2) ∧
      (arcRemove 1
        (arcRemove 1 ⟨[(1, ⟨7, none⟩)], [1], [], [], [], 0, 0, 0, []⟩).2).1 = false) := by
  refine ⟨?_, ?_, ?_⟩
  · exact C9_remove_idempotent.1 ⟨[(1, ⟨7, none⟩)], 0, 0, []⟩ 1 ⟨7, none⟩ rfl
  · exact C9_remove_idempotent.2.1 ⟨[(1, ⟨7, none, 0⟩)], [⟨0, [1]⟩], 0, 0, []⟩ 1
      ⟨7, none, 0⟩ rfl
  · have h := C9_remove_idempotent.2.2
      ⟨[(1, ⟨7, none⟩)], [1], [], [], [], 0, 0, 0, []⟩ 1
      (Or.inl (by decide)) (by decide) (by decide) (by decide)
    exact ⟨h.1, h.2.1, h.2.2⟩

/-! ## Capacity behaviour of the Simple engine (C1) -/

theorem simpleRemove_items_mem {k : Key} {s : SimpleS} {p : Key × SItem}
    (h : p ∈ (simpleRemove k s).2.items) : p ∈ s.items := by
  unfold simpleRemove at h
  cases hl : alookup k s.items with
  | some it =>
    rw [hl] at h
    exact List.mem_of_mem_filter h
  | none => rw [hl] at h; exact h

theorem simpleRemove_length_le (k : Key) (s : SimpleS) :
    (simpleRemove k s).2.items.length ≤ s.items.length := by
  unfold simpleRemove
  cases hl : alookup k s.items with
  | some it => exact length_eraseKey_le k s.items
  | none => exact le_rfl

theorem foldl_remove_mem {ks : List Key} {s : SimpleS} {p : Key × SItem}
    (h : p ∈ (ks.foldl (fun s k => (simpleRemove k s).2) s).items) :
    p ∈ s.items := by
  induction ks generalizing s with
  | nil => exact h
  | cons a t ih => exact simpleRemove_items_mem (ih h)

theorem foldl_remove_length_le (ks : List Key) (s : SimpleS) :
    (ks.foldl (fun s k => (simpleRemove k s).2) s).items.length ≤
      s.items.length := by
  induction ks generalizing s with
  | nil => exact le_rfl
  | cons a t ih =>
    exact le_trans (ih _) (simpleRemove_length_le a s)

theorem simpleEvict_items_mem {now : Time} {c : Nat} {s : SimpleS}
    {p : Key × SItem} (h : p ∈ (simpleEvict now c s).items) : p ∈ s.items :=
  foldl_remove_mem h

theorem simpleEvict_length_le (now : Time) (c : Nat) (s : SimpleS) :
    (simpleEvict now c s).items.length ≤ s.items.length :=
  foldl_remove_length_le _ s

/-- If some entry qualifies for eviction (nil expiration or already passed),
`evict(1)` removes at least one entry. -/
theorem simpleEvict_removes {now : Time} {s : SimpleS}
    (h : ∃ p ∈ s.items, p.2.expiration = none ∨ isExpired p.2.expiration now) :
    (simpleEvict now 1 s).items.length < s.items.length := by
  obtain ⟨p, hp, hq⟩ := h
  unfold simpleEvict
  have hfil : p ∈ s.items.filter
      (fun p => p.2.expiration = none ∨ isExpired p.2.expiration now) := by
    rw [List.mem_filter]
    exact ⟨hp, by simpa using hq⟩
  rcases hfe : s.items.filter
      (fun p => p.2.expiration = none ∨ isExpired p.2.expiration now) with
    _ | ⟨p₀, rest⟩
  · rw [hfe] at hfil; simp at hfil
  · rw [hfe]
    simp only [List.map_cons, List.take_succ_cons, List.take_zero,
      List.reverse_cons, List.reverse_nil, List.nil_append, List.foldl_cons,
      List.foldl_nil]
    have hp₀ : p₀ ∈ s.items := by
      have : p₀ ∈ s.items.filter
          (fun p => p.2.expiration = none ∨ isExpired p.2.expiration now) := by
        rw [hfe]; exact List.mem_cons_self _ _
      exact List.mem_of_mem_filter this
    have hmem : p₀.1 ∈ s.items.map Prod.fst := List.mem_map_of_mem Prod.fst hp₀
    unfold simpleRemove
    cases hl : alookup p₀.1 s.items with
    | some it => exact length_eraseKey_lt hmem
    | none =>
      rw [alookup_eq_none] at hl
      exact absurd hmem hl

/-- Preservation: for a configuration with no default TTL, an expiration-free
trace keeps every entry's expiration nil and the entry count within a
positive capacity. -/
theorem simpleSet_bounded {cfg : Config} {now : Time} {k : Key} {v : Value}
    {s s' : SimpleS} (hexp : cfg.expiration = none) (hsz : 0 < cfg.size)
    (hne : ∀ p ∈ s.items, p.2.expiration = none)
    (hlen : s.items.length ≤ cfg.size)
    (h : simpleSet cfg now k v s = .ok s') :
    (∀ p ∈ s'.items, p.2.expiration = none) ∧ s'.items.length ≤ cfg.size := by
  unfold simpleSet at h
  cases hser : serVal cfg k v with
  | error e => rw [hser] at h; simp at h
  | ok v' =>
    rw [hser] at h
    dsimp only at h
    rw [hexp] at h
    dsimp only at h
    cases hl : alookup k s.items with
    | some it =>
      rw [hl] at h
      dsimp only at h
      rw [← (by simpa using h : _ = s')]
      constructor
      · intro p hp
        simp only [updateV, List.mem_map] at hp
        obtain ⟨q, hq, hpq⟩ := hp
        by_cases hqk : q.1 = k
        · rw [← hpq]
          simp only [hqk, if_true]
          exact hne q hq
        · rw [← hpq]
          simp only [hqk, if_false]
          exact hne q hq
      · simpa [length_updateV] using hlen
    | none =>
      rw [hl] at h
      dsimp only at h
      rw [← (by simpa using h : _ = s')]
      by_cases hcap : s.items.length ≥ cfg.size ∧ 0 < cfg.size
      · rw [if_pos hcap]
        constructor
        · intro p hp
          simp only [List.mem_append, List.mem_singleton] at hp
          rcases hp with hp | hp
          · exact hne _ (simpleEvict_items_mem hp)
          · rw [hp]
        · have hq : ∃ p ∈ s.items, p.2.expiration = none ∨
              isExpired p.2.expiration now := by
            have hlen0 : 0 < s.items.length := lt_of_lt_of_le hsz hcap.1
            obtain ⟨p₀, hp₀⟩ := List.exists_mem_of_length_pos hlen0
            exact ⟨p₀, hp₀, Or.inl (hne p₀ hp₀)⟩
          have := simpleEvict_removes hq
          simp only [List.length_append, List.length_singleton]
          omega
      · rw [if_neg hcap]
        constructor
        · intro p hp
          simp only [List.mem_append, List.mem_singleton] at hp
          rcases hp with hp | hp
          · exact hne _ hp
          · rw [hp]
        · have : s.items.length < cfg.size := by
            rcases Nat.lt_or_ge s.items.length cfg.size with h' | h'
            · exact h'
            · exact absurd ⟨h', hsz⟩ hcap
          simp only [List.length_append, List.length_singleton]
          omega

theorem simpleGet_bounded {cfg : Config} {now : Time} {k : Key}
    {onLoad : Bool} {s : SimpleS}
    (hne : ∀ p ∈ s.items, p.2.expiration = none)
    (hlen : s.items.length ≤ cfg.size) :
    (∀ p ∈ (simpleGet cfg now k onLoad s).2.items, p.2.expiration = none) ∧
      (simpleGet cfg now k onLoad s).2.items.length ≤ cfg.size := by
  rw [simpleGet_snd]
  unfold simpleGetValue
  cases hl : alookup k s.items with
  | none => exact ⟨hne, hlen⟩
  | some item =>
    by_cases he : isExpired item.expiration now
    · simp only [he, Bool.not_true, Bool.false_eq_true, if_false]
      refine ⟨fun p hp => hne p (simpleRemove_items_mem hp), ?_⟩
      exact le_trans (simpleRemove_length_le k s) hlen
    · simp only [he, Bool.not_false, if_true]
      exact ⟨hne, hlen⟩

/-- Invariant transport along a whole expiration-free trace. -/
theorem applySOps_bounded {cfg : Config} (hexp : cfg.expiration = none)
    (hsz : 0 < cfg.size) (ops : List SOp)
    (hops : ∀ op ∈ ops, op.usesExpire = false) {s : SimpleS}
    (hne : ∀ p ∈ s.items, p.2.expiration = none)
    (hlen : s.items.length ≤ cfg.size) :
    (∀ p ∈ (applySOps cfg ops s).items, p.2.expiration = none) ∧
      (applySOps cfg ops s).items.length ≤ cfg.size := by
  induction ops generalizing s with
  | nil => exact ⟨hne, hlen⟩
  | cons op rest ih =>
    have hop := hops op (List.mem_cons_self _ _)
    have hrest : ∀ o ∈ rest, o.usesExpire = false := fun o ho =>
      hops o (List.mem_cons_of_mem _ ho)
    have hstep : (∀ p ∈ (applySOp cfg s op).items, p.2.expiration = none) ∧
        (applySOp cfg s op).items.length ≤ cfg.size := by
      cases op with
      | set now k v =>
        unfold applySOp
        dsimp only
        cases hs : simpleSet cfg now k v s with
        | ok s' =>
          simp only [hs]
          exact simpleSet_bounded hexp hsz hne hlen hs
        | error e => simp only [hs]; exact ⟨hne, hlen⟩
      | setWithExpire now k v d => simp [SOp.usesExpire] at hop
      | get now k onLoad =>
        unfold applySOp
        dsimp only
        exact simpleGet_bounded hne hlen
      | remove k =>
        unfold applySOp
        dsimp only
        refine ⟨fun p hp => hne p (simpleRemove_items_mem hp), ?_⟩
        exact le_trans (simpleRemove_length_le k s) hlen
      | purge =>
        unfold applySOp
        dsimp only
        exact ⟨by simp [simplePurge], by simp [simplePurge]⟩
    exact ih hrest hstep.1 hstep.2

/-! ## ARC invariant machinery (C2) -/

theorem updateV_isSome {α : Type} (k a : Key) (f : α → α) (l : List (Key × α)) :
    (alookup a (updateV k f l)).isSome = (alookup a l).isSome := by
  by_cases h : a = k
  · rw [h, alookup_updateV_self]
    cases alookup k l <;> rfl
  · rw [alookup_updateV_ne f l h]

theorem removeTail_pos {l : List Key} (h : 0 < l.length) :
    ∃ x l', removeTail l = some (x, l') ∧ l = l' ++ [x] := by
  cases l with
  | nil => simp at h
  | cons a t =>
    refine ⟨(a :: t).getLast (by simp), (a :: t).dropLast, rfl, ?_⟩
    exact (List.dropLast_append_getLast (by simp)).symm

theorem arcDrop_t1 (k : Key) (s : ArcS) : (arcDropFromItems k s).t1 = s.t1 := by
  unfold arcDropFromItems
  cases alookup k s.items <;> rfl

theorem arcDrop_t2 (k : Key) (s : ArcS) : (arcDropFromItems k s).t2 = s.t2 := by
  unfold arcDropFromItems
  cases alookup k s.items <;> rfl

theorem arcDrop_b1 (k : Key) (s : ArcS) : (arcDropFromItems k s).b1 = s.b1 := by
  unfold arcDropFromItems
  cases alookup k s.items <;> rfl

theorem arcDrop_b2 (k : Key) (s : ArcS) : (arcDropFromItems k s).b2 = s.b2 := by
  unfold arcDropFromItems
  cases alookup k s.items <;> rfl

theorem arcDrop_part (k : Key) (s : ArcS) :
    (arcDropFromItems k s).part = s.part := by
  unfold arcDropFromItems
  cases alookup k s.items <;> rfl

theorem arcDrop_alookup_self (k : Key) (s : ArcS) :
    alookup k (arcDropFromItems k s).items = none := by
  unfold arcDropFromItems
  cases hl : alookup k s.items with
  | some it => exact alookup_eraseKey_self k s.items
  | none => exact hl

theorem arcDrop_alookup_ne {a k : Key} (s : ArcS) (h : a ≠ k) :
    alookup a (arcDropFromItems k s).items = alookup a s.items := by
  unfold arcDropFromItems
  cases alookup k s.items with
  | some it => exact alookup_eraseKey_ne s.items h
  | none => rfl

theorem arcDrop_ndItems {k : Key} {s : ArcS}
    (h : (s.items.map Prod.fst).Nodup) :
    ((arcDropFromItems k s).items.map Prod.fst).Nodup := by
  unfold arcDropFromItems
  cases alookup k s.items with
  | some it => exact nodup_map_fst_eraseKey k h
  | none => exact h

theorem arcIsCacheFull_iff {cfg : Config} {s : ArcS} :
    arcIsCacheFull cfg s = true ↔ s.t1.length + s.t2.length = cfg.size := by
  simp [arcIsCacheFull]

theorem arcIsCacheFull_false {cfg : Config} {s : ArcS}
    (h : s.t1.length + s.t2.length ≠ cfg.size) :
    arcIsCacheFull cfg s = false := by
  simp only [arcIsCacheFull, decide_eq_false_iff_not]
  exact h

theorem arcReplace_not_full {cfg : Config} (k : Key) {s : ArcS}
    (h : s.t1.length + s.t2.length ≠ cfg.size) : arcReplace cfg k s = s := by
  unfold arcReplace
  rw [arcIsCacheFull_false h]
  rfl

theorem arcDemoteT1_spec {cfg : Config} {ex : Option Key} {s : ArcS}
    (hw : ArcWf cfg ex s) (hfull : s.t1.length + s.t2.length = cfg.size)
    {old : Key} {t1' : List Key} (hr : removeTail s.t1 = some (old, t1')) :
    ArcRepSpec cfg ex s
      (arcDropFromItems old { s with t1 := t1', b1 := pushFront old s.b1 }) := by
  have hcat : s.t1 = t1' ++ [old] := removeTail_concat hr
  have hnd : (t1' ++ [old]).Nodup := by rw [← hcat]; exact hw.nd1
  have hndt1' : t1'.Nodup := hnd.of_append_left
  have hold_nt1' : old ∉ t1' := by
    rcases List.nodup_append.mp hnd with ⟨-, -, hdisj⟩
    intro hc
    exact hdisj hc (by simp)
  have hold_t1 : old ∈ s.t1 := by rw [hcat]; simp
  have hold_nt2 : old ∉ s.t2 := hw.d12 old hold_t1
  have hold_nb1 : old ∉ s.b1 := hw.d13 old hold_t1
  have hold_nb2 : old ∉ s.b2 := hw.d14 old hold_t1
  have hex_old : ex ≠ some old := fun hc => (hw.exm old hc).1 hold_t1
  have hmem_t1' : ∀ a ∈ t1', a ∈ s.t1 := by
    intro a ha; rw [hcat]; exact List.mem_append_left _ ha
  have hlen1 : s.t1.length = t1'.length + 1 := by rw [hcat]; simp
  have hlb1 : (pushFront old s.b1).length = s.b1.length + 1 :=
    length_pushFront_of_not_mem hold_nb1
  refine ⟨⟨?_, ?_, ?_, ?_, ?_, ?_, ?_, ?_, ?_, ?_, ?_, ?_, ?_, ?_, ?_, ?_⟩,
    ?_, ?_, ?_, ?_, ?_, ?_, ?_, ?_, ?_, ?_⟩
  · rw [arcDrop_t1]; exact hndt1'
  · rw [arcDrop_t2]; exact hw.nd2
  · rw [arcDrop_b1]; exact nodup_pushFront old hw.ndb1
  · rw [arcDrop_b2]; exact hw.ndb2
  · rw [arcDrop_t1, arcDrop_t2]
    intro a ha
    exact hw.d12 a (hmem_t1' a ha)
  · rw [arcDrop_t1, arcDrop_b1]
    intro a ha
    rw [mem_pushFront]
    push_neg
    exact ⟨fun hc => hold_nt1' (hc ▸ ha), hw.d13 a (hmem_t1' a ha)⟩
  · rw [arcDrop_t1, arcDrop_b2]
    intro a ha
    exact hw.d14 a (hmem_t1' a ha)
  · rw [arcDrop_t2, arcDrop_b1]
    intro a ha
    rw [mem_pushFront]
    push_neg
    exact ⟨fun hc => hold_nt2 (hc ▸ ha), hw.d23 a ha⟩
  · rw [arcDrop_t2, arcDrop_b2]
    exact hw.d24
  · rw [arcDrop_b1, arcDrop_b2]
    intro a ha
    rw [mem_pushFront] at ha
    rcases ha with rfl | ha
    · exact hold_nb2
    · exact hw.d34 a ha
  · rw [arcDrop_t1, arcDrop_t2]
    dsimp only
    omega
  · rw [arcDrop_t1, arcDrop_t2, arcDrop_b1, arcDrop_b2]
    dsimp only
    rw [hlb1]
    have := hw.total
    omega
  · rw [arcDrop_part]
    exact hw.part_le
  · exact arcDrop_ndItems hw.ndItems
  · intro k0 hk0
    rw [arcDrop_t1, arcDrop_t2]
    dsimp only
    obtain ⟨h1, h2⟩ := hw.exm k0 hk0
    exact ⟨fun hc => h1 (hmem_t1' _ hc), h2⟩
  · intro a
    rw [arcDrop_t1, arcDrop_t2]
    dsimp only
    by_cases hao : a = old
    · subst hao
      rw [arcDrop_alookup_self]
      simp only [Option.isSome_none, Bool.false_eq_true, false_iff]
      push_neg
      refine ⟨hold_nt1', hold_nt2, ?_⟩
      exact fun hc => hex_old hc
    · rw [arcDrop_alookup_ne _ hao]
      dsimp only
      rw [hw.cover a]
      constructor
      · rintro (h1 | h2 | h3)
        · rw [hcat] at h1
          rcases List.mem_append.mp h1 with h1 | h1
          · exact Or.inl h1
          · simp at h1; exact absurd h1 hao
        · exact Or.inr (Or.inl h2)
        · exact Or.inr (Or.inr h3)
      · rintro (h1 | h2 | h3)
        · exact Or.inl (hmem_t1' a h1)
        · exact Or.inr (Or.inl h2)
        · exact Or.inr (Or.inr h3)
  · rw [arcDrop_part]
  · rw [arcDrop_t1, arcDrop_t2]
    dsimp only
    omega
  · rw [arcDrop_t1, arcDrop_b1]
    dsimp only
    rw [hlb1]
    omega
  · rw [arcDrop_t2, arcDrop_b2]
  · rw [arcDrop_t1]
    exact hmem_t1'
  · rw [arcDrop_t2]
    intro a ha
    exact ha
  · rw [arcDrop_b1]
    intro a ha
    rw [mem_pushFront]
    exact Or.inr ha
  · rw [arcDrop_b2]
    intro a ha
    exact ha
  · rw [arcDrop_b1]
    intro a ha
    rw [mem_pushFront] at ha
    rcases ha with rfl | ha
    · exact Or.inr hold_t1
    · exact Or.inl ha
  · rw [arcDrop_b2]
    intro a ha
    exact Or.inl ha

theorem arcDemoteT2_spec {cfg : Config} {ex : Option Key} {s : ArcS}
    (hw : ArcWf cfg ex s) (hfull : s.t1.length + s.t2.length = cfg.size)
    {old : Key} {t2' : List Key} (hr : removeTail s.t2 = some (old, t2')) :
    ArcRepSpec cfg ex s
      (arcDropFromItems old { s with t2 := t2', b2 := pushFront old s.b2 }) := by
  have hcat : s.t2 = t2' ++ [old] := removeTail_concat hr
  have hnd : (t2' ++ [old]).Nodup := by rw [← hcat]; exact hw.nd2
  have hndt2' : t2'.Nodup := hnd.of_append_left
  have hold_nt2' : old ∉ t2' := by
    rcases List.nodup_append.mp hnd with ⟨-, -, hdisj⟩
    intro hc
    exact hdisj hc (by simp)
  have hold_t2 : old ∈ s.t2 := by rw [hcat]; simp
  have hold_nt1 : old ∉ s.t1 := fun hc => hw.d12 old hc hold_t2
  have hold_nb1 : old ∉ s.b1 := hw.d23 old hold_t2
  have hold_nb2 : old ∉ s.b2 := hw.d24 old hold_t2
  have hex_old : ex ≠ some old := fun hc => (hw.exm old hc).2 hold_t2
  have hmem_t2' : ∀ a ∈ t2', a ∈ s.t2 := by
    intro a ha; rw [hcat]; exact List.mem_append_left _ ha
  have hlen1 : s.t2.length = t2'.length + 1 := by rw [hcat]; simp
  have hlb2 : (pushFront old s.b2).length = s.b2.length + 1 :=
    length_pushFront_of_not_mem hold_nb2
  refine ⟨⟨?_, ?_, ?_, ?_, ?_, ?_, ?_, ?_, ?_, ?_, ?_, ?_, ?_, ?_, ?_, ?_⟩,
    ?_, ?_, ?_, ?_, ?_, ?_, ?_, ?_, ?_, ?_⟩
  · rw [arcDrop_t1]; exact hw.nd1
  · rw [arcDrop_t2]; exact hndt2'
  · rw [arcDrop_b1]; exact hw.ndb1
  · rw [arcDrop_b2]; exact nodup_pushFront old hw.ndb2
  · rw [arcDrop_t1, arcDrop_t2]
    intro a ha hc
    exact hw.d12 a ha (hmem_t2' a hc)
  · rw [arcDrop_t1, arcDrop_b1]
    exact hw.d13
  · rw [arcDrop_t1, arcDrop_b2]
    intro a ha
    rw [mem_pushFront]
    push_neg
    exact ⟨fun hc => hold_nt1 (hc ▸ ha), hw.d14 a ha⟩
  · rw [arcDrop_t2, arcDrop_b1]
    intro a ha
    exact hw.d23 a (hmem_t2' a ha)
  · rw [arcDrop_t2, arcDrop_b2]
    intro a ha
    rw [mem_pushFront]
    push_neg
    exact ⟨fun hc => hold_nt2' (hc ▸ ha), hw.d24 a (hmem_t2' a ha)⟩
  · rw [arcDrop_b1, arcDrop_b2]
    intro a ha
    rw [mem_pushFront]
    push_neg
    exact ⟨fun hc => hold_nb1 (hc ▸ ha), hw.d34 a ha⟩
  · rw [arcDrop_t1, arcDrop_t2]
    dsimp only
    omega
  · rw [arcDrop_t1, arcDrop_t2, arcDrop_b1, arcDrop_b2]
    dsimp only
    rw [hlb2]
    have := hw.total
    omega
  · rw [arcDrop_part]
    exact hw.part_le
  · exact arcDrop_ndItems hw.ndItems
  · intro k0 hk0
    rw [arcDrop_t1, arcDrop_t2]
    dsimp only
    obtain ⟨h1, h2⟩ := hw.exm k0 hk0
    exact ⟨h1, fun hc => h2 (hmem_t2' _ hc)⟩
  · intro a
    rw [arcDrop_t1, arcDrop_t2]
    dsimp only
    by_cases hao : a = old
    · subst hao
      rw [arcDrop_alookup_self]
      simp only [Option.isSome_none, Bool.false_eq_true, false_iff]
      push_neg
      refine ⟨hold_nt1, hold_nt2', ?_⟩
      exact fun hc => hex_old hc
    · rw [arcDrop_alookup_ne _ hao]
      dsimp only
      rw [hw.cover a]
      constructor
      · rintro (h1 | h2 | h3)
        · exact Or.inl h1
        · rw [hcat] at h2
          rcases List.mem_append.mp h2 with h2 | h2
          · exact Or.inr (Or.inl h2)
          · simp at h2; exact absurd h2 hao
        · exact Or.inr (Or.inr h3)
      · rintro (h1 | h2 | h3)
        · exact Or.inl h1
        · exact Or.inr (Or.inl (hmem_t2' a h2))
        · exact Or.inr (Or.inr h3)
  · rw [arcDrop_part]
  · rw [arcDrop_t1, arcDrop_t2]
    dsimp only
    omega
  · rw [arcDrop_t1, arcDrop_b1]
  · rw [arcDrop_t2, arcDrop_b2]
    dsimp only
    rw [hlb2]
    omega
  · rw [arcDrop_t1]
    intro a ha
    exact ha
  · rw [arcDrop_t2]
    exact hmem_t2'
  · rw [arcDrop_b1]
    intro a ha
    exact ha
  · rw [arcDrop_b2]
    intro a ha
    rw [mem_pushFront]
    exact Or.inr ha
  · rw [arcDrop_b1]
    intro a ha
    exact Or.inl ha
  · rw [arcDrop_b2]
    intro a ha
    rw [mem_pushFront] at ha
    rcases ha with rfl | ha
    · exact Or.inr hold_t2
    · exact Or.inl ha

/-- On a full cache, `replace` realizes the demotion spec. -/
theorem arcReplace_full_spec {cfg : Config} {ex : Option Key} (k : Key)
    {s : ArcS} (hw : ArcWf cfg ex s) (hsz : 0 < cfg.size)
    (hfull : s.t1.length + s.t2.length = cfg.size) :
    ArcRepSpec cfg ex s (arcReplace cfg k s) := by
  unfold arcReplace
  rw [arcIsCacheFull_iff.mpr hfull]
  simp only [Bool.not_true, Bool.false_eq_true, if_false]
  by_cases hc1 : 0 < s.t1.length ∧
      ((k ∈ s.b2 ∧ s.t1.length = s.part) ∨ s.part < s.t1.length)
  · rw [if_pos hc1]
    obtain ⟨old, t1', hrt, -⟩ := removeTail_pos hc1.1
    rw [hrt]
    exact arcDemoteT1_spec hw hfull hrt
  · rw [if_neg hc1]
    by_cases hc2 : 0 < s.t2.length
    · rw [if_pos hc2]
      obtain ⟨old, t2', hrt, -⟩ := removeTail_pos hc2
      rw [hrt]
      exact arcDemoteT2_spec hw hfull hrt
    · rw [if_neg hc2]
      have ht1 : 0 < s.t1.length := by omega
      obtain ⟨old, t1', hrt, -⟩ := removeTail_pos ht1
      rw [hrt]
      exact arcDemoteT1_spec hw hfull hrt

/-- Popping the tail of `t1` and deleting its value (the `else` arm of the
fresh-key path when `|t1| = size`). -/
theorem arcPopT1_spec {cfg : Config} {ex : Option Key} {s : ArcS}
    (hw : ArcWf cfg ex s) {pop : Key} {t1' : List Key}
    (hr : removeTail s.t1 = some (pop, t1')) :
    ArcWf cfg ex (arcDropFromItems pop { s with t1 := t1' }) ∧
    (arcDropFromItems pop { s with t1 := t1' }).t1.length + 1 = s.t1.length ∧
    (arcDropFromItems pop { s with t1 := t1' }).t2 = s.t2 ∧
    (arcDropFromItems pop { s with t1 := t1' }).b1 = s.b1 ∧
    (arcDropFromItems pop { s with t1 := t1' }).b2 = s.b2 ∧
    (arcDropFromItems pop { s with t1 := t1' }).part = s.part := by
  have hcat : s.t1 = t1' ++ [pop] := removeTail_concat hr
  have hnd : (t1' ++ [pop]).Nodup := by rw [← hcat]; exact hw.nd1
  have hndt1' : t1'.Nodup := hnd.of_append_left
  have hpop_nt1' : pop ∉ t1' := by
    rcases List.nodup_append.mp hnd with ⟨-, -, hdisj⟩
    intro hc
    exact hdisj hc (by simp)
  have hpop_t1 : pop ∈ s.t1 := by rw [hcat]; simp
  have hpop_nt2 : pop ∉ s.t2 := hw.d12 pop hpop_t1
  have hex_pop : ex ≠ some pop := fun hc => (hw.exm pop hc).1 hpop_t1
  have hmem_t1' : ∀ a ∈ t1', a ∈ s.t1 := by
    intro a ha; rw [hcat]; exact List.mem_append_left _ ha
  have hlen1 : s.t1.length = t1'.length + 1 := by rw [hcat]; simp
  refine ⟨⟨?_, ?_, ?_, ?_, ?_, ?_, ?_, ?_, ?_, ?_, ?_, ?_, ?_, ?_, ?_, ?_⟩,
    ?_, ?_, ?_, ?_, ?_⟩
  · rw [arcDrop_t1]; exact hndt1'
  · rw [arcDrop_t2]; exact hw.nd2
  · rw [arcDrop_b1]; exact hw.ndb1
  · rw [arcDrop_b2]; exact hw.ndb2
  · rw [arcDrop_t1, arcDrop_t2]
    intro a ha
    exact hw.d12 a (hmem_t1' a ha)
  · rw [arcDrop_t1, arcDrop_b1]
    intro a ha
    exact hw.d13 a (hmem_t1' a ha)
  · rw [arcDrop_t1, arcDrop_b2]
    intro a ha
    exact hw.d14 a (hmem_t1' a ha)
  · rw [arcDrop_t2, arcDrop_b1]
    exact hw.d23
  · rw [arcDrop_t2, arcDrop_b2]
    exact hw.d24
  · rw [arcDrop_b1, arcDrop_b2]
    exact hw.d34
  · rw [arcDrop_t1, arcDrop_t2]
    dsimp only
    have := hw.live
    omega
  · rw [arcDrop_t1, arcDrop_t2, arcDrop_b1, arcDrop_b2]
    dsimp only
    have := hw.total
    omega
  · rw [arcDrop_part]
    exact hw.part_le
  · exact arcDrop_ndItems hw.ndItems
  · intro k0 hk0
    rw [arcDrop_t1, arcDrop_t2]
    dsimp only
    obtain ⟨h1, h2⟩ := hw.exm k0 hk0
    exact ⟨fun hc => h1 (hmem_t1' _ hc), h2⟩
  · intro a
    rw [arcDrop_t1, arcDrop_t2]
    dsimp only
    by_cases hao : a = pop
    · subst hao
      rw [arcDrop_alookup_self]
      simp only [Option.isSome_none, Bool.false_eq_true, false_iff]
      push_neg
      refine ⟨hpop_nt1', hpop_nt2, ?_⟩
      exact fun hc => hex_pop hc
    · rw [arcDrop_alookup_ne _ hao]
      dsimp only
      rw [hw.cover a]
      constructor
      · rintro (h1 | h2 | h3)
        · rw [hcat] at h1
          rcases List.mem_append.mp h1 with h1 | h1
          · exact Or.inl h1
          · simp at h1; exact absurd h1 hao
        · exact Or.inr (Or.inl h2)
        · exact Or.inr (Or.inr h3)
      · rintro (h1 | h2 | h3)
        · exact Or.inl (hmem_t1' a h1)
        · exact Or.inr (Or.inl h2)
        · exact Or.inr (Or.inr h3)
  · rw [arcDrop_t1]
    dsimp only
    omega
  · rw [arcDrop_t2]
  · rw [arcDrop_b1]
  · rw [arcDrop_b2]
  · rw [arcDrop_part]

/-- Dropping the tail of a ghost list preserves well-formedness. -/
theorem arcDropB1Tail_spec {cfg : Config} {ex : Option Key} {s : ArcS}
    (hw : ArcWf cfg ex s) {x : Key} {b1' : List Key}
    (hr : removeTail s.b1 = some (x, b1')) :
    ArcWf cfg ex { s with b1 := b1' } ∧ s.b1.length = b1'.length + 1 ∧
    (∀ a ∈ b1', a ∈ s.b1) := by
  have hcat : s.b1 = b1' ++ [x] := removeTail_concat hr
  have hnd : (b1' ++ [x]).Nodup := by rw [← hcat]; exact hw.ndb1
  have hmem : ∀ a ∈ b1', a ∈ s.b1 := by
    intro a ha; rw [hcat]; exact List.mem_append_left _ ha
  have hlen : s.b1.length = b1'.length + 1 := by rw [hcat]; simp
  refine ⟨⟨hw.nd1, hw.nd2, hnd.of_append_left, hw.ndb2, hw.d12,
    ?_, hw.d14, ?_, hw.d24, ?_, hw.live, ?_, hw.part_le, hw.ndItems,
    hw.exm, hw.cover⟩, hlen, hmem⟩
  · intro a ha hc
    exact hw.d13 a ha (hmem _ hc)
  · intro a ha hc
    exact hw.d23 a ha (hmem _ hc)
  · intro a ha
    exact hw.d34 a (hmem _ ha)
  · have := hw.total
    dsimp only
    omega

theorem arcDropB2Tail_spec {cfg : Config} {ex : Option Key} {s : ArcS}
    (hw : ArcWf cfg ex s) {x : Key} {b2' : List Key}
    (hr : removeTail s.b2 = some (x, b2')) :
    ArcWf cfg ex { s with b2 := b2' } ∧ s.b2.length = b2'.length + 1 ∧
    (∀ a ∈ b2', a ∈ s.b2) := by
  have hcat : s.b2 = b2' ++ [x] := removeTail_concat hr
  have hnd : (b2' ++ [x]).Nodup := by rw [← hcat]; exact hw.ndb2
  have hmem : ∀ a ∈ b2', a ∈ s.b2 := by
    intro a ha; rw [hcat]; exact List.mem_append_left _ ha
  have hlen : s.b2.length = b2'.length + 1 := by rw [hcat]; simp
  refine ⟨⟨hw.nd1, hw.nd2, hw.ndb1, hnd.of_append_left, hw.d12,
    hw.d13, ?_, hw.d23, ?_, ?_, hw.live, ?_, hw.part_le, hw.ndItems,
    hw.exm, hw.cover⟩, hlen, hmem⟩
  · intro a ha hc
    exact hw.d14 a ha (hmem _ hc)
  · intro a ha hc
    exact hw.d24 a ha (hmem _ hc)
  · intro a ha hc
    exact hw.d34 a ha (hmem _ hc)
  · have := hw.total
    dsimp only
    omega

/-- Final step of the fresh-key path: pushing the new key onto `t1`. -/
theorem arcFreshPush_inv {cfg : Config} {k : Key} {sm : ArcS}
    (hwm : ArcWf cfg (some k) sm)
    (hlive : sm.t1.length + sm.t2.length < cfg.size)
    (htot : sm.t1.length + sm.b1.length + sm.t2.length + sm.b2.length + 1 ≤
      2 * cfg.size)
    (hb1 : k ∉ sm.b1) (hb2 : k ∉ sm.b2) :
    ArcInv cfg { sm with t1 := pushFront k sm.t1 } := by
  have hkt1 : k ∉ sm.t1 := (hwm.exm k rfl).1
  have hkt2 : k ∉ sm.t2 := (hwm.exm k rfl).2
  have hlen : (pushFront k sm.t1).length = sm.t1.length + 1 :=
    length_pushFront_of_not_mem hkt1
  refine ⟨nodup_pushFront k hwm.nd1, hwm.nd2, hwm.ndb1, hwm.ndb2,
    ?_, ?_, ?_, hwm.d23, hwm.d24, hwm.d34, ?_, ?_, hwm.part_le,
    hwm.ndItems, ?_, ?_⟩
  · intro a ha
    rcases mem_pushFront.mp ha with rfl | ha
    · exact hkt2
    · exact hwm.d12 a ha
  · intro a ha
    rcases mem_pushFront.mp ha with rfl | ha
    · exact hb1
    · exact hwm.d13 a ha
  · intro a ha
    rcases mem_pushFront.mp ha with rfl | ha
    · exact hb2
    · exact hwm.d14 a ha
  · dsimp only
    omega
  · dsimp only
    omega
  · intro k0 hk0
    simp at hk0
  · intro a
    dsimp only
    rw [hwm.cover a, mem_pushFront]
    constructor
    · rintro (h1 | h2 | h3)
      · exact Or.inl (Or.inr h1)
      · exact Or.inr (Or.inl h2)
      · have hka : k = a := by simpa using h3
        exact Or.inl (Or.inl hka.symm)
    · rintro ((rfl | h1) | h2 | h3)
      · exact Or.inr (Or.inr rfl)
      · exact Or.inl h1
      · exact Or.inr (Or.inl h2)
      · simp at h3

/-- Final step of a ghost hit on `b1`: remove the key from `b1` and push it
onto `t2`. -/
theorem arcGhostB1_inv {cfg : Config} {k : Key} {sb : ArcS}
    (hw : ArcWf cfg (some k) sb) (hkb1 : k ∈ sb.b1) (hkb2 : k ∉ sb.b2)
    (hlive : sb.t1.length + sb.t2.length < cfg.size) :
    ArcInv cfg { sb with b1 := sb.b1.erase k, t2 := pushFront k sb.t2 } := by
  have hkt1 : k ∉ sb.t1 := (hw.exm k rfl).1
  have hkt2 : k ∉ sb.t2 := (hw.exm k rfl).2
  have hlent2 : (pushFront k sb.t2).length = sb.t2.length + 1 :=
    length_pushFront_of_not_mem hkt2
  have hlenb1 : (sb.b1.erase k).length + 1 = sb.b1.length := by
    rw [List.length_erase_of_mem hkb1]
    have := List.length_pos.2 (List.ne_nil_of_mem hkb1)
    omega
  refine ⟨hw.nd1, nodup_pushFront k hw.nd2, hw.ndb1.erase k, hw.ndb2,
    ?_, ?_, ?_, ?_, ?_, ?_, ?_, ?_, hw.part_le, hw.ndItems, ?_, ?_⟩
  · intro a ha
    dsimp only
    rw [mem_pushFront]
    push_neg
    exact ⟨fun hc => hkt1 (hc ▸ ha), hw.d12 a ha⟩
  · intro a ha hc
    exact hw.d13 a ha (List.mem_of_mem_erase hc)
  · intro a ha
    exact hw.d14 a ha
  · intro a ha
    dsimp only at ha
    rcases mem_pushFront.mp ha with rfl | ha
    · exact hw.ndb1.not_mem_erase
    · intro hc
      exact hw.d23 a ha (List.mem_of_mem_erase hc)
  · intro a ha
    dsimp only at ha
    rcases mem_pushFront.mp ha with rfl | ha
    · exact hkb2
    · exact hw.d24 a ha
  · intro a ha
    exact hw.d34 a (List.mem_of_mem_erase ha)
  · dsimp only
    omega
  · dsimp only
    have := hw.total
    omega
  · intro k0 hk0
    simp at hk0
  · intro a
    dsimp only
    rw [hw.cover a, mem_pushFront]
    constructor
    · rintro (h1 | h2 | h3)
      · exact Or.inl h1
      · exact Or.inr (Or.inl (Or.inr h2))
      · have hka : k = a := by simpa using h3
        exact Or.inr (Or.inl (Or.inl hka.symm))
    · rintro (h1 | (rfl | h2) | h3)
      · exact Or.inl h1
      · exact Or.inr (Or.inr rfl)
      · exact Or.inr (Or.inl h2)
      · simp at h3

/-- Final step of a ghost hit on `b2`. -/
theorem arcGhostB2_inv {cfg : Config} {k : Key} {sb : ArcS}
    (hw : ArcWf cfg (some k) sb) (hkb2 : k ∈ sb.b2) (hkb1 : k ∉ sb.b1)
    (hlive : sb.t1.length + sb.t2.length < cfg.size) :
    ArcInv cfg { sb with b2 := sb.b2.erase k, t2 := pushFront k sb.t2 } := by
  have hkt1 : k ∉ sb.t1 := (hw.exm k rfl).1
  have hkt2 : k ∉ sb.t2 := (hw.exm k rfl).2
  have hlent2 : (pushFront k sb.t2).length = sb.t2.length + 1 :=
    length_pushFront_of_not_mem hkt2
  have hlenb2 : (sb.b2.erase k).length + 1 = sb.b2.length := by
    rw [List.length_erase_of_mem hkb2]
    have := List.length_pos.2 (List.ne_nil_of_mem hkb2)
    omega
  refine ⟨hw.nd1, nodup_pushFront k hw.nd2, hw.ndb1, hw.ndb2.erase k,
    ?_, ?_, ?_, ?_, ?_, ?_, ?_, ?_, hw.part_le, hw.ndItems, ?_, ?_⟩
  · intro a ha
    dsimp only
    rw [mem_pushFront]
    push_neg
    exact ⟨fun hc => hkt1 (hc ▸ ha), hw.d12 a ha⟩
  · intro a ha
    exact hw.d13 a ha
  · intro a ha hc
    exact hw.d14 a ha (List.mem_of_mem_erase hc)
  · intro a ha
    dsimp only at ha
    rcases mem_pushFront.mp ha with rfl | ha
    · exact hkb1
    · exact hw.d23 a ha
  · intro a ha
    dsimp only at ha
    rcases mem_pushFront.mp ha with rfl | ha
    · exact hw.ndb2.not_mem_erase
    · intro hc
      exact hw.d24 a ha (List.mem_of_mem_erase hc)
  · intro a ha hc
    exact hw.d34 a ha (List.mem_of_mem_erase hc)
  · dsimp only
    omega
  · dsimp only
    have := hw.total
    omega
  · intro k0 hk0
    simp at hk0
  · intro a
    dsimp only
    rw [hw.cover a, mem_pushFront]
    constructor
    · rintro (h1 | h2 | h3)
      · exact Or.inl h1
      · exact Or.inr (Or.inl (Or.inr h2))
      · have hka : k = a := by simpa using h3
        exact Or.inr (Or.inl (Or.inl hka.symm))
    · rintro (h1 | (rfl | h2) | h3)
      · exact Or.inl h1
      · exact Or.inr (Or.inr rfl)
      · exact Or.inr (Or.inl h2)
      · simp at h3

/-- `replace` followed by pushing the fresh key onto `t1`. -/
theorem arcReplacePush_inv {cfg : Config} {k : Key} {s' : ArcS}
    (hw' : ArcWf cfg (some k) s') (hsz : 0 < cfg.size)
    (htot' : s'.t1.length + s'.b1.length + s'.t2.length + s'.b2.length + 1 ≤
      2 * cfg.size)
    (hkb1' : k ∉ s'.b1) (hkb2' : k ∉ s'.b2) :
    ArcInv cfg
      { arcReplace cfg k s' with
          t1 := pushFront k (arcReplace cfg k s').t1 } := by
  by_cases hfull : s'.t1.length + s'.t2.length = cfg.size
  · have spec := arcReplace_full_spec k hw' hsz hfull
    apply arcFreshPush_inv spec.wf
    · have := spec.live_eq
      omega
    · have h1 := spec.t1b1
      have h2 := spec.t2b2
      omega
    · intro hc
      rcases spec.b1_sub k hc with hc1 | hc1
      · exact hkb1' hc1
      · exact (hw'.exm k rfl).1 hc1
    · intro hc
      rcases spec.b2_sub k hc with hc1 | hc1
      · exact hkb2' hc1
      · exact (hw'.exm k rfl).2 hc1
  · rw [arcReplace_not_full k hfull]
    apply arcFreshPush_inv hw'
    · have := hw'.live
      omega
    · exact htot'
    · exact hkb1'
    · exact hkb2'

/-- The fresh-key path of `arcCache.set` restores the ARC invariant. -/
theorem arcSetFresh_inv {cfg : Config} {k : Key} {s : ArcS}
    (hw : ArcWf cfg (some k) s) (hsz : 0 < cfg.size)
    (hkb1 : k ∉ s.b1) (hkb2 : k ∉ s.b2) :
    ArcInv cfg (arcSetFresh cfg k s) := by
  have hkt1 : k ∉ s.t1 := (hw.exm k rfl).1
  have hkt2 : k ∉ s.t2 := (hw.exm k rfl).2
  unfold arcSetFresh
  dsimp only
  by_cases hA : arcIsCacheFull cfg s = true ∧
      s.t1.length + s.b1.length = cfg.size
  · rw [if_pos hA]
    have hfull : s.t1.length + s.t2.length = cfg.size :=
      arcIsCacheFull_iff.mp hA.1
    by_cases hlt : s.t1.length < cfg.size
    · rw [if_pos hlt]
      have hb1pos : 0 < s.b1.length := by
        have := hA.2; omega
      obtain ⟨x, b1', hrb1, -⟩ := removeTail_pos hb1pos
      rw [hrb1]
      dsimp only
      obtain ⟨hw', hlen', hmem'⟩ := arcDropB1Tail_spec hw hrb1
      apply arcReplacePush_inv hw' hsz
      · dsimp only
        have := hw.total
        omega
      · dsimp only
        intro hc
        exact hkb1 (hmem' _ hc)
      · dsimp only
        exact hkb2
    · rw [if_neg hlt]
      have ht2z : s.t2.length = 0 := by
        have := hw.live; omega
      have ht1pos : 0 < s.t1.length := by omega
      obtain ⟨pop, t1', hrt, -⟩ := removeTail_pos ht1pos
      rw [hrt]
      dsimp only
      obtain ⟨hw', hlen', ht2', hb1', hb2', hpart'⟩ := arcPopT1_spec hw hrt
      apply arcFreshPush_inv hw'
      · rw [ht2']
        omega
      · rw [ht2', hb1', hb2']
        have := hw.total
        omega
      · rw [hb1']
        exact hkb1
      · rw [hb2']
        exact hkb2
  · rw [if_neg hA]
    by_cases hTot : cfg.size ≤
        s.t1.length + s.b1.length + s.t2.length + s.b2.length
    · rw [if_pos hTot]
      by_cases h2N : s.t1.length + s.b1.length + s.t2.length + s.b2.length =
          2 * cfg.size
      · rw [if_pos h2N]
        by_cases hb2pos : 0 < s.b2.length
        · rw [if_pos hb2pos]
          obtain ⟨x, b2', hrb2, -⟩ := removeTail_pos hb2pos
          rw [hrb2]
          dsimp only
          obtain ⟨hw', hlen', hmem'⟩ := arcDropB2Tail_spec hw hrb2
          apply arcReplacePush_inv hw' hsz
          · dsimp only
            omega
          · dsimp only
            exact hkb1
          · dsimp only
            intro hc
            exact hkb2 (hmem' _ hc)
        · rw [if_neg hb2pos]
          have hb1pos : 0 < s.b1.length := by
            have := hw.live
            omega
          obtain ⟨x, b1', hrb1, -⟩ := removeTail_pos hb1pos
          rw [hrb1]
          dsimp only
          obtain ⟨hw', hlen', hmem'⟩ := arcDropB1Tail_spec hw hrb1
          apply arcReplacePush_inv hw' hsz
          · dsimp only
            omega
          · dsimp only
            intro hc
            exact hkb1 (hmem' _ hc)
          · dsimp only
            exact hkb2
      · rw [if_neg h2N]
        apply arcReplacePush_inv hw hsz
        · have := hw.total
          omega
        · exact hkb1
        · exact hkb2
    · rw [if_neg hTot]
      apply arcFreshPush_inv hw
      · omega
      · omega
      · exact hkb1
      · exact hkb2

/-- Well-formedness ignores the event log. -/
theorem arcWf_events {cfg : Config} {ex : Option Key} {s : ArcS}
    (hw : ArcWf cfg ex s) (Y : List Event) :
    ArcWf cfg ex { s with events := Y } :=
  ⟨hw.nd1, hw.nd2, hw.ndb1, hw.ndb2, hw.d12, hw.d13, hw.d14, hw.d23,
   hw.d24, hw.d34, hw.live, hw.total, hw.part_le, hw.ndItems, hw.exm,
   hw.cover⟩

/-- Well-formedness only sees the `items` index through key presence. -/
theorem arcWf_items_events {cfg : Config} {ex : Option Key} {s : ArcS}
    (hw : ArcWf cfg ex s) (X : List (Key × AItem)) (Y : List Event)
    (hnd : (X.map Prod.fst).Nodup)
    (hcov : ∀ a, (alookup a X).isSome = (alookup a s.items).isSome) :
    ArcWf cfg ex { s with items := X, events := Y } := by
  refine ⟨hw.nd1, hw.nd2, hw.ndb1, hw.ndb2, hw.d12, hw.d13, hw.d14, hw.d23,
    hw.d24, hw.d34, hw.live, hw.total, hw.part_le, hnd, hw.exm, ?_⟩
  intro a
  dsimp only
  rw [hcov a]
  exact hw.cover a

/-- Inserting a fresh key into `items` (before any list bookkeeping) turns a
reachable state into a `some k` mid-`set` state. -/
theorem arcWf_extend {cfg : Config} {s : ArcS} {k : Key}
    (hinv : ArcInv cfg s) (it : AItem) (hk1 : k ∉ s.t1) (hk2 : k ∉ s.t2) :
    ArcWf cfg (some k) { s with items := s.items ++ [(k, it)] } := by
  have hknot : alookup k s.items = none := by
    rw [alookup_eq_none]
    intro hc
    have := (hinv.cover k).mp (by rw [← alookup_isSome] at hc; exact hc)
    rcases this with h | h | h
    · exact hk1 h
    · exact hk2 h
    · simp at h
  refine ⟨hinv.nd1, hinv.nd2, hinv.ndb1, hinv.ndb2, hinv.d12, hinv.d13,
    hinv.d14, hinv.d23, hinv.d24, hinv.d34, hinv.live, hinv.total,
    hinv.part_le, ?_, ?_, ?_⟩
  · dsimp only
    rw [List.map_append]
    simp only [List.map_cons, List.map_nil]
    rw [List.nodup_append]
    refine ⟨hinv.ndItems, List.nodup_singleton k, ?_⟩
    intro a ha hc
    simp only [List.mem_singleton] at hc
    subst hc
    rw [alookup_eq_none] at hknot
    exact hknot ha
  · intro k0 hk0
    simp only [Option.some.injEq] at hk0
    subst hk0
    exact ⟨hk1, hk2⟩
  · intro a
    dsimp only
    by_cases hal : (alookup a s.items).isSome
    · rw [Option.isSome_iff_exists] at hal
      obtain ⟨w, hw⟩ := hal
      rw [alookup_append_of_some _ hw]
      simp only [Option.isSome_some, true_iff]
      rcases (hinv.cover a).mp (by rw [hw]; rfl) with h | h | h
      · exact Or.inl h
      · exact Or.inr (Or.inl h)
      · simp at h
    · have hnone : alookup a s.items = none := by
        rw [← Option.not_isSome_iff_eq_none]
        exact hal
      rw [alookup_append_of_none _ hnone]
      have hcv := hinv.cover a
      rw [hnone] at hcv
      simp only [Option.isSome_none, Bool.false_eq_true, false_iff] at hcv
      push_neg at hcv
      by_cases hka : k = a
      · simp [alookup, hka]
      · simp [alookup, hka, hcv.1, hcv.2.1]

/-- Changing the partition parameter within bounds keeps well-formedness. -/
theorem arcWf_part {cfg : Config} {ex : Option Key} {s : ArcS} {p' : Nat}
    (hw : ArcWf cfg ex s) (hp : p' ≤ cfg.size) :
    ArcWf cfg ex { s with part := p' } :=
  ⟨hw.nd1, hw.nd2, hw.ndb1, hw.ndb2, hw.d12, hw.d13, hw.d14, hw.d23,
   hw.d24, hw.d34, hw.live, hw.total, hp, hw.ndItems, hw.exm, hw.cover⟩

/-- The ghost-hit / fresh-key branch structure of `arcCache.set` (everything
after the `t1 ∪ t2` overwrite check), for a mid-`set` state `s2` that already
holds the new key in `items`. -/
theorem arcSet_inv_tail {cfg : Config} {k : Key} {s2 : ArcS}
    (hsz : 0 < cfg.size) (hw2 : ArcWf cfg (some k) s2) :
    ArcInv cfg
      (if k ∈ s2.b1 then
        { arcReplace cfg k (arcSetPart cfg
              (min cfg.size (s2.part + max (s2.b2.length / s2.b1.length) 1)) s2) with
            b1 := (arcReplace cfg k (arcSetPart cfg
              (min cfg.size (s2.part + max (s2.b2.length / s2.b1.length) 1)) s2)).b1.erase k
            t2 := pushFront k (arcReplace cfg k (arcSetPart cfg
              (min cfg.size (s2.part + max (s2.b2.length / s2.b1.length) 1)) s2)).t2 }
      else if k ∈ s2.b2 then
        { arcReplace cfg k (arcSetPart cfg
              (s2.part - max (s2.b1.length / s2.b2.length) 1) s2) with
            b2 := (arcReplace cfg k (arcSetPart cfg
              (s2.part - max (s2.b1.length / s2.b2.length) 1) s2)).b2.erase k
            t2 := pushFront k (arcReplace cfg k (arcSetPart cfg
              (s2.part - max (s2.b1.length / s2.b2.length) 1) s2)).t2 }
      else arcSetFresh cfg k s2) := by
  have hkt1 : k ∉ s2.t1 := (hw2.exm k rfl).1
  have hkt2 : k ∉ s2.t2 := (hw2.exm k rfl).2
  by_cases hkb1 : k ∈ s2.b1
  · rw [if_pos hkb1]
    have hkb2 : k ∉ s2.b2 := hw2.d34 k hkb1
    have hp : min cfg.size (s2.part + max (s2.b2.length / s2.b1.length) 1) ≤
        cfg.size := min_le_left _ _
    unfold arcSetPart
    by_cases hf : arcIsCacheFull cfg s2 = true
    · rw [if_pos hf]
      have hwsa := arcWf_part hw2 hp
      have spec := arcReplace_full_spec k hwsa hsz (arcIsCacheFull_iff.mp hf)
      apply arcGhostB1_inv spec.wf
      · exact spec.b1_sup k hkb1
      · intro hc
        rcases spec.b2_sub k hc with hc1 | hc1
        · exact hkb2 hc1
        · exact hkt2 hc1
      · have := spec.live_eq
        omega
    · rw [if_neg hf]
      have hnf : s2.t1.length + s2.t2.length ≠ cfg.size :=
        fun hc => hf (arcIsCacheFull_iff.mpr hc)
      rw [arcReplace_not_full k hnf]
      apply arcGhostB1_inv hw2 hkb1 hkb2
      have := hw2.live
      omega
  · rw [if_neg hkb1]
    by_cases hkb2 : k ∈ s2.b2
    · rw [if_pos hkb2]
      have hp : s2.part - max (s2.b1.length / s2.b2.length) 1 ≤ cfg.size :=
        le_trans (Nat.sub_le _ _) hw2.part_le
      unfold arcSetPart
      by_cases hf : arcIsCacheFull cfg s2 = true
      · rw [if_pos hf]
        have hwsa := arcWf_part hw2 hp
        have spec := arcReplace_full_spec k hwsa hsz (arcIsCacheFull_iff.mp hf)
        apply arcGhostB2_inv spec.wf
        · exact spec.b2_sup k hkb2
        · intro hc
          rcases spec.b1_sub k hc with hc1 | hc1
          · exact hkb1 hc1
          · exact hkt1 hc1
        · have := spec.live_eq
          omega
      · rw [if_neg hf]
        have hnf : s2.t1.length + s2.t2.length ≠ cfg.size :=
          fun hc => hf (arcIsCacheFull_iff.mpr hc)
        rw [arcReplace_not_full k hnf]
        apply arcGhostB2_inv hw2 hkb2 hkb1
        have := hw2.live
        omega
    · rw [if_neg hkb2]
      exact arcSetFresh_inv hw2 hsz hkb1 hkb2

/-- `arcCache.set` preserves the ARC invariant. -/
theorem arcSet_inv {cfg : Config} {now : Time} {k : Key} {v : Value}
    {s s' : ArcS} (hsz : 0 < cfg.size) (hinv : ArcInv cfg s)
    (h : arcSet cfg now k v s = .ok s') : ArcInv cfg s' := by
  unfold arcSet at h
  cases hser : serVal cfg k v with
  | error e => rw [hser] at h; simp at h
  | ok v' =>
    rw [hser] at h
    dsimp only at h
    simp only [Except.ok.injEq] at h
    rw [← h]
    clear h
    cases hl : alookup k s.items with
    | some it =>
      have hmem : k ∈ s.t1 ∨ k ∈ s.t2 := by
        have hx := (hinv.cover k).mp (by rw [hl]; rfl)
        rcases hx with h1 | h1 | h1
        · exact Or.inl h1
        · exact Or.inr h1
        · simp at h1
      dsimp only
      cases hexp : cfg.expiration with
      | none =>
        dsimp only
        rw [if_pos hmem]
        exact arcWf_items_events hinv _ _
          (by rw [map_fst_updateV]; exact hinv.ndItems)
          (fun a => by rw [updateV_isSome])
      | some d =>
        dsimp only
        rw [if_pos hmem]
        exact arcWf_items_events hinv _ _
          (by rw [map_fst_updateV, map_fst_updateV]; exact hinv.ndItems)
          (fun a => by rw [updateV_isSome, updateV_isSome])
    | none =>
      have hkt : k ∉ s.t1 ∧ k ∉ s.t2 := by
        have hcv := hinv.cover k
        rw [hl] at hcv
        simp only [Option.isSome_none, Bool.false_eq_true, false_iff] at hcv
        push_neg at hcv
        exact ⟨hcv.1, hcv.2.1⟩
      have hw_app : ArcWf cfg (some k)
          { s with items := s.items ++ [(k, ({ value := v', expiration := none } : AItem))] } :=
        arcWf_extend hinv _ hkt.1 hkt.2
      dsimp only
      cases hexp : cfg.expiration with
      | none =>
        dsimp only
        rw [if_neg (by rw [not_or]; exact hkt)]
        apply arcWf_events
        exact arcSet_inv_tail hsz hw_app
      | some d =>
        dsimp only
        rw [if_neg (by rw [not_or]; exact hkt)]
        have hw2 := arcWf_items_events hw_app
            (updateV k (fun it => { it with expiration := some (now + d) })
              (s.items ++ [(k, ({ value := v', expiration := none } : AItem))]))
            s.events
            (by rw [map_fst_updateV]; exact hw_app.ndItems)
            (fun a => by rw [updateV_isSome])
        apply arcWf_events
        exact arcSet_inv_tail hsz hw2

/-- Well-formedness ignores counters and events entirely. -/
theorem arcWf_stats {cfg : Config} {ex : Option Key} {s : ArcS}
    (hw : ArcWf cfg ex s) (hc mc : Nat) (E : List Event) :
    ArcWf cfg ex { s with hitCount := hc, missCount := mc, events := E } :=
  ⟨hw.nd1, hw.nd2, hw.ndb1, hw.ndb2, hw.d12, hw.d13, hw.d14, hw.d23,
   hw.d24, hw.d34, hw.live, hw.total, hw.part_le, hw.ndItems, hw.exm,
   hw.cover⟩

/-- Moving a key already in `t2` to its front (a `t2` hit). -/
theorem arcMoveT2_wf {cfg : Config} {s : ArcS} {k : Key}
    (hinv : ArcInv cfg s) (hm : k ∈ s.t2) (hc mc : Nat) (E : List Event) :
    ArcInv cfg { s with t2 := pushFront k s.t2, hitCount := hc,
                        missCount := mc, events := E } := by
  have hlen : (pushFront k s.t2).length = s.t2.length :=
    length_pushFront_of_mem hm
  refine ⟨hinv.nd1, nodup_pushFront k hinv.nd2, hinv.ndb1, hinv.ndb2,
    ?_, hinv.d13, hinv.d14, ?_, ?_, hinv.d34, ?_, ?_, hinv.part_le,
    hinv.ndItems, ?_, ?_⟩
  · intro a ha
    dsimp only
    rw [mem_pushFront]
    push_neg
    exact ⟨fun hc' => hinv.d12 a ha (hc' ▸ hm), hinv.d12 a ha⟩
  · intro a ha
    dsimp only at ha
    rcases mem_pushFront.mp ha with rfl | ha
    · exact hinv.d23 a hm
    · exact hinv.d23 a ha
  · intro a ha
    dsimp only at ha
    rcases mem_pushFront.mp ha with rfl | ha
    · exact hinv.d24 a hm
    · exact hinv.d24 a ha
  · dsimp only
    rw [hlen]
    exact hinv.live
  · dsimp only
    rw [hlen]
    exact hinv.total
  · intro k0 hk0
    simp at hk0
  · intro a
    dsimp only
    rw [hinv.cover a, mem_pushFront]
    constructor
    · rintro (h1 | h2 | h3)
      · exact Or.inl h1
      · exact Or.inr (Or.inl (Or.inr h2))
      · simp at h3
    · rintro (h1 | (rfl | h2) | h3)
      · exact Or.inl h1
      · exact Or.inr (Or.inl hm)
      · exact Or.inr (Or.inl h2)
      · simp at h3

/-- Eviction of an expired (or removed) key out of `t2` into the `b2` ghost
list. -/
theorem arcExpireT2_wf {cfg : Config} {s : ArcS} {k : Key}
    (hinv : ArcInv cfg s) (hm : k ∈ s.t2) (hc mc : Nat) (E : List Event) :
    ArcInv cfg { s with items := eraseKey k s.items, t2 := s.t2.erase k,
                        b2 := pushFront k s.b2, hitCount := hc,
                        missCount := mc, events := E } := by
  have hkb2 : k ∉ s.b2 := hinv.d24 k hm
  have hkb1 : k ∉ s.b1 := hinv.d23 k hm
  have hkt1 : k ∉ s.t1 := fun hc' => hinv.d12 k hc' hm
  have hlt2 : (s.t2.erase k).length + 1 = s.t2.length := by
    rw [List.length_erase_of_mem hm]
    have := List.length_pos.2 (List.ne_nil_of_mem hm)
    omega
  have hlb2 : (pushFront k s.b2).length = s.b2.length + 1 :=
    length_pushFront_of_not_mem hkb2
  refine ⟨hinv.nd1, hinv.nd2.erase k, hinv.ndb1, nodup_pushFront k hinv.ndb2,
    ?_, hinv.d13, ?_, ?_, ?_, ?_, ?_, ?_, hinv.part_le, ?_, ?_, ?_⟩
  · intro a ha hc'
    exact hinv.d12 a ha (List.mem_of_mem_erase hc')
  · intro a ha
    dsimp only
    rw [mem_pushFront]
    push_neg
    exact ⟨fun hc' => hkt1 (hc' ▸ ha), hinv.d14 a ha⟩
  · intro a ha
    exact hinv.d23 a (List.mem_of_mem_erase ha)
  · intro a ha
    dsimp only
    rw [mem_pushFront]
    push_neg
    refine ⟨?_, hinv.d24 a (List.mem_of_mem_erase ha)⟩
    intro hc'
    subst hc'
    exact hinv.nd2.not_mem_erase ha
  · intro a ha
    dsimp only
    rw [mem_pushFront]
    push_neg
    exact ⟨fun hc' => hkb1 (hc' ▸ ha), hinv.d34 a ha⟩
  · dsimp only
    have := hinv.live
    omega
  · dsimp only
    rw [hlb2]
    have := hinv.total
    omega
  · exact nodup_map_fst_eraseKey k hinv.ndItems
  · intro k0 hk0
    simp at hk0
  · intro a
    dsimp only
    by_cases hak : a = k
    · subst hak
      rw [alookup_eraseKey_self]
      simp only [Option.isSome_none, Bool.false_eq_true, false_iff]
      push_neg
      exact ⟨hkt1, hinv.nd2.not_mem_erase, by simp⟩
    · rw [alookup_eraseKey_ne _ hak, hinv.cover a]
      constructor
      · rintro (h1 | h2 | h3)
        · exact Or.inl h1
        · exact Or.inr (Or.inl ((List.mem_erase_of_ne hak).mpr h2))
        · simp at h3
      · rintro (h1 | h2 | h3)
        · exact Or.inl h1
        · exact Or.inr (Or.inl (List.mem_of_mem_erase h2))
        · simp at h3

/-- Eviction of an expired (or removed) key out of `t1` into the `b1` ghost
list. -/
theorem arcExpireT1_wf {cfg : Config} {s : ArcS} {k : Key}
    (hinv : ArcInv cfg s) (hm : k ∈ s.t1) (hc mc : Nat) (E : List Event) :
    ArcInv cfg { s with items := eraseKey k s.items, t1 := s.t1.erase k,
                        b1 := pushFront k s.b1, hitCount := hc,
                        missCount := mc, events := E } := by
  have hkb1 : k ∉ s.b1 := hinv.d13 k hm
  have hkb2 : k ∉ s.b2 := hinv.d14 k hm
  have hkt2 : k ∉ s.t2 := hinv.d12 k hm
  have hlt1 : (s.t1.erase k).length + 1 = s.t1.length := by
    rw [List.length_erase_of_mem hm]
    have := List.length_pos.2 (List.ne_nil_of_mem hm)
    omega
  have hlb1 : (pushFront k s.b1).length = s.b1.length + 1 :=
    length_pushFront_of_not_mem hkb1
  refine ⟨hinv.nd1.erase k, hinv.nd2, nodup_pushFront k hinv.ndb1, hinv.ndb2,
    ?_, ?_, ?_, ?_, hinv.d24, ?_, ?_, ?_, hinv.part_le, ?_, ?_, ?_⟩
  · intro a ha
    exact hinv.d12 a (List.mem_of_mem_erase ha)
  · intro a ha
    dsimp only
    rw [mem_pushFront]
    push_neg
    refine ⟨?_, hinv.d13 a (List.mem_of_mem_erase ha)⟩
    intro hc'
    subst hc'
    exact hinv.nd1.not_mem_erase ha
  · intro a ha
    exact hinv.d14 a (List.mem_of_mem_erase ha)
  · intro a ha
    dsimp only
    rw [mem_pushFront]
    push_neg
    exact ⟨fun hc' => hkt2 (hc' ▸ ha), hinv.d23 a ha⟩
  · intro a ha
    dsimp only at ha
    rcases mem_pushFront.mp ha with rfl | ha
    · exact hkb2
    · exact hinv.d34 a ha
  · dsimp only
    have := hinv.live
    omega
  · dsimp only
    rw [hlb1]
    have := hinv.total
    omega
  · exact nodup_map_fst_eraseKey k hinv.ndItems
  · intro k0 hk0
    simp at hk0
  · intro a
    dsimp only
    by_cases hak : a = k
    · subst hak
      rw [alookup_eraseKey_self]
      simp only [Option.isSome_none, Bool.false_eq_true, false_iff]
      push_neg
      exact ⟨hinv.nd1.not_mem_erase, hkt2, by simp⟩
    · rw [alookup_eraseKey_ne _ hak, hinv.cover a]
      constructor
      · rintro (h1 | h2 | h3)
        · exact Or.inl ((List.mem_erase_of_ne hak).mpr h1)
        · exact Or.inr (Or.inl h2)
        · simp at h3
      · rintro (h1 | h2 | h3)
        · exact Or.inl (List.mem_of_mem_erase h1)
        · exact Or.inr (Or.inl h2)
        · simp at h3

/-- Promotion of an unexpired `t1` hit to the front of `t2`. -/
theorem arcPromote_wf {cfg : Config} {s : ArcS} {k : Key}
    (hinv : ArcInv cfg s) (hm : k ∈ s.t1) (hc mc : Nat) (E : List Event) :
    ArcInv cfg { s with t1 := s.t1.erase k, t2 := pushFront k s.t2,
                        hitCount := hc, missCount := mc, events := E } := by
  have hkt2 : k ∉ s.t2 := hinv.d12 k hm
  have hkb1 : k ∉ s.b1 := hinv.d13 k hm
  have hkb2 : k ∉ s.b2 := hinv.d14 k hm
  have hlt1 : (s.t1.erase k).length + 1 = s.t1.length := by
    rw [List.length_erase_of_mem hm]
    have := List.length_pos.2 (List.ne_nil_of_mem hm)
    omega
  have hlt2 : (pushFront k s.t2).length = s.t2.length + 1 :=
    length_pushFront_of_not_mem hkt2
  refine ⟨hinv.nd1.erase k, nodup_pushFront k hinv.nd2, hinv.ndb1, hinv.ndb2,
    ?_, ?_, ?_, ?_, ?_, hinv.d34, ?_, ?_, hinv.part_le, hinv.ndItems,
    ?_, ?_⟩
  · intro a ha
    dsimp only
    rw [mem_pushFront]
    push_neg
    refine ⟨?_, hinv.d12 a (List.mem_of_mem_erase ha)⟩
    intro hc'
    subst hc'
    exact hinv.nd1.not_mem_erase ha
  · intro a ha
    exact hinv.d13 a (List.mem_of_mem_erase ha)
  · intro a ha
    exact hinv.d14 a (List.mem_of_mem_erase ha)
  · intro a ha
    dsimp only at ha
    rcases mem_pushFront.mp ha with rfl | ha
    · exact hkb1
    · exact hinv.d23 a ha
  · intro a ha
    dsimp only at ha
    rcases mem_pushFront.mp ha with rfl | ha
    · exact hkb2
    · exact hinv.d24 a ha
  · dsimp only
    have := hinv.live
    omega
  · dsimp only
    have := hinv.total
    omega
  · intro k0 hk0
    simp at hk0
  · intro a
    dsimp only
    rw [hinv.cover a, mem_pushFront]
    constructor
    · rintro (h1 | h2 | h3)
      · by_cases hak : a = k
        · exact Or.inr (Or.inl (Or.inl hak))
        · exact Or.inl ((List.mem_erase_of_ne hak).mpr h1)
      · exact Or.inr (Or.inl (Or.inr h2))
      · simp at h3
    · rintro (h1 | (rfl | h2) | h3)
      · exact Or.inl (List.mem_of_mem_erase h1)
      · exact Or.inl hm
      · exact Or.inr (Or.inl h2)
      · simp at h3

theorem arcGetT2_inv {cfg : Config} {now : Time} {k : Key} {onLoad : Bool}
    {s : ArcS} (hinv : ArcInv cfg s) :
    ArcInv cfg (arcGetT2 now k onLoad s).2 := by
  unfold arcGetT2
  by_cases hm : k ∈ s.t2
  · rw [if_pos hm]
    cases hi : alookup k s.items with
    | none =>
      dsimp only
      exact arcWf_stats hinv _ _ _
    | some item =>
      by_cases he : isExpired item.expiration now
      · simp only [he, Bool.not_true, Bool.false_eq_true, if_false]
        exact arcExpireT2_wf hinv hm _ _ _
      · simp only [he, Bool.not_false, if_true]
        exact arcMoveT2_wf hinv hm _ _ _
  · rw [if_neg hm]
    dsimp only
    exact arcWf_stats hinv _ _ _

theorem arcGetValue_inv {cfg : Config} {now : Time} {k : Key} {onLoad : Bool}
    {s : ArcS} (hinv : ArcInv cfg s) :
    ArcInv cfg (arcGetValue now k onLoad s).2 := by
  unfold arcGetValue
  by_cases hm : k ∈ s.t1
  · rw [if_pos hm]
    dsimp only
    cases hi : alookup k s.items with
    | none =>
      have := (hinv.cover k).mpr (Or.inl hm)
      rw [hi] at this
      simp at this
    | some item =>
      by_cases he : isExpired item.expiration now
      · simp only [he, Bool.not_true, Bool.false_eq_true, if_false]
        exact arcGetT2_inv (arcExpireT1_wf hinv hm _ _ _)
      · simp only [he, Bool.not_false, if_true]
        exact arcPromote_wf hinv hm _ _ _
  · rw [if_neg hm]
    exact arcGetT2_inv hinv

theorem arcGet_inv {cfg : Config} {now : Time} {k : Key} {onLoad : Bool}
    {s : ArcS} (hinv : ArcInv cfg s) :
    ArcInv cfg (arcGet cfg now k onLoad s).2 := by
  rw [arcGet_snd]
  exact arcGetValue_inv hinv

theorem arcRemove_inv {cfg : Config} {k : Key} {s : ArcS}
    (hinv : ArcInv cfg s) : ArcInv cfg (arcRemove k s).2 := by
  unfold arcRemove
  by_cases hm1 : k ∈ s.t1
  · rw [if_pos hm1]
    cases hi : alookup k s.items with
    | none =>
      have := (hinv.cover k).mpr (Or.inl hm1)
      rw [hi] at this
      simp at this
    | some item =>
      dsimp only
      exact arcExpireT1_wf hinv hm1 _ _ _
  · rw [if_neg hm1]
    by_cases hm2 : k ∈ s.t2
    · rw [if_pos hm2]
      cases hi : alookup k s.items with
      | none =>
        have := (hinv.cover k).mpr (Or.inr (Or.inl hm2))
        rw [hi] at this
        simp at this
      | some item =>
        dsimp only
        exact arcExpireT2_wf hinv hm2 _ _ _
    · rw [if_neg hm2]
      exact hinv

theorem arcPurge_inv {cfg : Config} {s : ArcS} (hinv : ArcInv cfg s) :
    ArcInv cfg (arcPurge s) := by
  refine ⟨List.nodup_nil, List.nodup_nil, List.nodup_nil, List.nodup_nil,
    ?_, ?_, ?_, ?_, ?_, ?_, ?_, ?_, hinv.part_le, ?_, ?_, ?_⟩ <;>
    simp [arcPurge, alookup]

theorem arcSetWithExpire_inv {cfg : Config} {now : Time} {k : Key} {v : Value}
    {d : Time} {s s' : ArcS} (hsz : 0 < cfg.size) (hinv : ArcInv cfg s)
    (h : arcSetWithExpire cfg now k v d s = .ok s') : ArcInv cfg s' := by
  unfold arcSetWithExpire at h
  cases hs : arcSet cfg now k v s with
  | error e => rw [hs] at h; simp at h
  | ok s1 =>
    rw [hs] at h
    dsimp only at h
    simp only [Except.ok.injEq] at h
    rw [← h]
    have h1 := arcSet_inv hsz hinv hs
    exact arcWf_items_events h1 _ _
      (by rw [map_fst_updateV]; exact h1.ndItems)
      (fun a => by rw [updateV_isSome])

theorem arcInit_inv {cfg : Config} : ArcInv cfg arcInit := by
  refine ⟨List.nodup_nil, List.nodup_nil, List.nodup_nil, List.nodup_nil,
    ?_, ?_, ?_, ?_, ?_, ?_, ?_, ?_, ?_, ?_, ?_, ?_⟩ <;>
    simp [arcInit, alookup]

theorem applyAOp_inv {cfg : Config} {s : ArcS} (hsz : 0 < cfg.size)
    (hinv : ArcInv cfg s) (op : AOp) : ArcInv cfg (applyAOp cfg s op) := by
  cases op with
  | set now k v =>
    unfold applyAOp
    dsimp only
    cases hs : arcSet cfg now k v s with
    | ok s' => simp only [hs]; exact arcSet_inv hsz hinv hs
    | error e => simp only [hs]; exact hinv
  | setWithExpire now k v d =>
    unfold applyAOp
    dsimp only
    cases hs : arcSetWithExpire cfg now k v d s with
    | ok s' => simp only [hs]; exact arcSetWithExpire_inv hsz hinv hs
    | error e => simp only [hs]; exact hinv
  | get now k onLoad =>
    unfold applyAOp
    dsimp only
    exact arcGet_inv hinv
  | remove k =>
    unfold applyAOp
    dsimp only
    exact arcRemove_inv hinv
  | purge =>
    unfold applyAOp
    dsimp only
    exact arcPurge_inv hinv

theorem applyAOps_inv {cfg : Config} (hsz : 0 < cfg.size) (ops : List AOp)
    {s : ArcS} (hinv : ArcInv cfg s) : ArcInv cfg (applyAOps cfg ops s) := by
  induction ops generalizing s with
  | nil => exact hinv
  | cons op rest ih => exact ih (applyAOp_inv hsz hinv op)

/-- Under the invariant, the primary index has exactly one entry per key in
`t1 ∪ t2`. -/
theorem arcInv_items_length {cfg : Config} {s : ArcS} (h : ArcInv cfg s) :
    s.items.length = s.t1.length + s.t2.length := by
  have hnd12 : (s.t1 ++ s.t2).Nodup := by
    rw [List.nodup_append]
    exact ⟨h.nd1, h.nd2, fun a ha hb => h.d12 a ha hb⟩
  have hperm : (s.items.map Prod.fst).Perm (s.t1 ++ s.t2) := by
    rw [List.perm_ext_iff_of_nodup h.ndItems hnd12]
    intro a
    rw [← alookup_isSome, h.cover a]
    simp [List.mem_append]
  have hlen := hperm.length_eq
  simpa using hlen

/-- C2 counterexample: on an ARC cache of capacity N = 2, the trace
`Set 1; Set 2; Get 1; Remove 2; Set 3; Remove 1; Set 4` (no expirations)
ends with `|T1| + |B1| = 3 > 2 = N`: `Remove` pushes removed keys onto the
ghost lists while the fresh-key path of `set` calls `replace` only when the
cache is full, so a fresh insert can push `t1` without shrinking
`t1 ∪ b1`. -/
theorem C2_counterexample :
    (applyAOps ⟨2, none, none, none⟩
        [.set 0 1 1, .set 0 2 2, .get 0 1 false, .remove 2, .set 0 3 3,
          .remove 1, .set 0 4 4] arcInit).t1.length +
      (applyAOps ⟨2, none, none, none⟩
        [.set 0 1 1, .set 0 2 2, .get 0 1 false, .remove 2, .set 0 3 3,
          .remove 1, .set 0 4 4] arcInit).b1.length = 3 := by
  decide

/-- C2 amended: after every operation of every trace on an ARC cache of
positive capacity N, the four lists `t1, t2, b1, b2` are pairwise disjoint,
`|T1 ∪ T2| ≤ N` (and the live-entry count `|items|` is bounded by N),
`|T2| + |B2| ≤ 2N`, the grand total `|T1|+|B1|+|T2|+|B2| ≤ 2N`, and the
partition parameter satisfies `p ∈ [0, N]`.  The claimed bound
`|T1| + |B1| ≤ N` does not hold (see the counterexample) because `Remove`
ghosts removed keys. -/
theorem C2_amended (cfg : Config) (ops : List AOp) (hsz : 0 < cfg.size)
    (s : ArcS) (hs : s = applyAOps cfg ops arcInit) :
    (∀ a ∈ s.t1, a ∉ s.t2) ∧ (∀ a ∈ s.t1, a ∉ s.b1) ∧
    (∀ a ∈ s.t1, a ∉ s.b2) ∧ (∀ a ∈ s.t2, a ∉ s.b1) ∧
    (∀ a ∈ s.t2, a ∉ s.b2) ∧ (∀ a ∈ s.b1, a ∉ s.b2) ∧
    s.t1.length + s.t2.length ≤ cfg.size ∧
    s.items.length ≤ cfg.size ∧
    s.t2.length + s.b2.length ≤ 2 * cfg.size ∧
    s.t1.length + s.b1.length + s.t2.length + s.b2.length ≤ 2 * cfg.size ∧
    s.part ≤ cfg.size := by
  subst hs
  have h := applyAOps_inv hsz ops arcInit_inv
  have hlen := arcInv_items_length h
  have hlive := h.live
  have htot := h.total
  exact ⟨h.d12, h.d13, h.d14, h.d23, h.d24, h.d34, h.live, by omega,
    by omega, h.total, h.part_le⟩

/-- C2 witness: the amended invariant applied to a concrete one-`Set` trace
on a capacity-2 ARC cache. -/
theorem C2_witness :
    (applyAOps ⟨2, none, none, none⟩ [.set 0 1 1] arcInit).items.length ≤ 2 ∧
    (applyAOps ⟨2, none, none, none⟩ [.set 0 1 1] arcInit).part ≤ 2 := by
  obtain ⟨-, -, -, -, -, -, -, hlen, -, -, hpart⟩ :=
    C2_amended ⟨2, none, none, none⟩ [.set 0 1 1] (by decide) _ rfl
  exact ⟨hlen, hpart⟩

/-! ## LFU invariant machinery (C10) -/

theorem get?_some_lt {α : Type} {l : List α} {n : Nat} {a : α}
    (h : l.get? n = some a) : n < l.length := by
  by_contra hc
  rw [List.get?_eq_none.mpr (by omega)] at h
  simp at h

theorem ne_nil_of_length_eq {α : Type} {l l' : List α}
    (h : l'.length = l.length) (hne : l ≠ []) : l' ≠ [] := by
  intro hc
  rw [hc] at h
  simp only [List.length_nil] at h
  exact hne (List.length_eq_zero.mp h.symm)

theorem lfuWf_stats {cfg : Config} {s : LfuS} (hw : LfuWf cfg s)
    (hc mc : Nat) (E : List Event) :
    LfuWf cfg { s with hitCount := hc, missCount := mc, events := E } :=
  ⟨hw.ne, hw.freqs, hw.ndItems, hw.ndBuckets, hw.inBucket, hw.bucketOwner,
    hw.lenLe⟩

/-- Updating stored items without touching their bucket pointers keeps the
LFU invariant. -/
theorem lfuWf_updateV {cfg : Config} {s : LfuS} {k : Key} (f : LItem → LItem)
    (hw : LfuWf cfg s) (hf : ∀ it, (f it).freqIdx = it.freqIdx) :
    LfuWf cfg { s with items := updateV k f s.items } := by
  refine ⟨hw.ne, hw.freqs, ?_, hw.ndBuckets, ?_, ?_, ?_⟩
  · dsimp only
    rw [map_fst_updateV]
    exact hw.ndItems
  · intro k' it' hl'
    dsimp only at hl'
    by_cases hk : k' = k
    · subst hk
      rw [alookup_updateV_self] at hl'
      cases hl0 : alookup k' s.items with
      | none => rw [hl0] at hl'; simp at hl'
      | some it0 =>
        rw [hl0] at hl'
        simp only [Option.map_some', Option.some.injEq] at hl'
        obtain ⟨e, he, hm⟩ := hw.inBucket k' it0 hl0
        rw [← hl', hf]
        exact ⟨e, he, hm⟩
    · rw [alookup_updateV_ne _ _ hk] at hl'
      exact hw.inBucket k' it' hl'
  · intro i e he k' hk'
    obtain ⟨it', hl', hidx⟩ := hw.bucketOwner i e he k' hk'
    by_cases hk : k' = k
    · subst hk
      refine ⟨f it', ?_, by rw [hf]; exact hidx⟩
      dsimp only
      rw [alookup_updateV_self, hl']
      rfl
    · refine ⟨it', ?_, hidx⟩
      dsimp only
      rw [alookup_updateV_ne _ _ hk]
      exact hl'
  · dsimp only
    rw [length_updateV]
    exact hw.lenLe

/-- `removeItem` keeps the invariant and removes exactly one entry. -/
theorem lfuRemoveItem_wf {cfg : Config} {s : LfuS} {k : Key} {it : LItem}
    (hw : LfuWf cfg s) (hl : alookup k s.items = some it) :
    LfuWf cfg (lfuRemoveItem k it s) ∧
    (lfuRemoveItem k it s).items.length + 1 = s.items.length := by
  have hkmem : k ∈ s.items.map Prod.fst := by
    rw [← alookup_isSome, hl]
    rfl
  constructor
  · refine ⟨?_, ?_, ?_, ?_, ?_, ?_, ?_⟩
    · dsimp only [lfuRemoveItem]
      exact ne_nil_of_length_eq (length_modifyAt _ _ _) hw.ne
    · intro i e' he'
      dsimp only [lfuRemoveItem] at he'
      by_cases hi : i = it.freqIdx
      · rw [hi, get?_modifyAt_self] at he'
        cases he0 : s.freqList.get? it.freqIdx with
        | none => rw [he0] at he'; simp at he'
        | some e0 =>
          rw [he0] at he'
          simp only [Option.map_some', Option.some.injEq] at he'
          rw [← he', hi]
          exact hw.freqs _ e0 he0
      · rw [get?_modifyAt_ne _ _ _ _ hi] at he'
        exact hw.freqs i e' he'
    · dsimp only [lfuRemoveItem]
      exact nodup_map_fst_eraseKey k hw.ndItems
    · intro i e' he'
      dsimp only [lfuRemoveItem] at he'
      by_cases hi : i = it.freqIdx
      · rw [hi, get?_modifyAt_self] at he'
        cases he0 : s.freqList.get? it.freqIdx with
        | none => rw [he0] at he'; simp at he'
        | some e0 =>
          rw [he0] at he'
          simp only [Option.map_some', Option.some.injEq] at he'
          rw [← he']
          exact (hw.ndBuckets _ e0 he0).erase k
      · rw [get?_modifyAt_ne _ _ _ _ hi] at he'
        exact hw.ndBuckets i e' he'
    · intro k' it' hl'
      dsimp only [lfuRemoveItem] at hl' ⊢
      by_cases hk : k' = k
      · subst hk
        rw [alookup_eraseKey_self] at hl'
        simp at hl'
      · rw [alookup_eraseKey_ne _ hk] at hl'
        obtain ⟨e', he', hm'⟩ := hw.inBucket k' it' hl'
        by_cases hi : it'.freqIdx = it.freqIdx
        · rw [hi, get?_modifyAt_self]
          rw [hi] at he'
          rw [he']
          refine ⟨_, rfl, ?_⟩
          exact (List.mem_erase_of_ne hk).mpr hm'
        · rw [get?_modifyAt_ne _ _ _ _ hi]
          exact ⟨e', he', hm'⟩
    · intro i e' he' k' hk'
      dsimp only [lfuRemoveItem] at he' ⊢
      by_cases hi : i = it.freqIdx
      · rw [hi, get?_modifyAt_self] at he'
        cases he0 : s.freqList.get? it.freqIdx with
        | none => rw [he0] at he'; simp at he'
        | some e0 =>
          rw [he0] at he'
          simp only [Option.map_some', Option.some.injEq] at he'
          rw [← he'] at hk'
          have hk'' : k' ∈ e0.keys := List.mem_of_mem_erase hk'
          have hkne : k' ≠ k := by
            intro hc
            subst hc
            exact (hw.ndBuckets _ e0 he0).not_mem_erase hk'
          obtain ⟨it', hl', hidx⟩ := hw.bucketOwner _ e0 he0 k' hk''
          refine ⟨it', ?_, by rw [hi]; exact hidx⟩
          rw [alookup_eraseKey_ne _ hkne]
          exact hl'
      · rw [get?_modifyAt_ne _ _ _ _ hi] at he'
        obtain ⟨it', hl', hidx⟩ := hw.bucketOwner i e' he' k' hk'
        have hkne : k' ≠ k := by
          intro hc
          subst hc
          rw [hl] at hl'
          simp only [Option.some.injEq] at hl'
          exact hi (hl' ▸ hidx).symm
        refine ⟨it', ?_, hidx⟩
        rw [alookup_eraseKey_ne _ hkne]
        exact hl'
    · dsimp only [lfuRemoveItem]
      exact le_trans (length_eraseKey_le k s.items) hw.lenLe
  · dsimp only [lfuRemoveItem]
    exact length_eraseKey_nodup hw.ndItems hkmem

theorem lfuRemove_wf {cfg : Config} {s : LfuS} (k : Key) (hw : LfuWf cfg s) :
    LfuWf cfg (lfuRemove k s).2 ∧
    (lfuRemove k s).2.items.length ≤ s.items.length := by
  unfold lfuRemove
  cases hl : alookup k s.items with
  | some it =>
    dsimp only
    obtain ⟨h1, h2⟩ := lfuRemoveItem_wf hw hl
    exact ⟨h1, by omega⟩
  | none => exact ⟨hw, le_rfl⟩

theorem lfuRemove_not_mem {s : LfuS} {a : Key} (k : Key)
    (h : alookup a s.items = none) :
    alookup a (lfuRemove k s).2.items = none := by
  unfold lfuRemove
  cases hl : alookup k s.items with
  | some it =>
    dsimp only [lfuRemoveItem]
    by_cases hak : a = k
    · subst hak
      exact alookup_eraseKey_self a s.items
    · rw [alookup_eraseKey_ne _ hak]
      exact h
  | none => exact h

theorem foldl_lfuRemove_wf {cfg : Config} (ks : List Key) :
    ∀ s : LfuS, LfuWf cfg s →
      LfuWf cfg (ks.foldl (fun s k => (lfuRemove k s).2) s) ∧
      (ks.foldl (fun s k => (lfuRemove k s).2) s).items.length ≤
        s.items.length := by
  induction ks with
  | nil => exact fun s hw => ⟨hw, le_rfl⟩
  | cons a t ih =>
    intro s hw
    obtain ⟨h1, h2⟩ := lfuRemove_wf a hw
    obtain ⟨h3, h4⟩ := ih _ h1
    exact ⟨h3, le_trans h4 h2⟩

theorem lfuEvict_wf {cfg : Config} (c : Nat) {s : LfuS} (hw : LfuWf cfg s) :
    LfuWf cfg (lfuEvict c s) ∧
    (lfuEvict c s).items.length ≤ s.items.length :=
  foldl_lfuRemove_wf _ s hw

theorem foldl_lfuRemove_not_mem {a : Key} (ks : List Key) :
    ∀ s : LfuS, alookup a s.items = none →
      alookup a (ks.foldl (fun s k => (lfuRemove k s).2) s).items = none := by
  induction ks with
  | nil => exact fun _ h => h
  | cons b t ih => exact fun s h => ih _ (lfuRemove_not_mem b h)

theorem lfuEvict_not_mem {s : LfuS} {a : Key} (c : Nat)
    (h : alookup a s.items = none) :
    alookup a (lfuEvict c s).items = none :=
  foldl_lfuRemove_not_mem _ s h

/-- With a non-empty index, `evict 1` removes exactly one entry. -/
theorem lfuEvict_one {cfg : Config} {s : LfuS} (hw : LfuWf cfg s)
    (hne : s.items ≠ []) :
    (lfuEvict 1 s).items.length + 1 = s.items.length := by
  obtain ⟨p0, rest, hitems⟩ := List.exists_cons_of_ne_nil hne
  have hl0 : alookup p0.1 s.items = some p0.2 := by
    rw [hitems]
    simp [alookup]
  obtain ⟨e, he, hm⟩ := hw.inBucket p0.1 p0.2 hl0
  have hjoin : p0.1 ∈ (s.freqList.map FreqEntry.keys).flatten := by
    rw [List.mem_flatten]
    refine ⟨e.keys, ?_, hm⟩
    exact List.mem_map_of_mem FreqEntry.keys (List.get?_mem he)
  unfold lfuEvict
  rcases hfl : (s.freqList.map FreqEntry.keys).flatten with _ | ⟨j0, rest'⟩
  · rw [hfl] at hjoin
    simp at hjoin
  · simp only [List.take_succ_cons, List.take_zero, List.foldl_cons,
      List.foldl_nil]
    have hj0 : j0 ∈ (s.freqList.map FreqEntry.keys).flatten := by
      rw [hfl]
      exact List.mem_cons_self _ _
    rw [List.mem_flatten] at hj0
    obtain ⟨ks, hks, hj0k⟩ := hj0
    rw [List.mem_map] at hks
    obtain ⟨e', he'm, hkeq⟩ := hks
    rw [List.mem_iff_get?] at he'm
    obtain ⟨i, hei⟩ := he'm
    obtain ⟨it', hl', -⟩ := hw.bucketOwner i e' hei j0 (hkeq ▸ hj0k)
    unfold lfuRemove
    rw [hl']
    exact (lfuRemoveItem_wf hw hl').2

/-- Inserting a fresh key into bucket 0 (the `set` miss path) keeps the LFU
invariant while there is room for it. -/
theorem lfuInsertFresh_wf {cfg : Config} {s : LfuS} {k : Key} (v' : Value)
    (hw : LfuWf cfg s) (hnew : alookup k s.items = none)
    (hlen : s.items.length < cfg.size) :
    LfuWf cfg { s with
      items := s.items ++ [(k, ({ value := v', expiration := none, freqIdx := 0 } : LItem))]
      freqList := modifyAt 0 (fun e => { e with keys := e.keys ++ [k] }) s.freqList } := by
  have hfl0 : ∃ e0, s.freqList.get? 0 = some e0 := by
    cases hfl : s.freqList with
    | nil => exact absurd hfl hw.ne
    | cons e0 rest => exact ⟨e0, rfl⟩
  obtain ⟨e0, hfl0⟩ := hfl0
  have hk0 : k ∉ e0.keys := by
    intro hc
    obtain ⟨it', hl', -⟩ := hw.bucketOwner 0 e0 hfl0 k hc
    rw [hnew] at hl'
    simp at hl'
  refine ⟨?_, ?_, ?_, ?_, ?_, ?_, ?_⟩
  · dsimp only
    exact ne_nil_of_length_eq (length_modifyAt _ _ _) hw.ne
  · intro i e' he'
    dsimp only at he'
    by_cases hi : i = 0
    · rw [hi, get?_modifyAt_self, hfl0] at he'
      simp only [Option.map_some', Option.some.injEq] at he'
      rw [← he', hi]
      exact hw.freqs _ e0 hfl0
    · rw [get?_modifyAt_ne _ _ _ _ hi] at he'
      exact hw.freqs i e' he'
  · dsimp only
    rw [List.map_append]
    simp only [List.map_cons, List.map_nil]
    rw [List.nodup_append]
    refine ⟨hw.ndItems, List.nodup_singleton k, ?_⟩
    intro a ha hc
    simp only [List.mem_singleton] at hc
    subst hc
    rw [alookup_eq_none] at hnew
    exact hnew ha
  · intro i e' he'
    dsimp only at he'
    by_cases hi : i = 0
    · rw [hi, get?_modifyAt_self, hfl0] at he'
      simp only [Option.map_some', Option.some.injEq] at he'
      rw [← he']
      rw [List.nodup_append]
      refine ⟨hw.ndBuckets 0 e0 hfl0, List.nodup_singleton k, ?_⟩
      intro a ha hc
      simp only [List.mem_singleton] at hc
      subst hc
      exact hk0 ha
    · rw [get?_modifyAt_ne _ _ _ _ hi] at he'
      exact hw.ndBuckets i e' he'
  · intro k' it' hl'
    dsimp only at hl' ⊢
    by_cases hk : k' = k
    · subst hk
      rw [alookup_append_of_none _ hnew] at hl'
      simp only [alookup, if_pos rfl, Option.some.injEq] at hl'
      simp only [if_true, Option.some.injEq] at hl'
      subst hl'
      refine ⟨{ e0 with keys := e0.keys ++ [k'] }, ?_, by simp⟩
      dsimp only
      rw [get?_modifyAt_self, hfl0]
      rfl
    · cases hl0 : alookup k' s.items with
      | none =>
        rw [alookup_append_of_none _ hl0] at hl'
        simp [alookup, Ne.symm hk] at hl'
      | some w =>
        rw [alookup_append_of_some _ hl0] at hl'
        simp only [Option.some.injEq] at hl'
        subst hl'
        obtain ⟨e2, he2, hm2⟩ := hw.inBucket k' w hl0
        by_cases hi : w.freqIdx = 0
        · rw [hi] at he2 ⊢
          rw [get?_modifyAt_self, he2]
          refine ⟨_, rfl, ?_⟩
          exact List.mem_append_left _ hm2
        · rw [get?_modifyAt_ne _ _ _ _ hi]
          exact ⟨e2, he2, hm2⟩
  · intro i e' he' k' hk'
    dsimp only at he' ⊢
    by_cases hi : i = 0
    · rw [hi, get?_modifyAt_self, hfl0] at he'
      simp only [Option.map_some', Option.some.injEq] at he'
      rw [← he'] at hk'
      rcases List.mem_append.mp hk' with hm | hm
      · obtain ⟨it', hl', hidx⟩ := hw.bucketOwner 0 e0 hfl0 k' hm
        refine ⟨it', alookup_append_of_some _ hl', by rw [hi]; exact hidx⟩
      · have hkk : k' = k := by simpa using hm
        subst hkk
        refine ⟨({ value := v', expiration := none, freqIdx := 0 } : LItem), ?_, by rw [hi]⟩
        rw [alookup_append_of_none _ hnew]
        simp [alookup]
    · rw [get?_modifyAt_ne _ _ _ _ hi] at he'
      obtain ⟨it', hl', hidx⟩ := hw.bucketOwner i e' he' k' hk'
      exact ⟨it', alookup_append_of_some _ hl', hidx⟩
  · dsimp only
    rw [List.length_append]
    simp only [List.length_cons, List.length_nil]
    omega

/-- `lfuCache.set` keeps the LFU invariant (the cache size is positive, as
`New` enforces). -/
theorem lfuSet_inv {cfg : Config} {now : Time} {k : Key} {v : Value}
    {s s' : LfuS} (hsz : 0 < cfg.size) (hw : LfuWf cfg s)
    (h : lfuSet cfg now k v s = .ok s') : LfuWf cfg s' := by
  unfold lfuSet at h
  cases hsv : serVal cfg k v with
  | error e => rw [hsv] at h; exact absurd h (by simp)
  | ok v' =>
    rw [hsv] at h
    dsimp only at h
    cases hl : alookup k s.items with
    | some it0 =>
      rw [hl] at h
      dsimp only at h
      have hw1 : LfuWf cfg { s with items := updateV k (fun it => { it with value := v' }) s.items } :=
        lfuWf_updateV _ hw (fun it => rfl)
      cases hexp : cfg.expiration with
      | some d =>
        rw [hexp] at h
        dsimp only at h
        simp only [Except.ok.injEq] at h
        rw [← h]
        exact lfuWf_stats (lfuWf_updateV (fun it => { it with expiration := some (now + d) }) hw1 (fun it => rfl)) _ _ _
      | none =>
        rw [hexp] at h
        dsimp only at h
        simp only [Except.ok.injEq] at h
        rw [← h]
        exact lfuWf_stats hw1 _ _ _
    | none =>
      rw [hl] at h
      dsimp only at h
      by_cases hcap : s.items.length ≥ cfg.size
      · rw [if_pos hcap] at h
        have heq : s.items.length = cfg.size := le_antisymm hw.lenLe hcap
        have hne : s.items ≠ [] := by
          intro hc
          rw [hc] at heq
          simp only [List.length_nil] at heq
          omega
        obtain ⟨hwE, -⟩ := lfuEvict_wf 1 hw
        have hlenE := lfuEvict_one hw hne
        have hnewE : alookup k (lfuEvict 1 s).items = none := lfuEvict_not_mem 1 hl
        have hw1 := lfuInsertFresh_wf v' hwE hnewE (by omega)
        cases hexp : cfg.expiration with
        | some d =>
          rw [hexp] at h
          dsimp only at h
          simp only [Except.ok.injEq] at h
          rw [← h]
          exact lfuWf_stats (lfuWf_updateV (fun it => { it with expiration := some (now + d) }) hw1 (fun it => rfl)) _ _ _
        | none =>
          rw [hexp] at h
          dsimp only at h
          simp only [Except.ok.injEq] at h
          rw [← h]
          exact lfuWf_stats hw1 _ _ _
      · rw [if_neg hcap] at h
        have hw1 := lfuInsertFresh_wf v' hw hl (by omega)
        cases hexp : cfg.expiration with
        | some d =>
          rw [hexp] at h
          dsimp only at h
          simp only [Except.ok.injEq] at h
          rw [← h]
          exact lfuWf_stats (lfuWf_updateV (fun it => { it with expiration := some (now + d) }) hw1 (fun it => rfl)) _ _ _
        | none =>
          rw [hexp] at h
          dsimp only at h
          simp only [Except.ok.injEq] at h
          rw [← h]
          exact lfuWf_stats hw1 _ _ _

theorem lfuSetWithExpire_inv {cfg : Config} {now : Time} {k : Key} {v : Value}
    {d : Time} {s s' : LfuS} (hsz : 0 < cfg.size) (hw : LfuWf cfg s)
    (h : lfuSetWithExpire cfg now k v d s = .ok s') : LfuWf cfg s' := by
  unfold lfuSetWithExpire at h
  cases hset : lfuSet cfg now k v s with
  | error e => rw [hset] at h; exact absurd h (by simp)
  | ok s1 =>
    rw [hset] at h
    dsimp only at h
    simp only [Except.ok.injEq] at h
    rw [← h]
    exact lfuWf_updateV (fun it => { it with expiration := some (now + d) }) (lfuSet_inv hsz hw hset) (fun it => rfl)

/-- `lfuCache.increment` keeps the LFU invariant: the item moves to the next
bucket, which either already exists or is spliced in at the tail. -/
theorem lfuIncrement_wf {cfg : Config} {s : LfuS} {k : Key} {it : LItem}
    (hw : LfuWf cfg s) (hl : alookup k s.items = some it) :
    LfuWf cfg (lfuIncrement k it s) := by
  obtain ⟨e, he, hm⟩ := hw.inBucket k it hl
  have hfe : e.freq = it.freqIdx := hw.freqs _ e he
  have hidxlt : it.freqIdx < s.freqList.length := get?_some_lt he
  have huniq : ∀ it'', alookup k s.items = some it'' → it'' = it := by
    intro it'' h''
    rw [hl] at h''
    simpa using h''.symm
  unfold lfuIncrement
  rw [he]
  dsimp only
  set fl := modifyAt it.freqIdx (fun e => { e with keys := e.keys.erase k }) s.freqList with hfldef
  have hflen : fl.length = s.freqList.length := by
    rw [hfldef]
    exact length_modifyAt _ _ _
  have hfl_idx : fl.get? it.freqIdx = some { e with keys := e.keys.erase k } := by
    rw [hfldef, get?_modifyAt_self, he]
    rfl
  have hfl_ne : ∀ j, j ≠ it.freqIdx → fl.get? j = s.freqList.get? j := by
    intro j hj
    rw [hfldef]
    exact get?_modifyAt_ne _ _ _ _ hj
  by_cases hA : it.freqIdx + 1 = fl.length
  · rw [if_pos hA]
    refine ⟨?_, ?_, ?_, ?_, ?_, ?_, ?_⟩
    · dsimp only
      simp
    · intro i e' he'
      dsimp only at he'
      by_cases hilt : i < fl.length
      · rw [List.get?_append hilt] at he'
        by_cases hi : i = it.freqIdx
        · rw [hi, hfl_idx] at he'
          simp only [Option.some.injEq] at he'
          rw [← he', hi]
          exact hfe
        · rw [hfl_ne i hi] at he'
          exact hw.freqs i e' he'
      · have hile : i < fl.length + 1 := by
          have := get?_some_lt he'
          simpa using this
        have hieq : i = fl.length := by omega
        rw [hieq, List.get?_concat_length] at he'
        simp only [Option.some.injEq] at he'
        rw [← he', hieq, ← hA]
        dsimp only
        rw [hfe]
    · dsimp only
      rw [map_fst_updateV]
      exact hw.ndItems
    · intro i e' he'
      dsimp only at he'
      by_cases hilt : i < fl.length
      · rw [List.get?_append hilt] at he'
        by_cases hi : i = it.freqIdx
        · rw [hi, hfl_idx] at he'
          simp only [Option.some.injEq] at he'
          rw [← he']
          exact (hw.ndBuckets _ e he).erase k
        · rw [hfl_ne i hi] at he'
          exact hw.ndBuckets i e' he'
      · have hile : i < fl.length + 1 := by
          have := get?_some_lt he'
          simpa using this
        have hieq : i = fl.length := by omega
        rw [hieq, List.get?_concat_length] at he'
        simp only [Option.some.injEq] at he'
        rw [← he']
        exact List.nodup_singleton k
    · intro k' it' hl'
      dsimp only at hl' ⊢
      by_cases hk : k' = k
      · subst hk
        rw [alookup_updateV_self, hl] at hl'
        simp only [Option.map_some', Option.some.injEq] at hl'
        subst hl'
        refine ⟨{ freq := e.freq + 1, keys := [k'] }, ?_, by simp⟩
        dsimp only
        rw [hA, List.get?_concat_length]
      · rw [alookup_updateV_ne _ _ hk] at hl'
        obtain ⟨e2, he2, hm2⟩ := hw.inBucket k' it' hl'
        have h2lt : it'.freqIdx < s.freqList.length := get?_some_lt he2
        have h2lt' : it'.freqIdx < fl.length := by omega
        rw [List.get?_append h2lt']
        by_cases hi : it'.freqIdx = it.freqIdx
        · rw [hi] at he2 ⊢
          have he2e : e2 = e := by
            rw [he] at he2
            simpa using he2.symm
          rw [hfl_idx]
          refine ⟨_, rfl, ?_⟩
          dsimp only
          refine (List.mem_erase_of_ne hk).mpr ?_
          rw [← he2e]
          exact hm2
        · rw [hfl_ne _ hi]
          exact ⟨e2, he2, hm2⟩
    · intro i e' he' k' hk'
      dsimp only at he' ⊢
      by_cases hilt : i < fl.length
      · rw [List.get?_append hilt] at he'
        by_cases hi : i = it.freqIdx
        · rw [hi, hfl_idx] at he'
          simp only [Option.some.injEq] at he'
          rw [← he'] at hk'
          have hk'' : k' ∈ e.keys := List.mem_of_mem_erase hk'
          have hkne : k' ≠ k := by
            intro hc
            subst hc
            exact (hw.ndBuckets _ e he).not_mem_erase hk'
          obtain ⟨it', hl', hidx⟩ := hw.bucketOwner _ e he k' hk''
          refine ⟨it', ?_, by rw [hi]; exact hidx⟩
          rw [alookup_updateV_ne _ _ hkne]
          exact hl'
        · rw [hfl_ne i hi] at he'
          obtain ⟨it', hl', hidx⟩ := hw.bucketOwner i e' he' k' hk'
          have hkne : k' ≠ k := by
            intro hc
            subst hc
            rw [huniq it' hl'] at hidx
            exact hi hidx.symm
          refine ⟨it', ?_, hidx⟩
          rw [alookup_updateV_ne _ _ hkne]
          exact hl'
      · have hile : i < fl.length + 1 := by
          have := get?_some_lt he'
          simpa using this
        have hieq : i = fl.length := by omega
        rw [hieq, List.get?_concat_length] at he'
        simp only [Option.some.injEq] at he'
        rw [← he'] at hk'
        have hkk : k' = k := by simpa using hk'
        subst hkk
        refine ⟨{ it with freqIdx := it.freqIdx + 1 }, ?_, ?_⟩
        · rw [alookup_updateV_self, hl]
          rfl
        · dsimp only
          rw [hieq]
          exact hA
    · dsimp only
      rw [length_updateV]
      exact hw.lenLe
  · rw [if_neg hA]
    have h1lt : it.freqIdx + 1 < fl.length := by omega
    cases he1 : s.freqList.get? (it.freqIdx + 1) with
    | none =>
      rw [List.get?_eq_none] at he1
      omega
    | some e1 =>
      have hfe1 : e1.freq = it.freqIdx + 1 := hw.freqs _ e1 he1
      have hfl1 : fl.get? (it.freqIdx + 1) = some e1 := by
        rw [hfl_ne _ (by omega)]
        exact he1
      have hk1 : k ∉ e1.keys := by
        intro hc
        obtain ⟨it'', hl'', hidx''⟩ := hw.bucketOwner _ e1 he1 k hc
        rw [huniq it'' hl''] at hidx''
        omega
      refine ⟨?_, ?_, ?_, ?_, ?_, ?_, ?_⟩
      · dsimp only
        have h1 := length_modifyAt (it.freqIdx + 1) (fun e => { e with keys := e.keys ++ [k] }) fl
        rw [hflen] at h1
        exact ne_nil_of_length_eq h1 hw.ne
      · intro i e' he'
        dsimp only at he'
        by_cases hi1 : i = it.freqIdx + 1
        · rw [hi1, get?_modifyAt_self, hfl1] at he'
          simp only [Option.map_some', Option.some.injEq] at he'
          rw [← he', hi1]
          exact hfe1
        · rw [get?_modifyAt_ne _ _ _ _ hi1] at he'
          by_cases hi : i = it.freqIdx
          · rw [hi, hfl_idx] at he'
            simp only [Option.some.injEq] at he'
            rw [← he', hi]
            exact hfe
          · rw [hfl_ne i hi] at he'
            exact hw.freqs i e' he'
      · dsimp only
        rw [map_fst_updateV]
        exact hw.ndItems
      · intro i e' he'
        dsimp only at he'
        by_cases hi1 : i = it.freqIdx + 1
        · rw [hi1, get?_modifyAt_self, hfl1] at he'
          simp only [Option.map_some', Option.some.injEq] at he'
          rw [← he']
          rw [List.nodup_append]
          refine ⟨hw.ndBuckets _ e1 he1, List.nodup_singleton k, ?_⟩
          intro a ha hc
          simp only [List.mem_singleton] at hc
          subst hc
          exact hk1 ha
        · rw [get?_modifyAt_ne _ _ _ _ hi1] at he'
          by_cases hi : i = it.freqIdx
          · rw [hi, hfl_idx] at he'
            simp only [Option.some.injEq] at he'
            rw [← he']
            exact (hw.ndBuckets _ e he).erase k
          · rw [hfl_ne i hi] at he'
            exact hw.ndBuckets i e' he'
      · intro k' it' hl'
        dsimp only at hl' ⊢
        by_cases hk : k' = k
        · subst hk
          rw [alookup_updateV_self, hl] at hl'
          simp only [Option.map_some', Option.some.injEq] at hl'
          subst hl'
          refine ⟨{ e1 with keys := e1.keys ++ [k'] }, ?_, by simp⟩
          dsimp only
          rw [get?_modifyAt_self, hfl1]
          rfl
        · rw [alookup_updateV_ne _ _ hk] at hl'
          obtain ⟨e2, he2, hm2⟩ := hw.inBucket k' it' hl'
          by_cases hi1 : it'.freqIdx = it.freqIdx + 1
          · rw [hi1] at he2 ⊢
            have he2e : e2 = e1 := by
              rw [he1] at he2
              simpa using he2.symm
            rw [get?_modifyAt_self, hfl1]
            refine ⟨_, rfl, ?_⟩
            dsimp only
            refine List.mem_append_left _ ?_
            rw [← he2e]
            exact hm2
          · rw [get?_modifyAt_ne _ _ _ _ hi1]
            by_cases hi : it'.freqIdx = it.freqIdx
            · rw [hi] at he2 ⊢
              have he2e : e2 = e := by
                rw [he] at he2
                simpa using he2.symm
              rw [hfl_idx]
              refine ⟨_, rfl, ?_⟩
              dsimp only
              refine (List.mem_erase_of_ne hk).mpr ?_
              rw [← he2e]
              exact hm2
            · rw [hfl_ne _ hi]
              exact ⟨e2, he2, hm2⟩
      · intro i e' he' k' hk'
        dsimp only at he' ⊢
        by_cases hi1 : i = it.freqIdx + 1
        · rw [hi1, get?_modifyAt_self, hfl1] at he'
          simp only [Option.map_some', Option.some.injEq] at he'
          rw [← he'] at hk'
          rcases List.mem_append.mp hk' with hm' | hm'
          · have hkne : k' ≠ k := by
              intro hc
              subst hc
              exact hk1 hm'
            obtain ⟨it', hl', hidx⟩ := hw.bucketOwner _ e1 he1 k' hm'
            refine ⟨it', ?_, by rw [hi1]; exact hidx⟩
            rw [alookup_updateV_ne _ _ hkne]
            exact hl'
          · have hkk : k' = k := by simpa using hm'
            subst hkk
            refine ⟨{ it with freqIdx := it.freqIdx + 1 }, ?_, ?_⟩
            · rw [alookup_updateV_self, hl]
              rfl
            · dsimp only
              rw [hi1]
        · rw [get?_modifyAt_ne _ _ _ _ hi1] at he'
          by_cases hi : i = it.freqIdx
          · rw [hi, hfl_idx] at he'
            simp only [Option.some.injEq] at he'
            rw [← he'] at hk'
            have hk'' : k' ∈ e.keys := List.mem_of_mem_erase hk'
            have hkne : k' ≠ k := by
              intro hc
              subst hc
              exact (hw.ndBuckets _ e he).not_mem_erase hk'
            obtain ⟨it', hl', hidx⟩ := hw.bucketOwner _ e he k' hk''
            refine ⟨it', ?_, by rw [hi]; exact hidx⟩
            rw [alookup_updateV_ne _ _ hkne]
            exact hl'
          · rw [hfl_ne i hi] at he'
            obtain ⟨it', hl', hidx⟩ := hw.bucketOwner i e' he' k' hk'
            have hkne : k' ≠ k := by
              intro hc
              subst hc
              rw [huniq it' hl'] at hidx
              exact hi hidx.symm
            refine ⟨it', ?_, hidx⟩
            rw [alookup_updateV_ne _ _ hkne]
            exact hl'
      · dsimp only
        rw [length_updateV]
        exact hw.lenLe

/-- The frequency consequence of `increment`: the item lands in a bucket of
frequency exactly one higher than its old bucket's. -/
theorem lfuIncrement_freq {cfg : Config} {s : LfuS} {k : Key} {it : LItem}
    (hw : LfuWf cfg s) (hl : alookup k s.items = some it) :
    ∃ e e', s.freqList.get? it.freqIdx = some e ∧
      (lfuIncrement k it s).freqList.get? (it.freqIdx + 1) = some e' ∧
      e'.freq = e.freq + 1 ∧
      alookup k (lfuIncrement k it s).items =
        some { it with freqIdx := it.freqIdx + 1 } ∧ k ∈ e'.keys := by
  obtain ⟨e, he, hm⟩ := hw.inBucket k it hl
  have hfe : e.freq = it.freqIdx := hw.freqs _ e he
  have hidxlt : it.freqIdx < s.freqList.length := get?_some_lt he
  refine ⟨e, ?_⟩
  unfold lfuIncrement
  rw [he]
  dsimp only
  set fl := modifyAt it.freqIdx (fun e => { e with keys := e.keys.erase k }) s.freqList with hfldef
  have hflen : fl.length = s.freqList.length := by
    rw [hfldef]
    exact length_modifyAt _ _ _
  by_cases hA : it.freqIdx + 1 = fl.length
  · rw [if_pos hA]
    refine ⟨{ freq := e.freq + 1, keys := [k] }, rfl, ?_, rfl, ?_, by simp⟩
    · dsimp only
      rw [hA, List.get?_concat_length]
    · dsimp only
      rw [alookup_updateV_self, hl]
      rfl
  · rw [if_neg hA]
    have h1lt : it.freqIdx + 1 < fl.length := by omega
    cases he1 : s.freqList.get? (it.freqIdx + 1) with
    | none =>
      rw [List.get?_eq_none] at he1
      omega
    | some e1 =>
      have hfe1 : e1.freq = it.freqIdx + 1 := hw.freqs _ e1 he1
      have hfl1 : fl.get? (it.freqIdx + 1) = some e1 := by
        rw [hfldef, get?_modifyAt_ne _ _ _ _ (by omega)]
        exact he1
      refine ⟨{ e1 with keys := e1.keys ++ [k] }, rfl, ?_, ?_, ?_, by simp⟩
      · dsimp only
        rw [get?_modifyAt_self, hfl1]
        rfl
      · dsimp only
        rw [hfe1, hfe]
      · dsimp only
        rw [alookup_updateV_self, hl]
        rfl

theorem lfuGetValue_inv {cfg : Config} {now : Time} {k : Key} {onLoad : Bool}
    {s : LfuS} (hw : LfuWf cfg s) :
    LfuWf cfg (lfuGetValue now k onLoad s).2 := by
  unfold lfuGetValue
  cases hl : alookup k s.items with
  | none =>
    dsimp only
    exact lfuWf_stats hw _ _ _
  | some item =>
    dsimp only
    by_cases hex : isExpired item.expiration now
    · simp only [hex, Bool.not_true, Bool.false_eq_true, if_false]
      exact lfuWf_stats (lfuRemoveItem_wf hw hl).1 _ _ _
    · simp only [hex, Bool.not_false, if_true]
      exact lfuWf_stats (lfuIncrement_wf hw hl) _ _ _

theorem lfuGet_inv {cfg : Config} {now : Time} {k : Key} {onLoad : Bool}
    {s : LfuS} (hw : LfuWf cfg s) :
    LfuWf cfg (lfuGet cfg now k onLoad s).2 := by
  have h2 : LfuWf cfg (lfuGetValue now k onLoad s).2 := lfuGetValue_inv hw
  unfold lfuGet
  cases hg : lfuGetValue now k onLoad s with
  | mk r s1 =>
    rw [hg] at h2
    dsimp only at h2
    cases r with
    | error e =>
      dsimp only
      exact h2
    | ok v =>
      dsimp only
      cases deserVal cfg k v with
      | ok v' => exact h2
      | error e => exact h2

theorem lfuPurge_inv {cfg : Config} (s : LfuS) : LfuWf cfg (lfuPurge s) := by
  refine ⟨by simp [lfuPurge], ?_, by simp [lfuPurge], ?_, ?_, ?_, by simp [lfuPurge]⟩
  · intro i e' he'
    cases i with
    | zero =>
      simp only [lfuPurge, List.get?_cons_zero, Option.some.injEq] at he'
      subst he'
      rfl
    | succ n => simp [lfuPurge] at he'
  · intro i e' he'
    cases i with
    | zero =>
      simp only [lfuPurge, List.get?_cons_zero, Option.some.injEq] at he'
      subst he'
      exact List.nodup_nil
    | succ n => simp [lfuPurge] at he'
  · intro k' it' hl'
    simp [lfuPurge, alookup] at hl'
  · intro i e' he' k' hk'
    cases i with
    | zero =>
      simp only [lfuPurge, List.get?_cons_zero, Option.some.injEq] at he'
      subst he'
      simp at hk'
    | succ n => simp [lfuPurge] at he'

theorem lfuInit_wf (cfg : Config) : LfuWf cfg lfuInit := by
  refine ⟨by simp [lfuInit], ?_, by simp [lfuInit], ?_, ?_, ?_, by simp [lfuInit]⟩
  · intro i e' he'
    cases i with
    | zero =>
      simp only [lfuInit, List.get?_cons_zero, Option.some.injEq] at he'
      subst he'
      rfl
    | succ n => simp [lfuInit] at he'
  · intro i e' he'
    cases i with
    | zero =>
      simp only [lfuInit, List.get?_cons_zero, Option.some.injEq] at he'
      subst he'
      exact List.nodup_nil
    | succ n => simp [lfuInit] at he'
  · intro k' it' hl'
    simp [lfuInit, alookup] at hl'
  · intro i e' he' k' hk'
    cases i with
    | zero =>
      simp only [lfuInit, List.get?_cons_zero, Option.some.injEq] at he'
      subst he'
      simp at hk'
    | succ n => simp [lfuInit] at he'

theorem applyLOp_inv {cfg : Config} {s : LfuS} (hsz : 0 < cfg.size)
    (hw : LfuWf cfg s) (op : LOp) : LfuWf cfg (applyLOp cfg s op) := by
  cases op with
  | set now k v =>
    dsimp only [applyLOp]
    cases hset : lfuSet cfg now k v s with
    | ok s' =>
      dsimp only
      exact lfuSet_inv hsz hw hset
    | error e =>
      dsimp only
      exact hw
  | setWithExpire now k v d =>
    dsimp only [applyLOp]
    cases hset : lfuSetWithExpire cfg now k v d s with
    | ok s' =>
      dsimp only
      exact lfuSetWithExpire_inv hsz hw hset
    | error e =>
      dsimp only
      exact hw
  | get now k onLoad =>
    dsimp only [applyLOp]
    exact lfuGet_inv hw
  | remove k =>
    dsimp only [applyLOp]
    exact (lfuRemove_wf k hw).1
  | purge =>
    dsimp only [applyLOp]
    exact lfuPurge_inv s

theorem applyLOps_inv {cfg : Config} (hsz : 0 < cfg.size) (ops : List LOp) :
    ∀ s : LfuS, LfuWf cfg s → LfuWf cfg (applyLOps cfg ops s) := by
  induction ops with
  | nil => exact fun s hw => hw
  | cons op t ih => exact fun s hw => ih _ (applyLOp_inv hsz hw op)

/-- C10: in the LFU engine, after every operation sequence from `init` (with
a positive capacity, as `New` enforces) the frequency-bucket list starts with
a bucket of frequency 0, and bucket `i` has frequency exactly `i` — the
frequencies are the consecutive integers `0, 1, 2, ...`.  Consequently
`increment` always moves an item into a bucket whose frequency is the item's
previous bucket's frequency plus one, even though the code never compares
the successor bucket's frequency. -/
theorem C10_freq_buckets_consecutive (cfg : Config) (ops : List LOp)
    (hsz : 0 < cfg.size) :
    (∃ e0, (applyLOps cfg ops lfuInit).freqList.get? 0 = some e0 ∧
      e0.freq = 0) ∧
    (∀ i e, (applyLOps cfg ops lfuInit).freqList.get? i = some e →
      e.freq = i) ∧
    (∀ k it, alookup k (applyLOps cfg ops lfuInit).items = some it →
      ∃ e e', (applyLOps cfg ops lfuInit).freqList.get? it.freqIdx = some e ∧
        (lfuIncrement k it (applyLOps cfg ops lfuInit)).freqList.get?
          (it.freqIdx + 1) = some e' ∧
        e'.freq = e.freq + 1 ∧ k ∈ e'.keys) := by
  have hw := applyLOps_inv hsz ops lfuInit (lfuInit_wf cfg)
  refine ⟨?_, hw.freqs, ?_⟩
  · cases hfl : (applyLOps cfg ops lfuInit).freqList with
    | nil => exact absurd hfl hw.ne
    | cons e0 rest =>
      refine ⟨e0, rfl, ?_⟩
      exact hw.freqs 0 e0 (by rw [hfl]; rfl)
  · intro k it hl
    obtain ⟨e, e', h1, h2, h3, h4, h5⟩ := lfuIncrement_freq hw hl
    exact ⟨e, e', h1, h2, h3, h5⟩

theorem C10_witness :
    ∃ e0, (applyLOps ⟨2, none, none, none⟩ [.set 0 1 1, .get 1 1 false]
      lfuInit).freqList.get? 0 = some e0 ∧ e0.freq = 0 :=
  (C10_freq_buckets_consecutive ⟨2, none, none, none⟩
    [.set 0 1 1, .get 1 1 false] (by decide)).1

/-- C1 counterexample: a Simple cache of capacity 1 holds 2 entries after
`SetWithExpire k1` followed by `Set k2`: the `set` of the fresh key `k2`
calls `evict(1)`, but `evict` only removes entries whose expiration is nil
or already passed, and `k1`'s expiration (10) is in the future — so nothing
is evicted and the insert brings the live-entry count to 2 > 1.  The claim
that "the evict step removes at least one existing entry" fails. -/
theorem C1_counterexample :
    (applySOps ⟨1, none, none, none⟩ [.setWithExpire 0 1 1 10, .set 0 2 2]
      simpleInit).items.length = 2 ∧
    simpleLen true 0 (applySOps ⟨1, none, none, none⟩
      [.setWithExpire 0 1 1 10, .set 0 2 2] simpleInit) = 2 := by
  exact ⟨by decide, by decide⟩

/-- C1 (amended): the capacity bound N holds for the LFU and ARC engines
after every operation sequence, and for the Simple engine on traces that
never attach an expiration (no default TTL and no `SetWithExpire`); the
Simple `evict(1)` step removes an entry exactly when some entry qualifies,
i.e. has nil expiration or is already expired. -/
theorem C1_amended :
    (∀ (now : Time) (s : SimpleS),
      (∃ p ∈ s.items, p.2.expiration = none ∨ isExpired p.2.expiration now) →
      (simpleEvict now 1 s).items.length < s.items.length) ∧
    (∀ (cfg : Config) (ops : List SOp), cfg.expiration = none →
      0 < cfg.size → (∀ op ∈ ops, op.usesExpire = false) →
      (applySOps cfg ops simpleInit).items.length ≤ cfg.size) ∧
    (∀ (cfg : Config) (ops : List LOp), 0 < cfg.size →
      (applyLOps cfg ops lfuInit).items.length ≤ cfg.size) ∧
    (∀ (cfg : Config) (ops : List AOp), 0 < cfg.size →
      (applyAOps cfg ops arcInit).items.length ≤ cfg.size) := by
  refine ⟨?_, ?_, ?_, ?_⟩
  · intro now s h
    exact simpleEvict_removes h
  · intro cfg ops hexp hsz hops
    exact (applySOps_bounded hexp hsz ops hops (by simp [simpleInit])
      (by simp [simpleInit])).2
  · intro cfg ops hsz
    exact (applyLOps_inv hsz ops lfuInit (lfuInit_wf cfg)).lenLe
  · intro cfg ops hsz
    have hinv := applyAOps_inv hsz ops arcInit_inv
    rw [arcInv_items_length hinv]
    exact hinv.live

theorem C1_witness :
    (simpleEvict 0 1 ⟨[(1, ⟨7, none⟩)], 0, 0, []⟩).items.length <
      ([(1, (⟨7, none⟩ : SItem))]).length ∧
    (applySOps ⟨1, none, none, none⟩ [.set 0 1 1, .set 0 2 2]
      simpleInit).items.length ≤ 1 ∧
    (applyLOps ⟨1, none, none, none⟩ [.set 0 1 1, .set 0 2 2]
      lfuInit).items.length ≤ 1 ∧
    (applyAOps ⟨1, none, none, none⟩ [.set 0 1 1, .set 0 2 2]
      arcInit).items.length ≤ 1 := by
  refine ⟨?_, ?_, ?_, ?_⟩
  · exact C1_amended.1 0 ⟨[(1, ⟨7, none⟩)], 0, 0, []⟩
      ⟨(1, ⟨7, none⟩), by decide, by decide⟩
  · exact C1_amended.2.1 ⟨1, none, none, none⟩ [.set 0 1 1, .set 0 2 2]
      rfl (by decide) (by decide)
  · exact C1_amended.2.2.1 ⟨1, none, none, none⟩ [.set 0 1 1, .set 0 2 2]
      (by decide)
  · exact C1_amended.2.2.2 ⟨1, none, none, none⟩ [.set 0 1 1, .set 0 2 2]
      (by decide)

/-! ## Single-flight coordinator (C8) -/

/-- Is this action a loader invocation (a `start`) for key `k`? -/
def isStart (k : Key) : GAction → Bool
  | .start _ k' => k' = k
  | _ => false

/-- Is this action the completion of the in-flight call for key `k`? -/
def isFinish (k : Key) : GAction → Bool
  | .finish k' _ => k' = k
  | _ => false

/-- Number of loader invocations for `k` in a trace. -/
def countStarts (k : Key) (acts : List GAction) : Nat :=
  (acts.filter (isStart k)).length

/-- Number of completions for `k` in a trace. -/
def countFinishes (k : Key) (acts : List GAction) : Nat :=
  (acts.filter (isFinish k)).length

theorem countStarts_cons (k : Key) (a : GAction) (l : List GAction) :
    countStarts k (a :: l) = countStarts k l + (if isStart k a then 1 else 0) := by
  by_cases h : isStart k a
  · simp [countStarts, List.filter_cons, h]
  · simp [countStarts, List.filter_cons, h]

theorem countFinishes_cons (k : Key) (a : GAction) (l : List GAction) :
    countFinishes k (a :: l) = countFinishes k l + (if isFinish k a then 1 else 0) := by
  by_cases h : isFinish k a
  · simp [countFinishes, List.filter_cons, h]
  · simp [countFinishes, List.filter_cons, h]

theorem alookup_append_singleton_ne {α : Type} {k k0 : Key} (v : α)
    (g : List (Key × α)) (h : k ≠ k0) :
    alookup k (g ++ [(k0, v)]) = alookup k g := by
  cases hl : alookup k g with
  | some w => rw [alookup_append_of_some _ hl]
  | none =>
    rw [alookup_append_of_none _ hl]
    simp [alookup, Ne.symm h]

/-- Conservation of in-flight calls: along any valid coordinator run, the
number of loader invocations for `k` equals the number of completions plus
one exactly when a call is still in flight at the end. -/
theorem grun_count (acts : List GAction) :
    ∀ (g : GroupS) (obs : List Obs) (g' : GroupS) (obs' : List Obs),
      grun g obs acts = some (g', obs') → ∀ k,
      countStarts k acts + (if (alookup k g).isSome then 1 else 0) =
        countFinishes k acts + (if (alookup k g').isSome then 1 else 0) := by
  induction acts with
  | nil =>
    intro g obs g' obs' h k
    unfold grun at h
    simp only [Option.some.injEq, Prod.mk.injEq] at h
    rw [h.1]
    simp [countStarts, countFinishes]
  | cons a rest ih =>
    intro g obs g' obs' h k
    unfold grun at h
    cases hs : gstep g a with
    | none =>
      rw [hs] at h
      simp at h
    | some p =>
      obtain ⟨g1, o⟩ := p
      rw [hs] at h
      dsimp only at h
      have hrest := ih g1 (obs ++ o) g' obs' h k
      rw [countStarts_cons, countFinishes_cons]
      cases a with
      | start c k0 =>
        unfold gstep at hs
        dsimp only at hs
        cases hl : alookup k0 g with
        | some sl =>
          rw [hl] at hs
          simp at hs
        | none =>
          rw [hl] at hs
          simp only [Option.some.injEq, Prod.mk.injEq] at hs
          obtain ⟨hg1, ho⟩ := hs
          subst hg1
          subst ho
          by_cases hk : k = k0
          · subst hk
            have hig : (if (alookup k g).isSome then 1 else 0) = 0 := by
              rw [hl]
              rfl
            have hig1 : (if (alookup k
                (g ++ [(k, ({ leader := c, waiters := [] } : Slot))])).isSome
                then 1 else 0) = 1 := by
              rw [alookup_append_of_none _ hl]
              simp [alookup]
            rw [hig1] at hrest
            have ha_s : (if isStart k (GAction.start c k) then 1 else 0) = 1 := by
              simp [isStart]
            have ha_f : (if isFinish k (GAction.start c k) then 1 else 0) = 0 := by
              simp [isFinish]
            rw [ha_s, ha_f, hig]
            omega
          · rw [alookup_append_singleton_ne _ _ hk] at hrest
            have hk0 : ¬ k0 = k := fun hc => hk hc.symm
            have ha_s : (if isStart k (GAction.start c k0) then 1 else 0) = 0 := by
              simp [isStart, hk0]
            have ha_f : (if isFinish k (GAction.start c k0) then 1 else 0) = 0 := by
              simp [isFinish]
            rw [ha_s, ha_f]
            omega
      | join c k0 =>
        unfold gstep at hs
        dsimp only at hs
        cases hl : alookup k0 g with
        | none =>
          rw [hl] at hs
          simp at hs
        | some sl =>
          rw [hl] at hs
          simp only [Option.some.injEq, Prod.mk.injEq] at hs
          obtain ⟨hg1, ho⟩ := hs
          subst hg1
          subst ho
          have ha_s : (if isStart k (GAction.join c k0) then 1 else 0) = 0 := by
            simp [isStart]
          have ha_f : (if isFinish k (GAction.join c k0) then 1 else 0) = 0 := by
            simp [isFinish]
          rw [ha_s, ha_f]
          by_cases hk : k = k0
          · subst hk
            rw [alookup_updateV_self, hl] at hrest
            have hig : (if (alookup k g).isSome then 1 else 0) = 1 := by
              rw [hl]
              rfl
            rw [hig]
            simp at hrest
            omega
          · rw [alookup_updateV_ne _ _ hk] at hrest
            omega
      | finish k0 r =>
        unfold gstep at hs
        dsimp only at hs
        cases hl : alookup k0 g with
        | none =>
          rw [hl] at hs
          simp at hs
        | some sl =>
          rw [hl] at hs
          simp only [Option.some.injEq, Prod.mk.injEq] at hs
          obtain ⟨hg1, ho⟩ := hs
          subst hg1
          subst ho
          by_cases hk : k = k0
          · subst hk
            rw [alookup_eraseKey_self] at hrest
            have hig : (if (alookup k g).isSome then 1 else 0) = 1 := by
              rw [hl]
              rfl
            have ha_s : (if isStart k (GAction.finish k r) then 1 else 0) = 0 := by
              simp [isStart]
            have ha_f : (if isFinish k (GAction.finish k r) then 1 else 0) = 1 := by
              simp [isFinish]
            rw [ha_s, ha_f, hig]
            simp at hrest
            omega
          · rw [alookup_eraseKey_ne _ hk] at hrest
            have ha_s : (if isStart k (GAction.finish k0 r) then 1 else 0) = 0 := by
              simp [isStart]
            have hk0 : ¬ k0 = k := fun hc => hk hc.symm
            have ha_f : (if isFinish k (GAction.finish k0 r) then 1 else 0) = 0 := by
              simp [isFinish, hk0]
            rw [ha_s, ha_f]
            omega

/-- The canonical concurrent-miss scenario: with one in-flight call for `k`
led by `c0` and waiters `w`, a burst of joins followed by the completion
broadcasts the single result `r` to the leader and every waiter. -/
theorem grun_joins_finish (k : Key) (r : LoadResult) (c0 : Nat) :
    ∀ (cs : List Nat) (w : List Nat) (obs : List Obs),
      grun [(k, { leader := c0, waiters := w })] obs
          (cs.map (fun c => .join c k) ++ [.finish k r]) =
        some ([], obs ++ (c0 :: (w ++ cs)).map (fun c => (c, k, r))) := by
  intro cs
  induction cs with
  | nil =>
    intro w obs
    simp only [List.map_nil, List.nil_append]
    unfold grun
    have h1 : gstep [(k, ({ leader := c0, waiters := w } : Slot))] (.finish k r) =
        some ([], (c0 :: w).map (fun c => (c, k, r))) := by
      unfold gstep
      dsimp only
      have hl : alookup k [(k, ({ leader := c0, waiters := w } : Slot))] =
          some { leader := c0, waiters := w } := by
        simp [alookup]
      rw [hl]
      have he : eraseKey k [(k, ({ leader := c0, waiters := w } : Slot))] = [] := by
        simp [eraseKey]
      rw [he]
    rw [h1]
    dsimp only
    unfold grun
    simp
  | cons c cs' ih =>
    intro w obs
    simp only [List.map_cons, List.cons_append]
    unfold grun
    have h1 : gstep [(k, ({ leader := c0, waiters := w } : Slot))] (.join c k) =
        some ([(k, { leader := c0, waiters := w ++ [c] })], []) := by
      unfold gstep
      dsimp only
      have hl : alookup k [(k, ({ leader := c0, waiters := w } : Slot))] =
          some { leader := c0, waiters := w } := by
        simp [alookup]
      rw [hl]
      have hu : updateV k (fun sl => { sl with waiters := sl.waiters ++ [c] })
          [(k, ({ leader := c0, waiters := w } : Slot))] =
          [(k, { leader := c0, waiters := w ++ [c] })] := by
        simp [updateV]
      rw [hu]
    rw [h1]
    dsimp only
    rw [List.append_nil]
    rw [ih (w ++ [c]) obs]
    simp [List.append_assoc]

/-- C8: single-flight loading.  (i) While a call for `k` is in flight a
further `start` is not enabled — a concurrent caller can only join as a
waiter, so no second loader invocation happens; (ii) along any valid
coordinator run from the empty state the number of loader invocations for
`k` is the number of completions, plus one exactly when a call is still in
flight — one invocation per flight; (iii) in the canonical scenario where a
leader starts the load, M−1 callers join and the loader completes with
result `r`, every one of the M callers observes the identical `(c, k, r)`,
value or error alike. -/
theorem C8_single_flight_once_and_broadcast :
    (∀ (g : GroupS) (c : Nat) (k : Key), (alookup k g).isSome →
      gstep g (.start c k) = none) ∧
    (∀ (acts : List GAction) (g' : GroupS) (obs' : List Obs),
      grun [] [] acts = some (g', obs') → ∀ k,
      countStarts k acts =
        countFinishes k acts + (if (alookup k g').isSome then 1 else 0)) ∧
    (∀ (c0 : Nat) (cs : List Nat) (k : Key) (r : LoadResult),
      grun [] []
          (.start c0 k :: (cs.map (fun c => .join c k) ++ [.finish k r])) =
        some ([], (c0 :: cs).map (fun c => (c, k, r)))) := by
  refine ⟨?_, ?_, ?_⟩
  · intro g c k h
    unfold gstep
    dsimp only
    cases hl : alookup k g with
    | some sl => rfl
    | none =>
      rw [hl] at h
      simp at h
  · intro acts g' obs' h k
    have hc := grun_count acts [] [] g' obs' h k
    simpa [alookup] using hc
  · intro c0 cs k r
    unfold grun
    have h1 : gstep [] (.start c0 k) =
        some ([(k, { leader := c0, waiters := [] })], []) := by
      unfold gstep
      dsimp only
      rfl
    rw [h1]
    dsimp only
    rw [List.nil_append]
    rw [grun_joins_finish k r c0 cs [] []]
    simp

theorem C8_witness :
    gstep [(5, { leader := 0, waiters := [] })] (.start 3 5) = none ∧
    countStarts 5 [.start 0 5, .join 1 5, .join 2 5, .finish 5 (.ok 42)] =
      countFinishes 5 [.start 0 5, .join 1 5, .join 2 5, .finish 5 (.ok 42)] +
        (if (alookup 5 ([] : GroupS)).isSome then 1 else 0) ∧
    grun [] []
        (.start 0 5 :: ([1, 2].map (fun c => .join c 5) ++
          [.finish 5 (.ok 42)])) =
      some ([], (0 :: [1, 2]).map (fun c => (c, 5, LoadResult.ok 42))) := by
  refine ⟨?_, ?_, ?_⟩
  · exact C8_single_flight_once_and_broadcast.1
      [(5, { leader := 0, waiters := [] })] 3 5 (by decide)
  · exact C8_single_flight_once_and_broadcast.2.1
      [.start 0 5, .join 1 5, .join 2 5, .finish 5 (.ok 42)] []
      [(0, 5, .ok 42), (1, 5, .ok 42), (2, 5, .ok 42)] (by decide) 5
  · exact C8_single_flight_once_and_broadcast.2.2 0 [1, 2] 5 (.ok 42)

end GCache
